import Mathlib

/-!
Remote console (rcon) message model of the Daemon engine.

A shallow embedding of `src/engine/framework/Rcon.cpp` (`Rcon::Message`: `Valid`,
`Acceptable`, `Decode`, `Send`) and of the parts of `src/shared/Command.cpp` it relies on
(`Cmd::Escape`, `Cmd::Tokenize`, `Cmd::Args`), together with `Cmd::SplitCommands` and
`Cmd::SubstituteCvars`.

Conventions of the embedding:

* a `std::string` is a Lean `String`, one `Char` per `char`; `empty()` is `String.isEmpty`;
* an `int` / `enum class` value is an `Int` (no arithmetic here can overflow);
* an out-of-bounds read of a `std::vector` is `none` (functions that index return `Option`);
* a `std::string*` out-parameter is an `Option String` passed in and returned:
  `none` is the null pointer, `some s` a string currently holding `s`;
* global state (the two cvars, the challenge manager) is passed explicitly.
-/

namespace Cmd

/-- The characters of `Escape(text, quote)` between the optional surrounding quotes: the body of
the `for` loop, run on the rest of the text from index `i` on. `text[i + 1]` is the head of the
tail, and at the last index it is the string's terminating NUL. The bound check
`i < text.size() + 1` of the source is always true inside the loop. -/
def escapeLoop (quote : Bool) : List Char → List Char
  | [] => []
  | c :: rest =>
    let next := rest.headD '\x00'
    let commentStart := (c == '/') && (next == '/' || next == '*')
    let escapeNotQuote := (decide (c.toNat ≤ 32) && decide (0 < c.toNat)) || (c == ';') || commentStart
    let escape := (c == '$') || (c == '"') || (c == '\\')
    if (!quote && escapeNotQuote) || escape then
      '\\' :: c :: escapeLoop quote rest
    else
      c :: escapeLoop quote rest

/-- The function `Cmd::Escape(text, quote)`. -/
def Escape (text : String) (quote : Bool) : String :=
  let res := if quote then "\"" else ""
  let res := res ++ String.mk (escapeLoop quote text.data)
  if quote then res ++ "\"" else res

/-- The class `Cmd::Args`: the tokens of a command line and the offset each one starts at. -/
structure Args where
  /-- The tokens. -/
  args : List String
  /-- The start offset of each token in the command line. -/
  argsStarts : List Int
deriving DecidableEq

/-- The member `Args::Argc()`, spelled `args.size()` in `Rcon.cpp`. -/
def Args.size (a : Args) : Int :=
  (a.args.length : Int)

/-- The member `Args::Argv(argNum)`, spelled `args[argNum]` in `Rcon.cpp`: `none` when the index
is outside the vector. -/
def Args.Argv (a : Args) (argNum : Int) : Option String :=
  if argNum < 0 then none else a.args.get? argNum.toNat

/-- The `for (int i = start; i < end + 1; i++)` loop of `Args::QuotedArgs`, with the number of
iterations left as the recursion argument. -/
def Args.quotedLoop (a : Args) (start : Int) : Nat → Int → String → Option String
  | 0, _, res => some res
  | n + 1, i, res =>
    let res := if i != start then res ++ " " else res
    match a.Argv i with
    | none => none
    | some w => Args.quotedLoop a start n (i + 1) (res ++ Escape w true)

/-- The member `Args::QuotedArgs(start, end)`; a negative `end` stands for the last token. -/
def Args.QuotedArgs (a : Args) (start : Int) (stop : Int) : Option String :=
  let stop := if stop < 0 then a.size - 1 else stop
  Args.quotedLoop a start (stop + 1 - start).toNat start ""

/-- The comparison `c <= ' '` of `Tokenize` on a `char`. The type is signed on the platforms the
engine is built for (which is why `Escape` adds `c > 0`), so the bytes from 128 up are negative
and pass the test like the control characters and the space do. -/
def leSpace (c : Char) : Bool :=
  decide (c.toNat ≤ 32) || decide (128 ≤ c.toNat)

/-- The loop `while (pos < text.size() - 1 and not (text[pos] == '*' and text[pos + 1] == '/'))
pos ++;` that looks for the end of a block comment, run on the unread rest of the text: the
number of times it increments `pos`. -/
def skipComment : List Char → Nat
  | a :: b :: rest => if a == '*' && b == '/' then 0 else skipComment (b :: rest) + 1
  | _ => 0

/-- What an inner loop of `Tokenize` leaves behind. -/
structure TokenScan where
  /-- The characters of the token. -/
  token : List Char
  /-- The unread rest of the text. -/
  rest : List Char
  /-- By how much `pos` has moved. -/
  moved : Nat
deriving DecidableEq

/-- The loop `while (pos < text.size() and (escaped or c != '"'))` that reads a quoted token,
run on the unread rest of the text with the current values of `c`, `escaped` and `token`;
`pos < text.size()` holds exactly when the rest is non-empty. -/
def quotedToken (c : Char) (escaped : Bool) (token : List Char) : List Char → TokenScan
  | [] => { token := token, rest := [], moved := 0 }
  | d :: rest =>
    if escaped || c != '"' then
      let r :=
        if escaped || c != '\\' then quotedToken d false (token ++ [c]) rest
        else quotedToken d true token rest
      { r with moved := r.moved + 1 }
    else
      { token := token, rest := d :: rest, moved := 0 }

/-- The `do ... while (pos < text.size() and not finished)` loop that reads an unquoted token,
with the two statements that follow it: the `push_back` of the last character read when the
loop did not finish early, and the step back `pos--` when it ran into the start of a quote or
of a comment. It is run on the unread rest of the text with the current values of `c`,
`escaped` and `token`. On an empty rest `text[pos ++]` reads the terminating NUL and `pos` ends
one past the size of the text. -/
def unquotedToken (c : Char) (escaped : Bool) (token : List Char) : List Char → TokenScan
  | [] =>
    let token := if escaped || c != '\\' then token ++ [c] else token
    let escaped := !(escaped || c != '\\')
    let c := '\x00'
    let finished := !escaped && leSpace c
    { token := if !escaped && !finished then token ++ [c] else token, rest := [], moved := 1 }
  | d :: rest =>
    let token := if escaped || c != '\\' then token ++ [c] else token
    let escaped := !(escaped || c != '\\')
    let startsSomethingElse :=
      (!rest.isEmpty && d == '"') ||
        (!rest.isEmpty && d == '/' && (rest.headD '\x00' == '/' || rest.headD '\x00' == '*'))
    let finished := !escaped && (leSpace d || startsSomethingElse)
    if !rest.isEmpty && !finished then
      let r := unquotedToken d escaped token rest
      { r with moved := r.moved + 1 }
    else
      { token := if !escaped && !finished then token ++ [d] else token,
        rest := if startsSomethingElse then d :: rest else rest,
        moved := if startsSomethingElse then 0 else 1 }

/-- The outer loop `while (pos < text.size())` of `Tokenize`, one iteration per unit of fuel, on
the value of `pos`, the unread rest of the text (the characters from `pos` on), `tokenStart`
and the two output vectors; `none` when the fuel runs out. The local `token` is empty whenever
the loop is left, so the final `if (token != "")` adds nothing. -/
def tokenizeLoop :
    Nat → Nat → List Char → Int → List String → List Int → Option (List String × List Int)
  | 0, _, _, _, _, _ => none
  | _ + 1, _, [], _, tokens, tokenStarts => some (tokens, tokenStarts)
  | fuel + 1, pos, c :: rest, tokenStart, tokens, tokenStarts =>
    if leSpace c then
      tokenizeLoop fuel (pos + 1) rest tokenStart tokens tokenStarts
    else if c == '/' && !rest.isEmpty && rest.headD '\x00' == '/' then
      some (tokens, tokenStarts)
    else if c == '/' && !rest.isEmpty && rest.headD '\x00' == '*' then
      let skipped := skipComment rest.tail
      let after := rest.tail.drop (skipped + 2)
      if after.isEmpty then
        some (tokens, tokenStarts)
      else
        tokenizeLoop fuel (pos + 2 + skipped + 2) after tokenStart tokens tokenStarts
    else if c == '"' && !rest.isEmpty then
      let r := quotedToken (rest.headD '\x00') false [] rest.tail
      tokenizeLoop fuel (pos + 2 + r.moved) r.rest ((pos + 2 + r.moved : Nat) : Int)
        (tokens ++ [String.mk r.token]) (tokenStarts ++ [tokenStart])
    else
      let r := unquotedToken c false [] rest
      tokenizeLoop fuel (pos + 1 + r.moved) r.rest ((pos + 1 + r.moved : Nat) : Int)
        (tokens ++ [String.mk r.token]) (tokenStarts ++ [tokenStart])

/-- The function `Cmd::Tokenize(text, tokens, tokenStarts)`: the two vectors afterwards. Every
iteration of the outer loop reads at least one character, so one unit of fuel per character
and one for the last test is enough. -/
def Tokenize (text : String) (tokens : List String) (tokenStarts : List Int) :
    Option (List String × List Int) :=
  tokenizeLoop (text.length + 1) 0 text.data 0 tokens tokenStarts

/-- The constructor `Args::Args(command)`. -/
def Args.ofString (command : String) : Option Args :=
  match Tokenize command [] [] with
  | some r => some { args := r.1, argsStarts := r.2 }
  | none => none

/-- A character that `Tokenize` takes into an unquoted token as it is: above the space, below
128, and neither the quote nor the backslash. -/
def wordChar (c : Char) : Bool :=
  decide (32 < c.toNat) && decide (c.toNat < 128) && c != '"' && c != '\\'

/-- A run of such characters in which no '/' is followed by '/' or '*', so that no comment
starts in it. -/
def plainWord : List Char → Bool
  | [] => true
  | c :: rest =>
    wordChar c && !(c == '/' && (rest.headD '\x00' == '/' || rest.headD '\x00' == '*')) &&
      plainWord rest

/-- Modelled from the spec: whether `Args::EscapedArgs` puts a word between quotes. The spec has
each word "individually re-quoted so embedded separators/specials survive re-parsing", and in
its scenario the token `status` gives the command `status`, so a word without separators and
specials stays as it is. A word is quoted when it is empty or holds a character that is not a
`wordChar` (at or below the space, from 128 up, the quote, the backslash), a ';', a '$', or the
start of a comment. -/
def needsQuotes (w : List Char) : Bool :=
  w.isEmpty || !plainWord w || w.contains ';' || w.contains '$'

/-- Modelled from the spec: what `Args::EscapedArgs` makes of one word: the word as it is, or
the word through `Escape` with quote = true when it needs the quotes. -/
def escapeWord (w : String) : String :=
  if needsQuotes w.data then Escape w true else w

/-- Modelled from the spec: `Args::EscapedArgs(start)`, which `Message::Decode` calls, is not in
this `Command.cpp`; the spec describes its result as "the remaining tokens rejoined and
re-escaped as a single shell-safe string (each word individually re-quoted so embedded
separators/specials survive re-parsing)": the tokens from `start` on, each one through
`escapeWord`, joined by single spaces. -/
def Args.EscapedArgs (a : Args) (start : Int) : Option String :=
  some (" ".intercalate ((a.args.drop start.toNat).map escapeWord))

/-- The `for` loop of `SplitCommands`, run on the unread rest of the text (the characters from
index `i` on) with the current values of `inQuotes` and `escaped`, the characters from
`commandStart` up to `i`, and the list `res`. It returns `res` and the characters from
`commandStart` to the end of the text. -/
def splitLoop (inQuotes escaped : Bool) (current : List Char) (res : List String) :
    List Char → List String × List Char
  | [] => (res, current)
  | c :: rest =>
    if escaped then
      splitLoop inQuotes false (current ++ [c]) res rest
    else if c == '"' then
      splitLoop (!inQuotes) escaped (current ++ [c]) res rest
    else if c == '\n' || (!inQuotes && c == ';') then
      splitLoop inQuotes escaped [] (res ++ [String.mk current]) rest
    else
      splitLoop inQuotes escaped (current ++ [c]) res rest

/-- The function `Cmd::SplitCommands(commands)`. The last command is built from the C string
`commands.c_str() + commandStart`, so it ends at the first NUL behind `commandStart`. -/
def SplitCommands (commands : String) : List String :=
  let r := splitLoop false false [] [] commands.data
  r.1 ++ [String.mk (r.2.takeWhile (fun c => c != '\x00'))]

/-- What `SubstituteCvars` leaves behind: the string it returns, the names it asked
`Cvar_VariableStringBuffer` for, in order, and whether it printed the warning about an
unclosed block. -/
structure Substituted where
  /-- The string returned. -/
  result : String
  /-- The cvar names looked up. -/
  lookups : List String
  /-- Whether the warning was printed. -/
  warned : Bool
deriving DecidableEq

/-- The name `block.c_str()` that a cvar lookup sees: the block up to its first NUL. -/
def blockName (block : List Char) : String :=
  String.mk (block.takeWhile (fun c => c != '\x00'))

/-- The `for` loop of `SubstituteCvars`, run on the unread rest of the text with the current
values of `isEscaped` and `inCvarName`, the characters from `lastBlockStart` up to `i`, the
string `result` and the names looked up so far. The lookup `Cvar_VariableStringBuffer`, which is
not in this file, is the parameter `cvarValue`. -/
def substituteLoop (cvarValue : String → String) (isEscaped inCvarName : Bool)
    (block : List Char) (result : List Char) (lookups : List String) :
    List Char → Bool × List Char × List Char × List String
  | [] => (inCvarName, block, result, lookups)
  | c :: rest =>
    if isEscaped then
      substituteLoop cvarValue false inCvarName (block ++ [c]) result lookups rest
    else if c == '\\' then
      substituteLoop cvarValue true inCvarName (block ++ [c]) result lookups rest
    else if c == '$' then
      if inCvarName then
        substituteLoop cvarValue isEscaped false []
          (result ++ (cvarValue (blockName block)).data) (lookups ++ [blockName block]) rest
      else
        substituteLoop cvarValue isEscaped true [] (result ++ block) lookups rest
    else
      substituteLoop cvarValue isEscaped inCvarName (block ++ [c]) result lookups rest

/-- The function `Cmd::SubstituteCvars(text)`. -/
def SubstituteCvars (cvarValue : String → String) (text : String) : Substituted :=
  let r := substituteLoop cvarValue false false [] [] [] text.data
  if r.1 then
    { result := String.mk r.2.2.1, lookups := r.2.2.2, warned := true }
  else
    { result := String.mk (r.2.2.1 ++ r.2.1), lookups := r.2.2.2, warned := false }

/-- The reference definition of `Escape`, one character at a time: whether the character `c`,
followed by `next` (`none` behind the last character of the text), is preceded by a backslash.
With quote = true that is exactly for '$', '"' and the backslash; with quote = false also for
';', for a character with code 1..32, and for a '/' immediately followed by '/' or '*'. -/
def needsBackslash (quote : Bool) (c : Char) (next : Option Char) : Bool :=
  if quote then
    c == '$' || c == '"' || c == '\\'
  else
    c == '$' || c == '"' || c == '\\' || c == ';' ||
      (decide (1 ≤ c.toNat) && decide (c.toNat ≤ 32)) ||
      (c == '/' && (next == some '/' || next == some '*'))

/-- The reference definition of `Escape`: every character of the text, with a backslash before
it where `needsBackslash` says so, between two quotes when quote = true. -/
def escapeRef (text : String) (quote : Bool) : String :=
  let nexts := text.data.tail.map some ++ [none]
  let body := (List.zip text.data nexts).flatMap
    (fun p => if needsBackslash quote p.1 p.2 then ['\\', p.1] else [p.1])
  String.mk (if quote then ['"'] ++ body ++ ['"'] else body)

/-- What the tokenizer gives back of a word that was escaped without quotes: the word, or the
word without its last character when that character is one `Escape` puts a backslash
before. -/
def keptWord : List Char → List Char
  | [] => []
  | [c] => if needsBackslash false c none then [] else [c]
  | c :: d :: rest => c :: keptWord (d :: rest)

end Cmd

namespace Rcon

/-- Modelled from the spec: `enum class Secure` is declared in `Rcon.h`, which is not among the
sources; a value of the enumeration is its underlying integer, an `Int` here. This enumerator is
"Unencrypted (0)"; the help text of `rcon.server.secure` agrees. -/
abbrev Secure.Unencrypted : Int := 0

/-- Modelled from the spec: "EncryptedPlain (1)". -/
abbrev Secure.EncryptedPlain : Int := 1

/-- Modelled from the spec: "EncryptedChallenge (2)". -/
abbrev Secure.EncryptedChallenge : Int := 2

/-- Modelled from the spec: "a distinguished `Invalid` value outside this order"; it is taken to
be the enumerator that follows the three real levels. -/
abbrev Secure.Invalid : Int := 3

/-- Modelled from the spec: `netadr_t` is "an opaque network address"; only equality of
addresses is used. -/
abbrev netadr_t := Nat

/-- The two server cvars the code reads: `rcon.server.password` and `rcon.server.secure`. -/
structure Cvars where
  /-- The value of `cvar_server_password.Get()`. -/
  cvar_server_password : String
  /-- The value of `cvar_server_secure.Get()`. -/
  cvar_server_secure : Int
deriving DecidableEq

/-- Modelled from the spec: the Challenge Registry (`ChallengeManager` of
`engine/server/CryptoChallenge.h`, not among the sources) is "an external keyed store", keyed by
remote address, that "issues and one-shot-validates a nonce per remote address". -/
structure ChallengeManager where
  /-- The nonce outstanding for each address, if any. -/
  challenges : netadr_t → Option String

/-- Modelled from the spec: `MatchAndConsume(address, challengeHex) -> bool`
(`ChallengeManager::MatchString` in the code): "a match consumes/invalidates the nonce
(one-shot)"; a non-match leaves the store as it is. -/
def ChallengeManager.MatchString (reg : ChallengeManager) (remote : netadr_t)
    (challenge : String) : Bool × ChallengeManager :=
  if reg.challenges remote = some challenge then
    (true, ⟨fun a => if a = remote then none else reg.challenges a⟩)
  else
    (false, reg)

/-- The black boxes of `Crypto.h`: the hash, the cipher and the Base64 codec. `Crypto::Data` and
`std::string` hold the same bytes (`Crypto::String` converts between them), so both are
`String` here; `none` is a `false` return. -/
structure Crypto where
  /-- The function `Crypto::Hash::Sha256`. -/
  Sha256 : String → String
  /-- The function `Crypto::Aes256Encrypt(plain, key, out)`. -/
  Aes256Encrypt : String → String → Option String
  /-- The function `Crypto::Aes256Decrypt(cypher, key, out)`. -/
  Aes256Decrypt : String → String → Option String
  /-- The function `Crypto::Encoding::Base64Encode`. -/
  Base64Encode : String → String
  /-- The function `Crypto::Encoding::Base64Decode(in, out)`. -/
  Base64Decode : String → Option String

/-- The class `Rcon::Message`, with its members in declaration order. -/
structure Message where
  /-- The security level, a value of `enum class Secure`. -/
  secure : Int
  /-- The challenge nonce, in hexadecimal. -/
  challenge : String
  /-- The command line to execute. -/
  command : String
  /-- The password presented. -/
  password : String
  /-- The address of the sender. -/
  remote : netadr_t
  /-- The error of a failed decode; empty when there is none. -/
  error : String
deriving DecidableEq

/-- The constructor `Message(remote, command, secure, password, challenge)`. -/
def Message.new (remote : netadr_t) (command : String) (secure : Int) (password : String)
    (challenge : String) : Message :=
  { secure := secure, challenge := challenge, command := command, password := password,
    remote := remote, error := "" }

/-- The constructor `Message(error_message)`. It initialises `error` only: the strings are
default-constructed, and `secure` and `remote`, which it leaves without a value, are fixed here
to `Secure.Invalid` and address `0`. -/
def Message.ofError (error_message : String) : Message :=
  { secure := Secure.Invalid, challenge := "", command := "", password := "", remote := 0,
    error := error_message }

/-- The C string a `const char*` taken from `s.c_str()` denotes: the characters of `s` before
its first NUL. Assigning it to a `std::string` copies exactly these. -/
def c_str (s : String) : String :=
  String.mk (s.data.takeWhile (fun c => c != '\x00'))

/-- The lambda `invalid` of `Valid` and `Acceptable`: it writes `reason` through the pointer
unless the pointer is null, and returns `false`. -/
def invalid (invalid_reason : Option String) (reason : String) : Bool × Option String :=
  match invalid_reason with
  | some _ => (false, some reason)
  | none => (false, none)

/-- The member `Message::Valid(invalid_reason)`: the returned pair is the result and the content
of the reason slot afterwards. -/
def Message.Valid (m : Message) (invalid_reason : Option String) : Bool × Option String :=
  if !m.error.isEmpty then
    invalid invalid_reason (c_str m.error)
  else if m.secure < Secure.Unencrypted || m.secure > Secure.EncryptedChallenge then
    invalid invalid_reason "Unknown secure protocol"
  else if m.password.isEmpty then
    invalid invalid_reason "Missing password"
  else if m.command.isEmpty then
    invalid invalid_reason "Missing command"
  else if m.secure == Secure.EncryptedChallenge && m.challenge.isEmpty then
    invalid invalid_reason "Missing challenge"
  else
    (true, invalid_reason)

/-- The member `Message::Acceptable(invalid_reason)`: the result with the content of the reason
slot afterwards, and the challenge manager afterwards. -/
def Message.Acceptable (m : Message) (cv : Cvars) (reg : ChallengeManager)
    (invalid_reason : Option String) : (Bool × Option String) × ChallengeManager :=
  let v := m.Valid invalid_reason
  if !v.1 then
    ((false, v.2), reg)
  else if m.secure < cv.cvar_server_secure then
    (invalid v.2 "Weak security", reg)
  else if cv.cvar_server_password.isEmpty then
    (invalid v.2 "No rcon.server.password set on the server.", reg)
  else if m.password != cv.cvar_server_password then
    (invalid v.2 "Bad password", reg)
  else if m.secure == Secure.EncryptedChallenge then
    let r := reg.MatchString m.remote m.challenge
    if !r.1 then
      (invalid v.2 "Mismatched challenge", r.2)
    else
      ((true, v.2), r.2)
  else
    ((true, v.2), reg)

/-- Modelled from the spec: `Str::cisspace` (common/String.h, not among the sources) tests for
"whitespace": the six whitespace characters of the C locale, which are also what
`stream >> word` skips and stops at. -/
def cisspace (c : Char) : Bool :=
  c == ' ' || c == '\t' || c == '\n' || c == '\x0b' || c == '\x0c' || c == '\r'

/-- A `std::istringstream`: the characters not yet read, and the two state bits the code can
set. -/
structure istringstream where
  /-- The characters not yet extracted. -/
  buf : List Char
  /-- The bit `eofbit`. -/
  eofbit : Bool
  /-- The bit `failbit`. -/
  failbit : Bool
deriving DecidableEq

/-- The member `good()`. -/
def istringstream.good (s : istringstream) : Bool :=
  !s.eofbit && !s.failbit

/-- The extraction `stream >> str`. On a stream that is not good, or that holds only whitespace,
it sets `failbit` and leaves `str` alone; otherwise it skips the leading whitespace and moves
the characters up to the next whitespace into `str`, setting `eofbit` when it runs into the
end. -/
def istringstream.extract (s : istringstream) (str : String) : istringstream × String :=
  if !s.good then
    ({ s with failbit := true }, str)
  else
    let rest := s.buf.dropWhile cisspace
    if rest.isEmpty then
      ({ buf := [], eofbit := true, failbit := true }, str)
    else
      let after := rest.dropWhile (fun c => !cisspace c)
      ({ buf := after, eofbit := after.isEmpty, failbit := false },
        String.mk (rest.takeWhile (fun c => !cisspace c)))

/-- The loop `while ( Str::cisspace( stream.peek() ) ) stream.ignore();` on a good stream whose
unread characters are the argument: `peek` on an exhausted stream sets `eofbit` and returns
EOF, which is no whitespace. -/
def skipLoop : List Char → istringstream
  | [] => { buf := [], eofbit := true, failbit := false }
  | c :: rest =>
    if cisspace c then skipLoop rest else { buf := c :: rest, eofbit := false, failbit := false }

/-- The loop `while ( Str::cisspace( stream.peek() ) ) stream.ignore();`. On a stream that is
not good `peek` sets `failbit` and returns EOF, so the loop ends at once. -/
def istringstream.skipSpaces (s : istringstream) : istringstream :=
  if !s.good then { s with failbit := true } else skipLoop s.buf

/-- The call `std::getline( stream, str )`. On a stream that is not good it sets `failbit` and
leaves `str` alone; otherwise it moves the characters up to the first newline into `str` and
drops that newline, setting `eofbit` when there is none and `failbit` when nothing at all was
extracted. -/
def istringstream.getline (s : istringstream) (str : String) : istringstream × String :=
  if !s.good then
    ({ s with failbit := true }, str)
  else
    let line := s.buf.takeWhile (fun c => c != '\n')
    match s.buf.dropWhile (fun c => c != '\n') with
    | [] => ({ buf := [], eofbit := true, failbit := line.isEmpty }, String.mk line)
    | _ :: rest => ({ buf := rest, eofbit := false, failbit := false }, String.mk line)

/-- The test `args.size() < 3 || (args[0] != "rcon" && args[0] != "srcon")` that opens
`Message::Decode`, with the short-circuit evaluation of `||`. -/
def decodeRejects (args : Cmd.Args) : Option Bool :=
  if args.size < 3 then
    some true
  else
    match args.Argv 0 with
    | none => none
    | some a0 => some (a0 != "rcon" && a0 != "srcon")

/-- The part of `Message::Decode` that follows a successful decryption: `command` is the
plaintext and `authentication` the method token. -/
def decodePlaintext (cv : Cvars) (remote : netadr_t) (authentication : String)
    (command : String) : Message :=
  if authentication == "CHALLENGE" then
    let stream : istringstream := { buf := command.data, eofbit := false, failbit := false }
    let r := stream.extract ""
    let challenge_hex := r.2
    let stream := r.1.skipSpaces
    let command := (stream.getline command).2
    Message.new remote command Secure.EncryptedChallenge cv.cvar_server_password challenge_hex
  else if authentication == "PLAIN" then
    Message.new remote command Secure.EncryptedPlain cv.cvar_server_password ""
  else
    Message.new remote command Secure.Invalid cv.cvar_server_password ""

/-- The function `Message::Decode(remote, args)`; `none` only if it read a token that does not
exist. Where the source leaves out the last constructor argument, `challenge` is its default,
the empty string. -/
def Message.Decode (cv : Cvars) (cr : Crypto) (remote : netadr_t) (args : Cmd.Args) :
    Option Message := do
  if (← decodeRejects args) then
    return Message.ofError "Invalid command"
  if cv.cvar_server_password.isEmpty then
    return Message.ofError "rcon.server.password not set"
  if (← args.Argv 0) == "rcon" then
    let command ← args.EscapedArgs 2
    let password ← args.Argv 1
    return Message.new remote command Secure.Unencrypted password ""
  let authentication ← args.Argv 1
  let cyphertext ← args.Argv 2
  match cr.Base64Decode cyphertext with
  | none => return Message.ofError "Invalid Base64 string"
  | some data =>
    let key := cr.Sha256 cv.cvar_server_password
    match cr.Aes256Decrypt data key with
    | none => return Message.ofError "Error during decryption"
    | some data => return decodePlaintext cv remote authentication data

/-- Modelled from the spec: `Net::OutOfBandPrint(NS_CLIENT, adr, format, ...)` (framework/Network.h,
not among the sources) formats its arguments and hands the text to the transport as one
datagram ("SendDatagram(address, bytes)"). The transport is the list of the datagrams sent so
far, and `message` is the formatted text. -/
def OutOfBandPrint (net : List (netadr_t × String)) (adr : netadr_t) (message : String) :
    List (netadr_t × String) :=
  net ++ [(adr, message)]

/-- The member `Message::Send()`: the transport afterwards. The formats `"rcon %s %s"` and
`"srcon %s %s"` are written out as concatenations. -/
def Message.Send (m : Message) (cr : Crypto) (net : List (netadr_t × String)) :
    List (netadr_t × String) :=
  if m.secure == Secure.Unencrypted then
    OutOfBandPrint net m.remote ("rcon " ++ m.password ++ " " ++ m.command)
  else
    let method := "PLAIN"
    let key := cr.Sha256 m.password
    let plaintext := m.command
    let method := if m.secure == Secure.EncryptedChallenge then "CHALLENGE" else method
    let plaintext :=
      if m.secure == Secure.EncryptedChallenge then m.challenge ++ " " ++ plaintext
      else plaintext
    match cr.Aes256Encrypt plaintext key with
    | some cypher =>
      OutOfBandPrint net m.remote ("srcon " ++ method ++ " " ++ cr.Base64Encode cypher)
    | none => net

/-- The challenge the specification reads off a CHALLENGE plaintext: "split on the first run of
whitespace; first piece becomes `challenge`". -/
def specChallenge (plaintext : String) : String :=
  String.mk (plaintext.data.takeWhile (fun c => !cisspace c))

/-- The command the specification reads off a CHALLENGE plaintext: the "remainder
(left-trimmed)" after the first piece. -/
def specCommand (plaintext : String) : String :=
  String.mk ((plaintext.data.dropWhile (fun c => !cisspace c)).dropWhile cisspace)

/-- The reason strings the specification documents for `Valid` and `Acceptable`, in the order
of its sections 4.3 and 4.4. -/
def documentedReasons : List String :=
  ["Unknown secure protocol", "Missing password", "Missing command", "Missing challenge",
    "Weak security", "No server password configured", "Bad password", "Mismatched challenge"]

end Rcon

namespace Rcon

/-! Auxiliary facts. -/

theorem invalid_fst (invalid_reason : Option String) (reason : String) :
    (invalid invalid_reason reason).1 = false := by
  cases invalid_reason <;> rfl

theorem invalid_some (s reason : String) : invalid (some s) reason = (false, some reason) := rfl

theorem invalid_none (reason : String) : invalid none reason = (false, none) := rfl

theorem isEmpty_eq_false_iff (s : String) : s.isEmpty = false ↔ s ≠ "" := by
  have h := String.isEmpty_iff s
  cases hs : s.isEmpty <;> simp_all

/-- The result of `Valid` in terms of the fields of the message. -/
theorem Message.valid_fst_iff (m : Message) (invalid_reason : Option String) :
    (m.Valid invalid_reason).1 = true ↔
      m.error = "" ∧ 0 ≤ m.secure ∧ m.secure ≤ 2 ∧ m.password ≠ "" ∧ m.command ≠ "" ∧
        (m.secure = 2 → m.challenge ≠ "") := by
  unfold Message.Valid
  split_ifs with he hs hp hc hh
  all_goals simp only [invalid_fst]
  all_goals simp only [Bool.not_eq_true', Bool.not_eq_true, Bool.or_eq_true, Bool.and_eq_true,
    decide_eq_true_eq, beq_iff_eq, not_or, not_and, not_lt, Bool.not_eq_false,
    String.isEmpty_iff, isEmpty_eq_false_iff, gt_iff_lt, Secure.Unencrypted,
    Secure.EncryptedChallenge, ne_eq, not_not] at *
  · simp [he]
  · simp only [Bool.false_eq_true, false_iff]
    intro h
    omega
  · simp [hp]
  · simp [hc]
  · simp [hh.1, hh.2]
  · exact ⟨fun _ => ⟨he, hs.1, hs.2, hp, hc, hh⟩, fun _ => trivial⟩

/-- The result of `Valid` does not depend on the reason slot. -/
theorem Message.valid_fst_slot (m : Message) (a b : Option String) :
    (m.Valid a).1 = (m.Valid b).1 := by
  have ha := m.valid_fst_iff a
  have hb := m.valid_fst_iff b
  cases h : (m.Valid a).1 <;> cases h' : (m.Valid b).1 <;> simp_all

/-- A successful `Valid` leaves the reason slot as it was. -/
theorem Message.valid_eq_of_fst (m : Message) (invalid_reason : Option String)
    (h : (m.Valid invalid_reason).1 = true) : m.Valid invalid_reason = (true, invalid_reason) := by
  unfold Message.Valid at h ⊢
  split_ifs at h ⊢ <;> simp_all [invalid_fst]

/-- The checks `Acceptable` makes on a message that `Valid` accepts, in order. -/
theorem Message.acceptable_of_valid (m : Message) (cv : Cvars) (reg : ChallengeManager)
    (invalid_reason : Option String) (h : (m.Valid invalid_reason).1 = true) :
    m.Acceptable cv reg invalid_reason =
      if m.secure < cv.cvar_server_secure then (invalid invalid_reason "Weak security", reg)
      else if cv.cvar_server_password = "" then
        (invalid invalid_reason "No rcon.server.password set on the server.", reg)
      else if m.password ≠ cv.cvar_server_password then (invalid invalid_reason "Bad password", reg)
      else if m.secure = Secure.EncryptedChallenge then
        if (reg.MatchString m.remote m.challenge).1 = true then
          ((true, invalid_reason), (reg.MatchString m.remote m.challenge).2)
        else
          (invalid invalid_reason "Mismatched challenge", (reg.MatchString m.remote m.challenge).2)
      else ((true, invalid_reason), reg) := by
  have hv := m.valid_eq_of_fst invalid_reason h
  unfold Message.Acceptable
  simp only [hv, Bool.not_true, Bool.false_eq_true, if_false, String.isEmpty_iff, bne_iff_ne,
    beq_iff_eq, Bool.not_eq_true']
  split_ifs <;> simp_all

/-- When `Valid` rejects, `Acceptable` hands its verdict on and leaves the registry alone. -/
theorem Message.acceptable_of_invalid (m : Message) (cv : Cvars) (reg : ChallengeManager)
    (invalid_reason : Option String) (h : (m.Valid invalid_reason).1 = false) :
    m.Acceptable cv reg invalid_reason = ((false, (m.Valid invalid_reason).2), reg) := by
  unfold Message.Acceptable
  simp [h]

/-- What an accepting `Acceptable` has checked. -/
theorem Message.acceptable_accepts (m : Message) (cv : Cvars) (reg : ChallengeManager)
    (invalid_reason : Option String) (h : (m.Acceptable cv reg invalid_reason).1.1 = true) :
    (m.Valid invalid_reason).1 = true ∧ ¬ m.secure < cv.cvar_server_secure ∧
      cv.cvar_server_password ≠ "" ∧ m.password = cv.cvar_server_password ∧
      (m.secure = Secure.EncryptedChallenge →
        (reg.MatchString m.remote m.challenge).1 = true) := by
  cases hv : (m.Valid invalid_reason).1
  · rw [m.acceptable_of_invalid cv reg invalid_reason hv] at h
    simp at h
  · rw [m.acceptable_of_valid cv reg invalid_reason hv] at h
    split_ifs at h with h1 h2 h3 h4 h5 <;> simp_all [invalid_fst]

/-- A registry that has just matched a nonce for an address holds none for it any more. -/
theorem ChallengeManager.matchString_consumed (reg : ChallengeManager) (remote : netadr_t)
    (challenge other : String) (h : (reg.MatchString remote challenge).1 = true) :
    ((reg.MatchString remote challenge).2.MatchString remote other).1 = false := by
  unfold ChallengeManager.MatchString at h ⊢
  split_ifs at h ⊢ <;> simp_all

/-! The trust evaluator: `Valid` and `Acceptable`. -/

/-- C1: `Acceptable` returns true exactly when `Valid` does, the level of the message is at
least the configured minimum, the server password is non-empty, the password of the message
equals it, and, for a message of level `EncryptedChallenge`, the challenge registry matches the
address and challenge of the message. -/
theorem Message.acceptable_iff (m : Message) (cv : Cvars) (reg : ChallengeManager)
    (invalid_reason : Option String) :
    (m.Acceptable cv reg invalid_reason).1.1 = true ↔
      (m.Valid invalid_reason).1 = true ∧ cv.cvar_server_secure ≤ m.secure ∧
        cv.cvar_server_password ≠ "" ∧ m.password = cv.cvar_server_password ∧
        (m.secure = Secure.EncryptedChallenge →
          (reg.MatchString m.remote m.challenge).1 = true) := by
  cases hv : (m.Valid invalid_reason).1
  · rw [m.acceptable_of_invalid cv reg invalid_reason hv]
    simp
  · rw [m.acceptable_of_valid cv reg invalid_reason hv]
    split_ifs with h1 h2 h3 h4 h5 <;> simp_all [invalid_fst]

/-- C2: `Valid` returns true exactly when the error is empty, the level is one of the three real
levels, the password and the command are non-empty, and the challenge is non-empty at level
`EncryptedChallenge`; an empty command, an empty password, and an empty challenge at level
`EncryptedChallenge` are each rejected whatever the other fields hold. -/
theorem Message.valid_iff (m : Message) (invalid_reason : Option String) :
    ((m.Valid invalid_reason).1 = true ↔
      m.error = "" ∧
        (m.secure = Secure.Unencrypted ∨ m.secure = Secure.EncryptedPlain ∨
          m.secure = Secure.EncryptedChallenge) ∧
        m.password ≠ "" ∧ m.command ≠ "" ∧
        (m.secure = Secure.EncryptedChallenge → m.challenge ≠ "")) ∧
      (m.command = "" → (m.Valid invalid_reason).1 = false) ∧
      (m.password = "" → (m.Valid invalid_reason).1 = false) ∧
      (m.secure = Secure.EncryptedChallenge → m.challenge = "" →
        (m.Valid invalid_reason).1 = false) := by
  have h := m.valid_fst_iff invalid_reason
  simp only [Secure.Unencrypted, Secure.EncryptedPlain, Secure.EncryptedChallenge]
  refine ⟨?_, ?_, ?_, ?_⟩
  · rw [h]
    constructor
    · rintro ⟨he, h0, h2, hp, hc, hh⟩
      exact ⟨he, by omega, hp, hc, hh⟩
    · rintro ⟨he, hs, hp, hc, hh⟩
      exact ⟨he, by omega, by omega, hp, hc, hh⟩
  · intro hc
    cases hv : (m.Valid invalid_reason).1
    · rfl
    · exact absurd hc (h.1 hv).2.2.2.2.1
  · intro hp
    cases hv : (m.Valid invalid_reason).1
    · rfl
    · exact absurd hp (h.1 hv).2.2.2.1
  · intro hs hh
    cases hv : (m.Valid invalid_reason).1
    · rfl
    · exact absurd hh ((h.1 hv).2.2.2.2.2 hs)

/-- C2, at a message whose only defect is its empty command. -/
theorem Message.valid_iff_witness :
    ((Message.new 7 "" Secure.EncryptedPlain "secret" "").Valid none).1 = false :=
  (Message.valid_iff (Message.new 7 "" Secure.EncryptedPlain "secret" "") none).2.1 rfl

/-- C3, as stated, fails: for an error string with an embedded NUL the reason reported is not the
error string itself but its part before the NUL. -/
theorem Message.valid_error_reason_not_whole :
    (Message.ofError "bad\x00input").error ≠ "" ∧
      ((Message.ofError "bad\x00input").Valid (some "")).2 ≠
        some (Message.ofError "bad\x00input").error := by
  decide

/-- C3 (amended): the reason `Valid` reports is that of the first violated rule, in the order:
error set (the reason is the error string up to its first NUL, which is the whole error string
when it contains none), level outside the three real levels, empty password, empty command,
empty challenge at level `EncryptedChallenge`. -/
theorem Message.valid_first_violation (m : Message) (s : String) :
    (m.error ≠ "" → m.Valid (some s) = (false, some (c_str m.error))) ∧
      ('\x00' ∉ m.error.data → c_str m.error = m.error) ∧
      (m.error = "" → m.secure < Secure.Unencrypted ∨ Secure.EncryptedChallenge < m.secure →
        m.Valid (some s) = (false, some "Unknown secure protocol")) ∧
      (m.error = "" → Secure.Unencrypted ≤ m.secure → m.secure ≤ Secure.EncryptedChallenge →
        m.password = "" → m.Valid (some s) = (false, some "Missing password")) ∧
      (m.error = "" → Secure.Unencrypted ≤ m.secure → m.secure ≤ Secure.EncryptedChallenge →
        m.password ≠ "" → m.command = "" →
        m.Valid (some s) = (false, some "Missing command")) ∧
      (m.error = "" → m.password ≠ "" → m.command ≠ "" →
        m.secure = Secure.EncryptedChallenge → m.challenge = "" →
        m.Valid (some s) = (false, some "Missing challenge")) := by
  refine ⟨?_, ?_, ?_, ?_, ?_, ?_⟩
  · intro he
    unfold Message.Valid
    simp [(isEmpty_eq_false_iff _).2 he, invalid_some]
  · intro h0
    unfold c_str
    have : m.error.data.takeWhile (fun c => c != '\x00') = m.error.data := by
      rw [List.takeWhile_eq_self_iff]
      intro c hc
      simp only [bne_iff_ne, ne_eq]
      rintro rfl
      exact h0 hc
    rw [this]
  · intro he hs
    unfold Message.Valid
    have hs' : (decide (m.secure < Secure.Unencrypted) ||
        decide (m.secure > Secure.EncryptedChallenge)) = true := by
      simpa using hs
    simp [(String.isEmpty_iff _).2 he, hs', invalid_some]
  · intro he h0 h2 hp
    unfold Message.Valid
    have hs' : (decide (m.secure < Secure.Unencrypted) ||
        decide (m.secure > Secure.EncryptedChallenge)) = false := by
      simp only [Bool.or_eq_false_iff, decide_eq_false_iff_not]
      constructor <;> omega
    simp [(String.isEmpty_iff _).2 he, (String.isEmpty_iff _).2 hp, hs', invalid_some]
  · intro he h0 h2 hp hc
    unfold Message.Valid
    have hs' : (decide (m.secure < Secure.Unencrypted) ||
        decide (m.secure > Secure.EncryptedChallenge)) = false := by
      simp only [Bool.or_eq_false_iff, decide_eq_false_iff_not]
      constructor <;> omega
    simp [(String.isEmpty_iff _).2 he, (isEmpty_eq_false_iff _).2 hp,
      (String.isEmpty_iff _).2 hc, hs', invalid_some]
  · intro he hp hc hs hh
    unfold Message.Valid
    simp [(String.isEmpty_iff _).2 he, (isEmpty_eq_false_iff _).2 hp,
      (isEmpty_eq_false_iff _).2 hc, (String.isEmpty_iff _).2 hh, hs, invalid_some]

/-- C3 (amended), at a message with an empty password and an empty command: the reason is the
one of the password. -/
theorem Message.valid_first_violation_witness :
    (Message.new 7 "" Secure.Unencrypted "" "").Valid (some "") =
      (false, some "Missing password") :=
  (Message.valid_first_violation (Message.new 7 "" Secure.Unencrypted "" "") "").2.2.2.1
    rfl (by decide) (by decide) rfl

/-- C4: a structurally valid message whose level is below the configured minimum is rejected
with the reason "Weak security", whatever the passwords, the challenge and the registry are. -/
theorem Message.acceptable_weak_security (m : Message) (cv : Cvars) (reg : ChallengeManager)
    (invalid_reason : Option String) (s : String) (hv : (m.Valid none).1 = true)
    (hl : m.secure < cv.cvar_server_secure) :
    (m.Acceptable cv reg invalid_reason).1.1 = false ∧
      (m.Acceptable cv reg (some s)).1 = (false, some "Weak security") := by
  constructor
  · rw [m.acceptable_of_valid cv reg invalid_reason (by rw [m.valid_fst_slot _ none]; exact hv)]
    simp [hl, invalid_fst]
  · rw [m.acceptable_of_valid cv reg (some s) (by rw [m.valid_fst_slot _ none]; exact hv)]
    simp [hl, invalid_some]

/-- C4, at an unencrypted message with the right password against the minimum
`EncryptedPlain`. -/
theorem Message.acceptable_weak_security_witness :
    ((Message.new 7 "status" Secure.Unencrypted "secret" "").Acceptable
        ⟨"secret", Secure.EncryptedPlain⟩ ⟨fun _ => none⟩ none).1.1 = false ∧
      ((Message.new 7 "status" Secure.Unencrypted "secret" "").Acceptable
        ⟨"secret", Secure.EncryptedPlain⟩ ⟨fun _ => none⟩ (some "")).1 =
        (false, some "Weak security") :=
  Message.acceptable_weak_security (Message.new 7 "status" Secure.Unencrypted "secret" "")
    ⟨"secret", Secure.EncryptedPlain⟩ ⟨fun _ => none⟩ none "" (by decide) (by decide)

/-- C5: a structurally valid message of sufficient level whose password differs from the
non-empty server password is rejected with the reason "Bad password", for every state of the
challenge registry. -/
theorem Message.acceptable_bad_password (m : Message) (cv : Cvars) (reg : ChallengeManager)
    (invalid_reason : Option String) (s : String) (hv : (m.Valid none).1 = true)
    (hl : cv.cvar_server_secure ≤ m.secure) (hs : cv.cvar_server_password ≠ "")
    (hp : m.password ≠ cv.cvar_server_password) :
    (m.Acceptable cv reg invalid_reason).1.1 = false ∧
      (m.Acceptable cv reg (some s)).1 = (false, some "Bad password") := by
  have hl' : ¬ m.secure < cv.cvar_server_secure := by omega
  constructor
  · rw [m.acceptable_of_valid cv reg invalid_reason (by rw [m.valid_fst_slot _ none]; exact hv)]
    simp [hl', hs, hp, invalid_fst]
  · rw [m.acceptable_of_valid cv reg (some s) (by rw [m.valid_fst_slot _ none]; exact hv)]
    simp [hl', hs, hp, invalid_some]

/-- C5, at a challenge message whose nonce the registry holds but whose password is wrong. -/
theorem Message.acceptable_bad_password_witness :
    ((Message.new 7 "status" Secure.EncryptedChallenge "guess" "abc123").Acceptable
        ⟨"secret", Secure.Unencrypted⟩ ⟨fun _ => some "abc123"⟩ none).1.1 = false ∧
      ((Message.new 7 "status" Secure.EncryptedChallenge "guess" "abc123").Acceptable
        ⟨"secret", Secure.Unencrypted⟩ ⟨fun _ => some "abc123"⟩ (some "")).1 =
        (false, some "Bad password") :=
  Message.acceptable_bad_password (Message.new 7 "status" Secure.EncryptedChallenge "guess" "abc123")
    ⟨"secret", Secure.Unencrypted⟩ ⟨fun _ => some "abc123"⟩ none "" (by decide) (by decide)
    (by decide) (by decide)

/-- C6, as stated, fails: with no server password the reason reported is not the string
"No server password configured". -/
theorem Message.acceptable_no_password_reason_differs :
    ((Message.new 7 "status" Secure.Unencrypted "secret" "").Valid none).1 = true ∧
      (⟨"", Secure.Unencrypted⟩ : Cvars).cvar_server_secure ≤
        (Message.new 7 "status" Secure.Unencrypted "secret" "").secure ∧
      (⟨"", Secure.Unencrypted⟩ : Cvars).cvar_server_password = "" ∧
      ((Message.new 7 "status" Secure.Unencrypted "secret" "").Acceptable
        ⟨"", Secure.Unencrypted⟩ ⟨fun _ => none⟩ (some "")).1.2 ≠
        some "No server password configured" := by
  decide

/-- C6 (amended): a structurally valid message of sufficient level is rejected, when the server
password is empty, with the reason "No rcon.server.password set on the server.". -/
theorem Message.acceptable_no_server_password (m : Message) (cv : Cvars)
    (reg : ChallengeManager) (invalid_reason : Option String) (s : String)
    (hv : (m.Valid none).1 = true) (hl : cv.cvar_server_secure ≤ m.secure)
    (hs : cv.cvar_server_password = "") :
    (m.Acceptable cv reg invalid_reason).1.1 = false ∧
      (m.Acceptable cv reg (some s)).1 =
        (false, some "No rcon.server.password set on the server.") := by
  have hl' : ¬ m.secure < cv.cvar_server_secure := by omega
  constructor
  · rw [m.acceptable_of_valid cv reg invalid_reason (by rw [m.valid_fst_slot _ none]; exact hv)]
    simp [hl', hs, invalid_fst]
  · rw [m.acceptable_of_valid cv reg (some s) (by rw [m.valid_fst_slot _ none]; exact hv)]
    simp [hl', hs, invalid_some]

/-- C6 (amended), at an unencrypted message on a server without a password. -/
theorem Message.acceptable_no_server_password_witness :
    ((Message.new 7 "status" Secure.Unencrypted "secret" "").Acceptable
        ⟨"", Secure.Unencrypted⟩ ⟨fun _ => none⟩ none).1.1 = false ∧
      ((Message.new 7 "status" Secure.Unencrypted "secret" "").Acceptable
        ⟨"", Secure.Unencrypted⟩ ⟨fun _ => none⟩ (some "")).1 =
        (false, some "No rcon.server.password set on the server.") :=
  Message.acceptable_no_server_password (Message.new 7 "status" Secure.Unencrypted "secret" "")
    ⟨"", Secure.Unencrypted⟩ ⟨fun _ => none⟩ none "" (by decide) (by decide) rfl

/-- C7: a structurally valid message of level `EncryptedChallenge` that passes the level and
password checks is rejected with the reason "Mismatched challenge" when the registry does not
match its address and challenge; for a message of any other level the result and the reason are
the same in every state of the registry. -/
theorem Message.acceptable_mismatched_challenge (m : Message) (cv : Cvars)
    (reg other : ChallengeManager) (invalid_reason : Option String) (s : String) :
    ((m.Valid none).1 = true → m.secure = Secure.EncryptedChallenge →
        cv.cvar_server_secure ≤ m.secure → cv.cvar_server_password ≠ "" →
        m.password = cv.cvar_server_password →
        (reg.MatchString m.remote m.challenge).1 = false →
        (m.Acceptable cv reg invalid_reason).1.1 = false ∧
          (m.Acceptable cv reg (some s)).1 = (false, some "Mismatched challenge")) ∧
      (m.secure ≠ Secure.EncryptedChallenge →
        (m.Acceptable cv reg invalid_reason).1 = (m.Acceptable cv other invalid_reason).1) := by
  constructor
  · intro hv hc hl hs hp hr
    have hl' : ¬ m.secure < cv.cvar_server_secure := by omega
    constructor
    · rw [m.acceptable_of_valid cv reg invalid_reason
        (by rw [m.valid_fst_slot _ none]; exact hv), if_neg hl']
      simp [hs, hp, hc, hr, invalid_fst]
    · rw [m.acceptable_of_valid cv reg (some s) (by rw [m.valid_fst_slot _ none]; exact hv),
        if_neg hl']
      simp [hs, hp, hc, hr, invalid_some]
  · intro hc
    cases hv : (m.Valid invalid_reason).1
    · rw [m.acceptable_of_invalid cv reg invalid_reason hv,
        m.acceptable_of_invalid cv other invalid_reason hv]
    · rw [m.acceptable_of_valid cv reg invalid_reason hv,
        m.acceptable_of_valid cv other invalid_reason hv]
      simp only [hc, if_false]
      split_ifs <;> rfl

/-- C7, at a challenge message with the right password whose nonce the registry does not
hold. -/
theorem Message.acceptable_mismatched_challenge_witness :
    ((Message.new 7 "status" Secure.EncryptedChallenge "secret" "abc123").Acceptable
        ⟨"secret", Secure.EncryptedChallenge⟩ ⟨fun _ => some "fff000"⟩ none).1.1 = false ∧
      ((Message.new 7 "status" Secure.EncryptedChallenge "secret" "abc123").Acceptable
        ⟨"secret", Secure.EncryptedChallenge⟩ ⟨fun _ => some "fff000"⟩ (some "")).1 =
        (false, some "Mismatched challenge") :=
  (Message.acceptable_mismatched_challenge
    (Message.new 7 "status" Secure.EncryptedChallenge "secret" "abc123")
    ⟨"secret", Secure.EncryptedChallenge⟩ ⟨fun _ => some "fff000"⟩ ⟨fun _ => none⟩ none "").1
    (by decide) rfl (by decide) (by decide) rfl (by decide)

/-- C8: when `Valid` rejects a message, `Acceptable` rejects it under every configuration and
registry state, and reports exactly what `Valid` reports. -/
theorem Message.acceptable_of_not_valid (m : Message) (cv : Cvars) (reg : ChallengeManager)
    (invalid_reason : Option String) (hv : (m.Valid invalid_reason).1 = false) :
    (m.Acceptable cv reg invalid_reason).1.1 = false ∧
      (m.Acceptable cv reg invalid_reason).1.2 = (m.Valid invalid_reason).2 := by
  rw [m.acceptable_of_invalid cv reg invalid_reason hv]
  exact ⟨rfl, rfl⟩

/-- C8, at a message without a command whose password and challenge would otherwise pass. -/
theorem Message.acceptable_of_not_valid_witness :
    ((Message.new 7 "" Secure.EncryptedChallenge "secret" "abc123").Acceptable
        ⟨"secret", Secure.Unencrypted⟩ ⟨fun _ => some "abc123"⟩ (some "")).1.1 = false ∧
      ((Message.new 7 "" Secure.EncryptedChallenge "secret" "abc123").Acceptable
        ⟨"secret", Secure.Unencrypted⟩ ⟨fun _ => some "abc123"⟩ (some "")).1.2 =
        ((Message.new 7 "" Secure.EncryptedChallenge "secret" "abc123").Valid (some "")).2 :=
  Message.acceptable_of_not_valid (Message.new 7 "" Secure.EncryptedChallenge "secret" "abc123")
    ⟨"secret", Secure.Unencrypted⟩ ⟨fun _ => some "abc123"⟩ (some "") (by decide)

/-- C9: with the one-shot registry, once `Acceptable` has accepted a message of level
`EncryptedChallenge`, evaluating it on the same message in the registry state it left behind
returns false with the reason "Mismatched challenge". -/
theorem Message.acceptable_replay_rejected (m : Message) (cv : Cvars) (reg : ChallengeManager)
    (first again : Option String) (s : String) (hc : m.secure = Secure.EncryptedChallenge)
    (h : (m.Acceptable cv reg first).1.1 = true) :
    (m.Acceptable cv (m.Acceptable cv reg first).2 again).1.1 = false ∧
      (m.Acceptable cv (m.Acceptable cv reg first).2 (some s)).1 =
        (false, some "Mismatched challenge") := by
  obtain ⟨hv, hl', hs, hp, hr⟩ := m.acceptable_accepts cv reg first h
  have hr := hr hc
  have h2 : (m.Acceptable cv reg first).2 = (reg.MatchString m.remote m.challenge).2 := by
    rw [m.acceptable_of_valid cv reg first hv, if_neg hl']
    simp [hs, hp, hc, hr]
  have hm := reg.matchString_consumed m.remote m.challenge m.challenge hr
  rw [h2]
  constructor
  · rw [m.acceptable_of_valid cv _ again (by rw [m.valid_fst_slot _ first]; exact hv),
      if_neg hl']
    simp [hs, hp, hc, hm, invalid_fst]
  · rw [m.acceptable_of_valid cv _ (some s) (by rw [m.valid_fst_slot _ first]; exact hv),
      if_neg hl']
    simp [hs, hp, hc, hm, invalid_some]

/-- C9, at the scenario of the specification: the nonce "abc123" issued to the sender is
matched by a first message and refused to its replay. -/
theorem Message.acceptable_replay_rejected_witness :
    ((Message.new 7 "map ffa" Secure.EncryptedChallenge "secret" "abc123").Acceptable
        ⟨"secret", Secure.EncryptedChallenge⟩
        ((Message.new 7 "map ffa" Secure.EncryptedChallenge "secret" "abc123").Acceptable
          ⟨"secret", Secure.EncryptedChallenge⟩
          ⟨fun a => if a = 7 then some "abc123" else none⟩ none).2 none).1.1 = false ∧
      ((Message.new 7 "map ffa" Secure.EncryptedChallenge "secret" "abc123").Acceptable
        ⟨"secret", Secure.EncryptedChallenge⟩
        ((Message.new 7 "map ffa" Secure.EncryptedChallenge "secret" "abc123").Acceptable
          ⟨"secret", Secure.EncryptedChallenge⟩
          ⟨fun a => if a = 7 then some "abc123" else none⟩ none).2 (some "")).1 =
        (false, some "Mismatched challenge") :=
  Message.acceptable_replay_rejected
    (Message.new 7 "map ffa" Secure.EncryptedChallenge "secret" "abc123")
    ⟨"secret", Secure.EncryptedChallenge⟩ ⟨fun a => if a = 7 then some "abc123" else none⟩
    none none "" rfl (by decide)

/-! The codec: `Decode`. -/

/-- The opening test of `Decode` succeeds on fewer than three tokens and on a first token that
is neither keyword. -/
theorem decodeRejects_of_malformed (args : Cmd.Args)
    (h : args.args.length < 3 ∨
      (args.args.head? ≠ some "rcon" ∧ args.args.head? ≠ some "srcon")) :
    decodeRejects args = some true := by
  unfold decodeRejects Cmd.Args.size
  by_cases hn : (args.args.length : Int) < 3
  · rw [if_pos hn]
  · rw [if_neg hn]
    have hlen : ¬ args.args.length < 3 := by omega
    obtain ⟨h1, h2⟩ := h.resolve_left hlen
    cases hargs : args.args with
    | nil => simp [hargs] at hlen
    | cons a0 rest =>
      simp only [hargs, List.head?_cons, ne_eq, Option.some.injEq] at h1 h2
      simp [Cmd.Args.Argv, hargs, h1, h2]

/-- C10: on fewer than three tokens, and on a first token that is neither "rcon" nor "srcon",
`Decode` returns an error message with the reason "Invalid command", whatever the configured
password is. -/
theorem Message.decode_invalid_command (cv : Cvars) (cr : Crypto) (remote : netadr_t)
    (args : Cmd.Args)
    (h : args.args.length < 3 ∨
      (args.args.head? ≠ some "rcon" ∧ args.args.head? ≠ some "srcon")) :
    ∃ m, Message.Decode cv cr remote args = some m ∧ m.error = "Invalid command" ∧
      ∀ s, m.Valid (some s) = (false, some "Invalid command") := by
  refine ⟨Message.ofError "Invalid command", ?_, rfl, fun s => rfl⟩
  unfold Message.Decode
  rw [decodeRejects_of_malformed args h]
  rfl

/-- C10, at three tokens whose first is the unknown keyword "status", on a server with a
password. -/
theorem Message.decode_invalid_command_witness :
    ∃ m, Message.Decode ⟨"secret", Secure.Unencrypted⟩ ⟨id, fun p _ => some p, fun c _ => some c,
        id, some⟩ 7 ⟨["status", "secret", "quit"], [0, 7, 14]⟩ = some m ∧
      m.error = "Invalid command" ∧ ∀ s, m.Valid (some s) = (false, some "Invalid command") :=
  Message.decode_invalid_command ⟨"secret", Secure.Unencrypted⟩ ⟨id, fun p _ => some p,
    fun c _ => some c, id, some⟩ 7 ⟨["status", "secret", "quit"], [0, 7, 14]⟩
    (Or.inr (by decide))

end Rcon

namespace Cmd

/-! Facts about `Args` used by the codec. -/

theorem Args.argv_ofNat (a : Args) (i : Nat) : a.Argv (i : Int) = a.args.get? i := by
  unfold Args.Argv
  have h : ¬ ((i : Int) < 0) := by omega
  rw [if_neg h, Int.toNat_ofNat]

/-- The loop of `QuotedArgs` past its first iteration: every remaining token is appended
behind a space. -/
theorem Args.quotedLoop_tail (a : Args) (start : Int) (ws : List String) :
    ∀ (i : Nat) (res : String), start < (i : Int) → a.args.drop i = ws →
      Args.quotedLoop a start ws.length (i : Int) res =
        some (String.intercalate.go res " " (ws.map (fun w => Escape w true))) := by
  induction ws with
  | nil =>
    intro i res _ _
    simp [Args.quotedLoop, String.intercalate.go]
  | cons w ws ih =>
    intro i res hi hd
    have hget : a.args.get? i = some w := by
      have := congrArg List.head? hd
      simpa [List.head?_drop] using this
    have hdrop : a.args.drop (i + 1) = ws := by
      have := congrArg List.tail hd
      simpa [List.tail_drop] using this
    have hne : ((i : Int) != start) = true := by
      simp only [bne_iff_ne, ne_eq]
      omega
    simp only [List.length_cons, Args.quotedLoop, hne, if_true, Args.argv_ofNat, hget,
      List.map_cons, String.intercalate.go]
    have := ih (i + 1) (res ++ " " ++ Escape w true) (by push_cast; omega) hdrop
    simpa using this

/-- What `EscapedArgs(2)` builds: the tokens from the third on, each one through `escapeWord`,
joined by single spaces. -/
theorem Args.escapedArgs_two (a0 a1 : String) (ws : List String) (starts : List Int) :
    Args.EscapedArgs ⟨a0 :: a1 :: ws, starts⟩ 2 =
      some (" ".intercalate (ws.map escapeWord)) := by
  rfl

end Cmd

namespace Rcon

/-! The codec on three tokens or more. -/

/-- `Decode` on at least three tokens, as a cascade of its checks. -/
theorem Message.decode_three (cv : Cvars) (cr : Crypto) (remote : netadr_t)
    (a0 a1 a2 : String) (rest : List String) (starts : List Int) :
    Message.Decode cv cr remote ⟨a0 :: a1 :: a2 :: rest, starts⟩ =
      if a0 ≠ "rcon" ∧ a0 ≠ "srcon" then some (Message.ofError "Invalid command")
      else if cv.cvar_server_password = "" then
        some (Message.ofError "rcon.server.password not set")
      else if a0 = "rcon" then
        some (Message.new remote
          (" ".intercalate ((a2 :: rest).map Cmd.escapeWord))
          Secure.Unencrypted a1 "")
      else
        match cr.Base64Decode a2 with
        | none => some (Message.ofError "Invalid Base64 string")
        | some data =>
          match cr.Aes256Decrypt data (cr.Sha256 cv.cvar_server_password) with
          | none => some (Message.ofError "Error during decryption")
          | some plain => some (decodePlaintext cv remote a1 plain) := by
  have hrej : decodeRejects ⟨a0 :: a1 :: a2 :: rest, starts⟩ =
      some (a0 != "rcon" && a0 != "srcon") := by
    simp [decodeRejects, Cmd.Args.size, Cmd.Args.Argv]
    intro h
    omega
  have h0 : (⟨a0 :: a1 :: a2 :: rest, starts⟩ : Cmd.Args).Argv 0 = some a0 := by
    simp [Cmd.Args.Argv]
  have h1 : (⟨a0 :: a1 :: a2 :: rest, starts⟩ : Cmd.Args).Argv 1 = some a1 := by
    simp [Cmd.Args.Argv]
  have h2 : (⟨a0 :: a1 :: a2 :: rest, starts⟩ : Cmd.Args).Argv 2 = some a2 := by
    simp [Cmd.Args.Argv]
  unfold Message.Decode
  simp only [hrej, h0, h1, h2, Cmd.Args.escapedArgs_two]
  by_cases hk : a0 ≠ "rcon" ∧ a0 ≠ "srcon"
  · simp [hk.1, hk.2]
  · rw [if_neg hk]
    have hk' : (a0 != "rcon" && a0 != "srcon") = false := by
      simp only [ne_eq, not_and, not_not] at hk
      by_cases hr : a0 = "rcon"
      · simp [hr]
      · simp [hk hr]
    by_cases hp : cv.cvar_server_password = ""
    · have hp' : cv.cvar_server_password.isEmpty = true := (String.isEmpty_iff _).2 hp
      rw [if_pos hp]
      simp [hk', hp']
    · rw [if_neg hp]
      have hp' : cv.cvar_server_password.isEmpty = false := (isEmpty_eq_false_iff _).2 hp
      by_cases hr : a0 = "rcon"
      · simp [hk', hp', hr]
      · rw [if_neg hr]
        simp only [Option.pure_def, Option.bind_eq_bind, Option.some_bind, hk',
          Bool.false_eq_true, if_false, hp', beq_iff_eq, hr]

end Rcon

namespace Rcon

/-- C11, as stated, fails: with no server password the error of the decoded message is not the
string "password not configured". -/
theorem Message.decode_no_password_reason_differs :
    ¬ ∃ m, Message.Decode ⟨"", Secure.Unencrypted⟩
        ⟨id, fun p _ => some p, fun c _ => some c, id, some⟩ 7
        ⟨["rcon", "secret", "status"], [0, 5, 12]⟩ = some m ∧
      m.error = "password not configured" := by
  rw [Message.decode_three]
  rintro ⟨m, hm, he⟩
  simp only [ne_eq, not_true_eq_false, false_and, if_false, if_true, Option.some.injEq] at hm
  rw [← hm] at he
  exact absurd he (by decide)

/-- C11 (amended): on at least three tokens whose first is "rcon" or "srcon", `Decode` returns,
when the server password is empty, an error message whose reason is
"rcon.server.password not set". -/
theorem Message.decode_password_not_set (cv : Cvars) (cr : Crypto) (remote : netadr_t)
    (a0 a1 a2 : String) (rest : List String) (starts : List Int)
    (h0 : a0 = "rcon" ∨ a0 = "srcon") (hp : cv.cvar_server_password = "") :
    ∃ m, Message.Decode cv cr remote ⟨a0 :: a1 :: a2 :: rest, starts⟩ = some m ∧
      m.error = "rcon.server.password not set" ∧
      ∀ s, m.Valid (some s) = (false, some "rcon.server.password not set") := by
  refine ⟨Message.ofError "rcon.server.password not set", ?_, rfl, fun s => rfl⟩
  rw [Message.decode_three]
  have hk : ¬ (a0 ≠ "rcon" ∧ a0 ≠ "srcon") := by
    rintro ⟨h1, h2⟩
    exact h0.elim h1 h2
  rw [if_neg hk, if_pos hp]

/-- C11 (amended), at an encrypted request sent to a server without a password. -/
theorem Message.decode_password_not_set_witness :
    ∃ m, Message.Decode ⟨"", Secure.Unencrypted⟩
        ⟨id, fun p _ => some p, fun c _ => some c, id, some⟩ 7
        ⟨"srcon" :: "PLAIN" :: "c3RhdHVz" :: [], [0, 6, 12]⟩ = some m ∧
      m.error = "rcon.server.password not set" ∧
      ∀ s, m.Valid (some s) = (false, some "rcon.server.password not set") :=
  Message.decode_password_not_set ⟨"", Secure.Unencrypted⟩
    ⟨id, fun p _ => some p, fun c _ => some c, id, some⟩ 7 "srcon" "PLAIN" "c3RhdHVz" []
    [0, 6, 12] (Or.inr rfl) rfl

/-- C13: on an "srcon" request of at least three tokens, with a server password configured,
whose third token fails Base64 decoding, `Decode` returns an error message with the reason
"Invalid Base64 string", whatever the method token is and whatever decryption would do. -/
theorem Message.decode_invalid_base64 (cv : Cvars) (cr : Crypto) (remote : netadr_t)
    (a1 a2 : String) (rest : List String) (starts : List Int)
    (hp : cv.cvar_server_password ≠ "") (hb : cr.Base64Decode a2 = none) :
    ∃ m, Message.Decode cv cr remote ⟨"srcon" :: a1 :: a2 :: rest, starts⟩ = some m ∧
      m.error = "Invalid Base64 string" ∧
      ∀ s, m.Valid (some s) = (false, some "Invalid Base64 string") := by
  refine ⟨Message.ofError "Invalid Base64 string", ?_, rfl, fun s => rfl⟩
  rw [Message.decode_three]
  have hk : ¬ ("srcon" ≠ "rcon" ∧ "srcon" ≠ "srcon") := by decide
  have hr : ¬ ("srcon" = "rcon") := by decide
  rw [if_neg hk, if_neg hp, if_neg hr, hb]

/-- C13, at a third token that a codec refusing every text cannot decode, with an unknown
method. -/
theorem Message.decode_invalid_base64_witness :
    ∃ m, Message.Decode ⟨"secret", Secure.Unencrypted⟩
        ⟨id, fun p _ => some p, fun c _ => some c, id, fun _ => none⟩ 7
        ⟨"srcon" :: "ROT13" :: "!!!" :: [], [0, 6, 12]⟩ = some m ∧
      m.error = "Invalid Base64 string" ∧
      ∀ s, m.Valid (some s) = (false, some "Invalid Base64 string") :=
  Message.decode_invalid_base64 ⟨"secret", Secure.Unencrypted⟩
    ⟨id, fun p _ => some p, fun c _ => some c, id, fun _ => none⟩ 7 "ROT13" "!!!" []
    [0, 6, 12] (by decide) rfl

/-- C14: on an "srcon" request whose third token decodes from Base64 to bytes that do not
decrypt under the hash of the server password, `Decode` returns an error message with the
reason "Error during decryption", whatever the method token is. -/
theorem Message.decode_decryption_error (cv : Cvars) (cr : Crypto) (remote : netadr_t)
    (a1 a2 data : String) (rest : List String) (starts : List Int)
    (hp : cv.cvar_server_password ≠ "") (hb : cr.Base64Decode a2 = some data)
    (hd : cr.Aes256Decrypt data (cr.Sha256 cv.cvar_server_password) = none) :
    ∃ m, Message.Decode cv cr remote ⟨"srcon" :: a1 :: a2 :: rest, starts⟩ = some m ∧
      m.error = "Error during decryption" ∧
      ∀ s, m.Valid (some s) = (false, some "Error during decryption") := by
  refine ⟨Message.ofError "Error during decryption", ?_, rfl, fun s => rfl⟩
  rw [Message.decode_three]
  have hk : ¬ ("srcon" ≠ "rcon" ∧ "srcon" ≠ "srcon") := by decide
  have hr : ¬ ("srcon" = "rcon") := by decide
  rw [if_neg hk, if_neg hp, if_neg hr, hb]
  simp only [hd]

/-- C14, at a cipher that refuses every input, with an unknown method. -/
theorem Message.decode_decryption_error_witness :
    ∃ m, Message.Decode ⟨"secret", Secure.Unencrypted⟩
        ⟨id, fun p _ => some p, fun _ _ => none, id, some⟩ 7
        ⟨"srcon" :: "ROT13" :: "c3RhdHVz" :: [], [0, 6, 12]⟩ = some m ∧
      m.error = "Error during decryption" ∧
      ∀ s, m.Valid (some s) = (false, some "Error during decryption") :=
  Message.decode_decryption_error ⟨"secret", Secure.Unencrypted⟩
    ⟨id, fun p _ => some p, fun _ _ => none, id, some⟩ 7 "ROT13" "c3RhdHVz" "c3RhdHVz" []
    [0, 6, 12] (by decide) rfl rfl

end Rcon

namespace Rcon

/-! The plaintext of an encrypted request. -/

theorem dropWhile_append_of_all {α : Type} (p : α → Bool) (l₁ l₂ : List α)
    (h : ∀ x ∈ l₁, p x = true) : (l₁ ++ l₂).dropWhile p = l₂.dropWhile p := by
  induction l₁ with
  | nil => rfl
  | cons a l ih =>
    have ha : p a = true := h a (List.mem_cons_self a l)
    simp only [List.cons_append, List.dropWhile_cons, ha, if_true]
    exact ih (fun x hx => h x (List.mem_cons_of_mem a hx))

theorem takeWhile_append_of_all {α : Type} (p : α → Bool) (l₁ l₂ : List α)
    (h : ∀ x ∈ l₁, p x = true) : (l₁ ++ l₂).takeWhile p = l₁ ++ l₂.takeWhile p := by
  induction l₁ with
  | nil => rfl
  | cons a l ih =>
    have ha : p a = true := h a (List.mem_cons_self a l)
    simp only [List.cons_append, List.takeWhile_cons, ha, if_true]
    rw [ih (fun x hx => h x (List.mem_cons_of_mem a hx))]

/-- The loop that skips whitespace stops at the first character that is none. -/
theorem skipLoop_append (sep : List Char) (r : Char) (rs : List Char)
    (hsep : ∀ c ∈ sep, cisspace c = true) (hr : cisspace r = false) :
    skipLoop (sep ++ r :: rs) = { buf := r :: rs, eofbit := false, failbit := false } := by
  induction sep with
  | nil => simp [skipLoop, hr]
  | cons a l ih =>
    have ha : cisspace a = true := hsep a (List.mem_cons_self a l)
    simp only [List.cons_append, skipLoop, ha, if_true]
    exact ih (fun x hx => hsep x (List.mem_cons_of_mem a hx))

/-- The message decoded from a CHALLENGE plaintext made of optional whitespace, a word, some
whitespace, and a rest that starts with a character that is no whitespace. -/
theorem decodePlaintext_challenge (cv : Cvars) (remote : netadr_t) (plain : String)
    (pre word sep : List Char) (r : Char) (rs : List Char)
    (hP : plain.data = pre ++ word ++ sep ++ r :: rs)
    (hpre : ∀ c ∈ pre, cisspace c = true) (hword : word ≠ [])
    (hw : ∀ c ∈ word, cisspace c = false) (hsep : sep ≠ [])
    (hs : ∀ c ∈ sep, cisspace c = true) (hr : cisspace r = false) :
    decodePlaintext cv remote "CHALLENGE" plain =
      { secure := Secure.EncryptedChallenge, challenge := String.mk word,
        command := String.mk ((r :: rs).takeWhile (fun c => c != '\n')),
        password := cv.cvar_server_password, remote := remote, error := "" } := by
  obtain ⟨w0, wt, rfl⟩ := List.exists_cons_of_ne_nil hword
  obtain ⟨s0, st, rfl⟩ := List.exists_cons_of_ne_nil hsep
  have hw0 : cisspace w0 = false := hw w0 (List.mem_cons_self _ _)
  have hs0 : cisspace s0 = true := hs s0 (List.mem_cons_self _ _)
  have hw' : ∀ x ∈ w0 :: wt, (fun c => !cisspace c) x = true := by
    intro x hx
    simp [hw x hx]
  have h1 : plain.data.dropWhile cisspace = (w0 :: wt) ++ ((s0 :: st) ++ r :: rs) := by
    rw [hP, List.append_assoc, List.append_assoc, dropWhile_append_of_all _ _ _ hpre]
    simp [List.dropWhile_cons, hw0]
  have h2 : ((w0 :: wt) ++ ((s0 :: st) ++ r :: rs)).dropWhile (fun c => !cisspace c) =
      (s0 :: st) ++ r :: rs := by
    rw [dropWhile_append_of_all _ _ _ hw']
    simp [List.dropWhile_cons, hs0]
  have h3 : ((w0 :: wt) ++ ((s0 :: st) ++ r :: rs)).takeWhile (fun c => !cisspace c) =
      w0 :: wt := by
    rw [takeWhile_append_of_all _ _ _ hw']
    simp [List.takeWhile_cons, hs0]
  have h4 := skipLoop_append (s0 :: st) r rs hs hr
  have hex : istringstream.extract { buf := plain.data, eofbit := false, failbit := false } "" =
      ({ buf := (s0 :: st) ++ r :: rs, eofbit := false, failbit := false },
        String.mk (w0 :: wt)) := by
    simp only [istringstream.extract, istringstream.good, h1, h2, h3]
    simp
  have hsk : istringstream.skipSpaces
      { buf := (s0 :: st) ++ r :: rs, eofbit := false, failbit := false } =
      { buf := r :: rs, eofbit := false, failbit := false } := by
    simp only [istringstream.skipSpaces, istringstream.good, h4]
    simp
  have hgl : (istringstream.getline { buf := r :: rs, eofbit := false, failbit := false }
      plain).2 = String.mk ((r :: rs).takeWhile (fun c => c != '\n')) := by
    simp only [istringstream.getline, istringstream.good]
    simp only [Bool.not_false, Bool.and_self, Bool.not_true, Bool.false_eq_true, if_false]
    split <;> rfl
  unfold decodePlaintext
  simp only [beq_self_eq_true, if_true, hex, hsk, hgl]
  rfl

end Rcon

namespace Rcon

/-- C15, as stated, fails: a CHALLENGE plaintext whose remainder holds a newline does not decode
to the challenge and command the specification reads off it. -/
theorem Message.decode_challenge_command_differs :
    ¬ ∃ m, Message.Decode ⟨"secret", Secure.Unencrypted⟩
        ⟨id, fun p _ => some p, fun c _ => some c, id, some⟩ 7
        ⟨["srcon", "CHALLENGE", "abc123 map ffa\nquit"], [0, 6, 16]⟩ = some m ∧
      m.secure = Secure.EncryptedChallenge ∧ m.password = "secret" ∧
      m.challenge = specChallenge "abc123 map ffa\nquit" ∧
      m.command = specCommand "abc123 map ffa\nquit" := by
  have h : Message.Decode ⟨"secret", Secure.Unencrypted⟩
      ⟨id, fun p _ => some p, fun c _ => some c, id, some⟩ 7
      ⟨["srcon", "CHALLENGE", "abc123 map ffa\nquit"], [0, 6, 16]⟩ =
      some (Message.new 7 "map ffa" Secure.EncryptedChallenge "secret" "abc123") := by
    decide
  rintro ⟨m, hm, -, -, -, hc⟩
  rw [h, Option.some.injEq] at hm
  rw [← hm] at hc
  exact absurd hc (by decide)

/-- C16: an "srcon" request with the method "PLAIN" that decrypts to a plaintext decodes to a
message of level `EncryptedPlain` whose command is the plaintext as it is, whose challenge is
empty and whose password is the server password. -/
theorem Message.decode_plain (cv : Cvars) (cr : Crypto) (remote : netadr_t)
    (a2 data plain : String) (rest : List String) (starts : List Int)
    (hp : cv.cvar_server_password ≠ "") (hb : cr.Base64Decode a2 = some data)
    (hd : cr.Aes256Decrypt data (cr.Sha256 cv.cvar_server_password) = some plain) :
    Message.Decode cv cr remote ⟨"srcon" :: "PLAIN" :: a2 :: rest, starts⟩ =
      some { secure := Secure.EncryptedPlain, challenge := "", command := plain,
             password := cv.cvar_server_password, remote := remote, error := "" } := by
  rw [Message.decode_three]
  have hk : ¬ ("srcon" ≠ "rcon" ∧ "srcon" ≠ "srcon") := by decide
  have hr' : ¬ ("srcon" = "rcon") := by decide
  rw [if_neg hk, if_neg hp, if_neg hr', hb]
  simp only [hd]
  rfl

/-- C16, at a plaintext with leading and inner whitespace, a quote and a newline. -/
theorem Message.decode_plain_witness :
    Message.Decode ⟨"secret", Secure.Unencrypted⟩
        ⟨id, fun p _ => some p, fun c _ => some c, id, some⟩ 7
        ⟨"srcon" :: "PLAIN" :: "  say \"hi\"\nquit " :: [], [0, 6, 12]⟩ =
      some { secure := Secure.EncryptedPlain, challenge := "", command := "  say \"hi\"\nquit ",
             password := "secret", remote := 7, error := "" } :=
  Message.decode_plain ⟨"secret", Secure.Unencrypted⟩
    ⟨id, fun p _ => some p, fun c _ => some c, id, some⟩ 7 "  say \"hi\"\nquit "
    "  say \"hi\"\nquit " "  say \"hi\"\nquit " [] [0, 6, 12] (by decide) rfl rfl

/-- A message without error whose level is none of the three real ones is rejected for its
level. -/
theorem Message.valid_unknown_level (m : Message) (invalid_reason : Option String)
    (he : m.error = "")
    (hs : m.secure < Secure.Unencrypted ∨ Secure.EncryptedChallenge < m.secure) :
    m.Valid invalid_reason = invalid invalid_reason "Unknown secure protocol" := by
  unfold Message.Valid
  have hs' : (decide (m.secure < Secure.Unencrypted) ||
      decide (m.secure > Secure.EncryptedChallenge)) = true := by
    simpa using hs
  simp [(String.isEmpty_iff _).2 he, hs']

/-- C17: an "srcon" request that decodes and decrypts but whose method is neither "CHALLENGE"
nor "PLAIN" decodes to a message of level `Invalid`, which `Valid` rejects with the reason
"Unknown secure protocol", also when the plaintext is empty. -/
theorem Message.decode_unknown_method (cv : Cvars) (cr : Crypto) (remote : netadr_t)
    (a1 a2 data plain : String) (rest : List String) (starts : List Int)
    (hp : cv.cvar_server_password ≠ "") (hc : a1 ≠ "CHALLENGE") (hn : a1 ≠ "PLAIN")
    (hb : cr.Base64Decode a2 = some data)
    (hd : cr.Aes256Decrypt data (cr.Sha256 cv.cvar_server_password) = some plain) :
    ∃ m, Message.Decode cv cr remote ⟨"srcon" :: a1 :: a2 :: rest, starts⟩ = some m ∧
      m.secure = Secure.Invalid ∧ m.command = plain ∧ (m.Valid none).1 = false ∧
      ∀ s, m.Valid (some s) = (false, some "Unknown secure protocol") := by
  refine ⟨Message.new remote plain Secure.Invalid cv.cvar_server_password "", ?_, rfl, rfl,
    ?_, ?_⟩
  · rw [Message.decode_three]
    have hk : ¬ ("srcon" ≠ "rcon" ∧ "srcon" ≠ "srcon") := by decide
    have hr' : ¬ ("srcon" = "rcon") := by decide
    rw [if_neg hk, if_neg hp, if_neg hr', hb]
    simp only [hd]
    simp [decodePlaintext, hc, hn]
  · have hl : Secure.EncryptedChallenge <
        (Message.new remote plain Secure.Invalid cv.cvar_server_password "").secure := by
      show (2 : Int) < 3
      omega
    rw [Message.valid_unknown_level _ none rfl (Or.inr hl)]
    rfl
  · intro s
    have hl : Secure.EncryptedChallenge <
        (Message.new remote plain Secure.Invalid cv.cvar_server_password "").secure := by
      show (2 : Int) < 3
      omega
    rw [Message.valid_unknown_level _ (some s) rfl (Or.inr hl)]
    rfl

/-- C17, at the method "ROT13" with an empty plaintext. -/
theorem Message.decode_unknown_method_witness :
    ∃ m, Message.Decode ⟨"secret", Secure.Unencrypted⟩
        ⟨id, fun p _ => some p, fun c _ => some c, id, fun _ => some ""⟩ 7
        ⟨"srcon" :: "ROT13" :: "AAAA" :: [], [0, 6, 12]⟩ = some m ∧
      m.secure = Secure.Invalid ∧ m.command = "" ∧ (m.Valid none).1 = false ∧
      ∀ s, m.Valid (some s) = (false, some "Unknown secure protocol") :=
  Message.decode_unknown_method ⟨"secret", Secure.Unencrypted⟩
    ⟨id, fun p _ => some p, fun c _ => some c, id, fun _ => some ""⟩ 7 "ROT13" "AAAA" "" ""
    [] [0, 6, 12] (by decide) (by decide) (by decide) rfl rfl

end Rcon

namespace Rcon

/-! The codec: `Send`. -/

/-- What `Send` does at a level other than `Unencrypted`, by the outcome of the encryption. -/
theorem Message.send_encrypted (m : Message) (cr : Crypto) (net : List (netadr_t × String))
    (hu : m.secure ≠ Secure.Unencrypted) :
    m.Send cr net =
      match cr.Aes256Encrypt
          (if m.secure = Secure.EncryptedChallenge then m.challenge ++ " " ++ m.command
            else m.command) (cr.Sha256 m.password) with
      | some cypher =>
        net ++ [(m.remote,
          "srcon " ++ (if m.secure = Secure.EncryptedChallenge then "CHALLENGE" else "PLAIN") ++
            " " ++ cr.Base64Encode cypher)]
      | none => net := by
  unfold Message.Send OutOfBandPrint
  simp only [beq_iff_eq, hu, if_false]

/-- C19: the payload `Send` hands to the transport is "rcon " + password + " " + command at
level `Unencrypted`; "srcon PLAIN " + base64(encrypt(command, hash(password))) at level
`EncryptedPlain`; and "srcon CHALLENGE " + base64(encrypt(challenge + " " + command,
hash(password))) at level `EncryptedChallenge`. -/
theorem Message.send_payload (m : Message) (cr : Crypto) (net : List (netadr_t × String))
    (cypher : String) :
    (m.secure = Secure.Unencrypted →
        m.Send cr net = net ++ [(m.remote, "rcon " ++ m.password ++ " " ++ m.command)]) ∧
      (m.secure = Secure.EncryptedPlain →
        cr.Aes256Encrypt m.command (cr.Sha256 m.password) = some cypher →
        m.Send cr net = net ++ [(m.remote, "srcon PLAIN " ++ cr.Base64Encode cypher)]) ∧
      (m.secure = Secure.EncryptedChallenge →
        cr.Aes256Encrypt (m.challenge ++ " " ++ m.command) (cr.Sha256 m.password) =
          some cypher →
        m.Send cr net = net ++ [(m.remote, "srcon CHALLENGE " ++ cr.Base64Encode cypher)]) := by
  refine ⟨?_, ?_, ?_⟩
  · intro h
    unfold Message.Send OutOfBandPrint
    simp [h]
  · intro h he
    have hu : m.secure ≠ Secure.Unencrypted := by rw [h]; decide
    have hc : ¬ m.secure = Secure.EncryptedChallenge := by rw [h]; decide
    rw [m.send_encrypted cr net hu]
    simp only [hc, if_false, he]
    rfl
  · intro h he
    have hu : m.secure ≠ Secure.Unencrypted := by rw [h]; decide
    rw [m.send_encrypted cr net hu]
    simp only [h, if_true, he]
    rfl

/-- C19, at a challenge message sent through a cipher and a codec that leave the text as it
is. -/
theorem Message.send_payload_witness :
    (Message.new 7 "map ffa" Secure.EncryptedChallenge "secret" "abc123").Send
        ⟨id, fun p _ => some p, fun c _ => some c, id, some⟩ [] =
      [] ++ [((Message.new 7 "map ffa" Secure.EncryptedChallenge "secret" "abc123").remote,
        "srcon CHALLENGE " ++ (⟨id, fun p _ => some p, fun c _ => some c, id, some⟩ :
          Crypto).Base64Encode "abc123 map ffa")] :=
  (Message.send_payload (Message.new 7 "map ffa" Secure.EncryptedChallenge "secret" "abc123")
    ⟨id, fun p _ => some p, fun c _ => some c, id, some⟩ [] "abc123 map ffa").2.2 rfl rfl

/-- C20, as stated, fails: when the encryption fails `Send` sends nothing. -/
theorem Message.send_nothing_sent :
    ((Message.new 7 "status" Secure.EncryptedPlain "secret" "").Send
        ⟨id, fun _ _ => none, fun c _ => some c, id, some⟩ []).length ≠
      ([] : List (netadr_t × String)).length + 1 := by
  decide

/-- C20 (amended): `Send` hands exactly one datagram to the transport when the level is
`Unencrypted` or the encryption succeeds, and none when the encryption fails; what was sent
before stays as it was. -/
theorem Message.send_datagrams (m : Message) (cr : Crypto) (net : List (netadr_t × String)) :
    (m.secure = Secure.Unencrypted → ∃ payload, m.Send cr net = net ++ [(m.remote, payload)]) ∧
      (m.secure ≠ Secure.Unencrypted →
        (cr.Aes256Encrypt
          (if m.secure = Secure.EncryptedChallenge then m.challenge ++ " " ++ m.command
            else m.command) (cr.Sha256 m.password)).isSome = true →
        ∃ payload, m.Send cr net = net ++ [(m.remote, payload)]) ∧
      (m.secure ≠ Secure.Unencrypted →
        cr.Aes256Encrypt
          (if m.secure = Secure.EncryptedChallenge then m.challenge ++ " " ++ m.command
            else m.command) (cr.Sha256 m.password) = none →
        m.Send cr net = net) := by
  refine ⟨?_, ?_, ?_⟩
  · intro h
    refine ⟨"rcon " ++ m.password ++ " " ++ m.command, ?_⟩
    unfold Message.Send OutOfBandPrint
    simp [h]
  · intro hu he
    rw [m.send_encrypted cr net hu]
    obtain ⟨c, hc⟩ := Option.isSome_iff_exists.1 he
    rw [hc]
    exact ⟨_, rfl⟩
  · intro hu he
    rw [m.send_encrypted cr net hu, he]

/-- C20 (amended), at a message whose encryption fails: the transport is left as it was. -/
theorem Message.send_datagrams_witness :
    (Message.new 7 "status" Secure.EncryptedPlain "secret" "").Send
        ⟨id, fun _ _ => none, fun c _ => some c, id, some⟩ [(3, "rcon secret quit")] =
      [(3, "rcon secret quit")] :=
  (Message.send_datagrams (Message.new 7 "status" Secure.EncryptedPlain "secret" "")
    ⟨id, fun _ _ => none, fun c _ => some c, id, some⟩ [(3, "rcon secret quit")]).2.2
    (by decide) rfl

end Rcon

namespace Cmd

/-! The tokenizer on plain words. -/

theorem wordChar_spec (c : Char) (h : wordChar c = true) :
    leSpace c = false ∧ c ≠ '"' ∧ c ≠ '\\' := by
  simp only [wordChar, Bool.and_eq_true, decide_eq_true_eq, bne_iff_ne, ne_eq] at h
  refine ⟨?_, h.1.2, h.2⟩
  simp only [leSpace, Bool.or_eq_false_iff, decide_eq_false_iff_not]
  omega

theorem leSpace_spec (s : Char) (h : leSpace s = true) : s ≠ '"' ∧ s ≠ '/' ∧ s ≠ '*' := by
  simp only [leSpace, Bool.or_eq_true, decide_eq_true_eq] at h
  refine ⟨?_, ?_, ?_⟩ <;> rintro rfl <;> revert h <;> decide

theorem plainWord_cons (c : Char) (w : List Char) (h : plainWord (c :: w) = true) :
    wordChar c = true ∧ (c = '/' → w.headD '\x00' ≠ '/' ∧ w.headD '\x00' ≠ '*') ∧
      plainWord w = true := by
  simp only [plainWord, Bool.and_eq_true, Bool.not_eq_true', Bool.and_eq_false_iff,
    Bool.or_eq_false_iff, beq_eq_false_iff_ne, ne_eq] at h
  refine ⟨h.1.1, ?_, h.2⟩
  intro hc
  rcases h.1.2 with h' | h'
  · exact absurd hc h'
  · exact h'

/-- The unquoted scan of a plain word that is followed by a character at or below the space:
the token is the word, and the scan resumes behind that character. -/
theorem unquotedToken_word (s : Char) (rest : List Char) (hs : leSpace s = true) :
    ∀ (w : List Char) (c : Char) (tok : List Char), plainWord (c :: w) = true →
      (unquotedToken c false tok (w ++ s :: rest)).token = tok ++ c :: w ∧
        (unquotedToken c false tok (w ++ s :: rest)).rest = rest := by
  obtain ⟨hs1, hs2, hs3⟩ := leSpace_spec s hs
  intro w
  induction w with
  | nil =>
    intro c tok hw
    obtain ⟨hc, -, -⟩ := plainWord_cons c [] hw
    obtain ⟨-, -, hcb⟩ := wordChar_spec c hc
    simp [unquotedToken, hcb, hs, hs1, hs2]
  | cons d w ih =>
    intro c tok hw
    obtain ⟨hc, -, hw'⟩ := plainWord_cons c (d :: w) hw
    obtain ⟨-, -, hcb⟩ := wordChar_spec c hc
    obtain ⟨hd, hdn, -⟩ := plainWord_cons d w hw'
    obtain ⟨hdl, hdq, -⟩ := wordChar_spec d hd
    have hnext : ¬ (d = '/' ∧ ((w ++ s :: rest).headD '\x00' = '/' ∨
        (w ++ s :: rest).headD '\x00' = '*')) := by
      rintro ⟨h1, h2⟩
      cases w with
      | nil =>
        simp only [List.nil_append, List.headD_cons] at h2
        rcases h2 with h2 | h2
        · exact hs2 h2
        · exact hs3 h2
      | cons e w =>
        have := hdn h1
        simp only [List.cons_append, List.headD_cons] at h2 this
        rcases h2 with h2 | h2
        · exact this.1 h2
        · exact this.2 h2
    have hne : (w ++ s :: rest).isEmpty = false := by
      cases w <;> rfl
    have hdq' : (d == '"') = false := by
      simpa using hdq
    have hX : (d == '/' && ((w ++ s :: rest).headD '\x00' == '/' ||
        (w ++ s :: rest).headD '\x00' == '*')) = false := by
      simp only [Bool.and_eq_false_iff, Bool.or_eq_false_iff, beq_eq_false_iff_ne, ne_eq]
      by_cases h1 : d = '/'
      · right
        exact ⟨fun h => hnext ⟨h1, Or.inl h⟩, fun h => hnext ⟨h1, Or.inr h⟩⟩
      · left
        exact h1
    have hcb' : (c != '\\') = true := by
      simpa using hcb
    have hstep : unquotedToken c false tok (d :: (w ++ s :: rest)) =
        { unquotedToken d false (tok ++ [c]) (w ++ s :: rest) with
          moved := (unquotedToken d false (tok ++ [c]) (w ++ s :: rest)).moved + 1 } := by
      rw [unquotedToken]
      simp only [hcb', hne, hdq', hX, hdl, Bool.false_or, Bool.or_false, Bool.not_true,
        Bool.not_false, Bool.true_and, Bool.and_true, Bool.and_self, if_true, Bool.or_self,
        Bool.and_false]
    have := ih d (tok ++ [c]) hw'
    rw [List.cons_append, hstep]
    simpa using this

/-- One round of the unquoted scan that neither finishes nor escapes. -/
theorem unquotedToken_step (c d : Char) (tok rest : List Char) (hc : c ≠ '\\')
    (hne : rest ≠ []) (hd : wordChar d = true)
    (hnext : d = '/' → rest.headD '\x00' ≠ '/' ∧ rest.headD '\x00' ≠ '*') :
    unquotedToken c false tok (d :: rest) =
      { unquotedToken d false (tok ++ [c]) rest with
        moved := (unquotedToken d false (tok ++ [c]) rest).moved + 1 } := by
  obtain ⟨hdl, hdq, -⟩ := wordChar_spec d hd
  have hne' : rest.isEmpty = false := by
    cases rest with
    | nil => exact absurd rfl hne
    | cons _ _ => rfl
  have hdq' : (d == '"') = false := by
    simpa using hdq
  have hX : (d == '/' && (rest.headD '\x00' == '/' || rest.headD '\x00' == '*')) = false := by
    simp only [Bool.and_eq_false_iff, Bool.or_eq_false_iff, beq_eq_false_iff_ne, ne_eq]
    by_cases h1 : d = '/'
    · right
      exact hnext h1
    · left
      exact h1
  have hcb' : (c != '\\') = true := by
    simpa using hc
  rw [unquotedToken]
  simp only [hcb', hne', hdq', hX, hdl, Bool.false_or, Bool.or_false, Bool.not_true,
    Bool.not_false, Bool.true_and, Bool.and_true, Bool.and_self, if_true, Bool.or_self,
    Bool.and_false]

/-- The unquoted scan of a plain word that ends the text: the token is the word and nothing is
left. -/
theorem unquotedToken_last :
    ∀ (w : List Char) (c : Char) (tok : List Char), plainWord (c :: w) = true →
      (unquotedToken c false tok w).token = tok ++ c :: w ∧
        (unquotedToken c false tok w).rest = [] := by
  intro w
  induction w with
  | nil =>
    intro c tok hw
    obtain ⟨hc, -, -⟩ := plainWord_cons c [] hw
    obtain ⟨-, -, hcb⟩ := wordChar_spec c hc
    have h0 : leSpace '\x00' = true := by decide
    simp [unquotedToken, hcb, h0]
  | cons d w ih =>
    intro c tok hw
    obtain ⟨hc, -, hw'⟩ := plainWord_cons c (d :: w) hw
    obtain ⟨-, -, hcb⟩ := wordChar_spec c hc
    obtain ⟨hd, hdn, -⟩ := plainWord_cons d w hw'
    obtain ⟨hdl, -, -⟩ := wordChar_spec d hd
    cases w with
    | nil =>
      simp [unquotedToken, hcb, hdl]
    | cons e w =>
      rw [unquotedToken_step c d tok (e :: w) hcb (by simp) hd hdn]
      simpa using ih d (tok ++ [c]) hw'

end Cmd

namespace Cmd

/-! The outer loop of the tokenizer. -/

/-- The tokens found do not depend on the position counters nor on the start offsets. -/
theorem tokenizeLoop_tokens_pos (fuel : Nat) :
    ∀ (rest : List Char) (tokens : List String) (pos pos' : Nat) (ts ts' : Int)
      (starts starts' : List Int),
      (tokenizeLoop fuel pos rest ts tokens starts).map Prod.fst =
        (tokenizeLoop fuel pos' rest ts' tokens starts').map Prod.fst := by
  induction fuel with
  | zero => intros; rfl
  | succ n ih =>
    intro rest tokens pos pos' ts ts' starts starts'
    cases rest with
    | nil => rfl
    | cons c rest =>
      simp only [tokenizeLoop]
      split_ifs
      · exact ih _ _ _ _ _ _ _ _
      · rfl
      · rfl
      · exact ih _ _ _ _ _ _ _ _
      · exact ih _ _ _ _ _ _ _ _
      · exact ih _ _ _ _ _ _ _ _

/-- Tokens already found stay in front of those the loop adds. -/
theorem tokenizeLoop_tokens_prefix (fuel : Nat) :
    ∀ (rest : List Char) (pre tokens : List String) (pos : Nat) (ts : Int)
      (starts : List Int),
      (tokenizeLoop fuel pos rest ts (pre ++ tokens) starts).map Prod.fst =
        (tokenizeLoop fuel pos rest ts tokens starts).map (fun r => pre ++ r.1) := by
  induction fuel with
  | zero => intros; rfl
  | succ n ih =>
    intro rest pre tokens pos ts starts
    cases rest with
    | nil => rfl
    | cons c rest =>
      simp only [tokenizeLoop]
      split_ifs
      · exact ih _ _ _ _ _ _
      · rfl
      · rfl
      · exact ih _ _ _ _ _ _
      · rw [List.append_assoc]
        exact ih _ _ _ _ _ _
      · rw [List.append_assoc]
        exact ih _ _ _ _ _ _

theorem quotedToken_rest_length :
    ∀ (l : List Char) (c : Char) (escaped : Bool) (tok : List Char),
      (quotedToken c escaped tok l).rest.length ≤ l.length := by
  intro l
  induction l with
  | nil => intros; simp [quotedToken]
  | cons d l ih =>
    intro c escaped tok
    rw [quotedToken]
    split_ifs
    · exact Nat.le_succ_of_le (ih _ _ _)
    · exact Nat.le_succ_of_le (ih _ _ _)
    · exact Nat.le_refl _

theorem unquotedToken_rest_length :
    ∀ (l : List Char) (c : Char) (escaped : Bool) (tok : List Char),
      (unquotedToken c escaped tok l).rest.length ≤ l.length := by
  intro l
  induction l with
  | nil => intros; simp [unquotedToken]
  | cons d l ih =>
    intro c escaped tok
    rw [unquotedToken]
    simp only
    split_ifs <;>
      first
        | exact Nat.le_succ_of_le (ih _ _ _)
        | exact Nat.le_refl _
        | exact Nat.le_succ _

/-- Once there is more fuel than text, the amount of fuel makes no difference. -/
theorem tokenizeLoop_fuel (fuel : Nat) :
    ∀ (fuel' : Nat) (rest : List Char) (tokens : List String) (pos : Nat) (ts : Int)
      (starts : List Int), rest.length < fuel → rest.length < fuel' →
      tokenizeLoop fuel pos rest ts tokens starts =
        tokenizeLoop fuel' pos rest ts tokens starts := by
  induction fuel with
  | zero =>
    intro fuel' rest tokens pos ts starts h
    exact absurd h (Nat.not_lt_zero _)
  | succ n ih =>
    intro fuel' rest tokens pos ts starts h h'
    cases fuel' with
    | zero => exact absurd h' (Nat.not_lt_zero _)
    | succ n' =>
      cases rest with
      | nil => rfl
      | cons c rest =>
        simp only [List.length_cons] at h h'
        simp only [tokenizeLoop]
        split_ifs with h1 h2 h3 h4 h5
        · exact ih _ _ _ _ _ _ (by omega) (by omega)
        · rfl
        · rfl
        · have hl : (List.drop (skipComment rest.tail + 2) rest.tail).length ≤ rest.length := by
            rw [List.length_drop, List.length_tail]
            omega
          exact ih _ _ _ _ _ _ (by omega) (by omega)
        · have hl := quotedToken_rest_length rest.tail (rest.headD '\x00') false []
          rw [List.length_tail] at hl
          exact ih _ _ _ _ _ _ (by omega) (by omega)
        · have hl := unquotedToken_rest_length rest c false []
          exact ih _ _ _ _ _ _ (by omega) (by omega)

end Cmd

namespace Cmd

/-- In a plain word followed by a character at or below the space, no '/' is followed by '/'
or '*'. -/
theorem plainWord_next (c s : Char) (w rest : List Char) (hw : plainWord (c :: w) = true)
    (hs : leSpace s = true) :
    c = '/' → (w ++ s :: rest).headD '\x00' ≠ '/' ∧ (w ++ s :: rest).headD '\x00' ≠ '*' := by
  obtain ⟨-, hn, -⟩ := plainWord_cons c w hw
  obtain ⟨-, hs2, hs3⟩ := leSpace_spec s hs
  intro hc
  cases w with
  | nil => exact ⟨hs2, hs3⟩
  | cons e w => exact hn hc

/-- One iteration of the outer loop on a plain word followed by a character at or below the
space adds the word to the tokens and resumes behind that character. -/
theorem tokenizeLoop_word (fuel pos : Nat) (ts : Int) (tokens : List String)
    (starts : List Int) (c s : Char) (w rest : List Char)
    (hw : plainWord (c :: w) = true) (hs : leSpace s = true) :
    (tokenizeLoop (fuel + 1) pos (c :: (w ++ s :: rest)) ts tokens starts).map Prod.fst =
      (tokenizeLoop fuel 0 rest 0 (tokens ++ [String.mk (c :: w)]) []).map Prod.fst := by
  obtain ⟨hc, -, -⟩ := plainWord_cons c w hw
  obtain ⟨hcl, hcq, -⟩ := wordChar_spec c hc
  have hnext := plainWord_next c s w rest hw hs
  have hcq' : (c == '"') = false := by simpa using hcq
  have h1 : (c == '/' && !(w ++ s :: rest).isEmpty && (w ++ s :: rest).headD '\x00' == '/')
      = false := by
    by_cases h : c = '/'
    · rw [Bool.and_eq_false_iff]
      exact Or.inr (beq_eq_false_iff_ne.2 (hnext h).1)
    · rw [Bool.and_eq_false_iff, Bool.and_eq_false_iff]
      exact Or.inl (Or.inl (beq_eq_false_iff_ne.2 h))
  have h2 : (c == '/' && !(w ++ s :: rest).isEmpty && (w ++ s :: rest).headD '\x00' == '*')
      = false := by
    by_cases h : c = '/'
    · rw [Bool.and_eq_false_iff]
      exact Or.inr (beq_eq_false_iff_ne.2 (hnext h).2)
    · rw [Bool.and_eq_false_iff, Bool.and_eq_false_iff]
      exact Or.inl (Or.inl (beq_eq_false_iff_ne.2 h))
  obtain ⟨ht, hr⟩ := unquotedToken_word s rest hs w c [] hw
  rw [tokenizeLoop]
  simp only [hcl, h1, h2, hcq', Bool.false_and, Bool.false_eq_true, if_false, ht, hr,
    List.nil_append]
  exact tokenizeLoop_tokens_pos fuel _ _ _ _ _ _ _ _

/-- The outer loop on a plain word that ends the text adds the word to the tokens and
stops. -/
theorem tokenizeLoop_last (fuel pos : Nat) (ts : Int) (tokens : List String)
    (starts : List Int) (c : Char) (w : List Char) (hw : plainWord (c :: w) = true) :
    (tokenizeLoop (fuel + 2) pos (c :: w) ts tokens starts).map Prod.fst =
      some (tokens ++ [String.mk (c :: w)]) := by
  obtain ⟨hc, hn, -⟩ := plainWord_cons c w hw
  obtain ⟨hcl, hcq, -⟩ := wordChar_spec c hc
  have hcq' : (c == '"') = false := by simpa using hcq
  have h1 : (c == '/' && !w.isEmpty && w.headD '\x00' == '/') = false := by
    by_cases h : c = '/'
    · rw [Bool.and_eq_false_iff]
      exact Or.inr (beq_eq_false_iff_ne.2 (hn h).1)
    · rw [Bool.and_eq_false_iff, Bool.and_eq_false_iff]
      exact Or.inl (Or.inl (beq_eq_false_iff_ne.2 h))
  have h2 : (c == '/' && !w.isEmpty && w.headD '\x00' == '*') = false := by
    by_cases h : c = '/'
    · rw [Bool.and_eq_false_iff]
      exact Or.inr (beq_eq_false_iff_ne.2 (hn h).2)
    · rw [Bool.and_eq_false_iff, Bool.and_eq_false_iff]
      exact Or.inl (Or.inl (beq_eq_false_iff_ne.2 h))
  obtain ⟨ht, hr⟩ := unquotedToken_last w c [] hw
  rw [tokenizeLoop]
  simp only [hcl, h1, h2, hcq', Bool.false_and, Bool.false_eq_true, if_false, ht, hr,
    List.nil_append]
  rfl

/-- The tokens of a text that starts with a plain word followed by a character at or below
the space: the word, then the tokens of what follows. -/
theorem tokenizeLoop_word_then (fuel pos : Nat) (ts : Int) (tokens : List String)
    (starts : List Int) (c s : Char) (w rest : List Char)
    (hw : plainWord (c :: w) = true) (hs : leSpace s = true)
    (hf : (c :: (w ++ s :: rest)).length < fuel) :
    (tokenizeLoop fuel pos (c :: (w ++ s :: rest)) ts tokens starts).map Prod.fst =
      (tokenizeLoop (rest.length + 1) 0 rest 0 [] []).map
        (fun r => tokens ++ String.mk (c :: w) :: r.1) := by
  cases fuel with
  | zero => exact absurd hf (Nat.not_lt_zero _)
  | succ n =>
    have hlen : rest.length < n := by
      simp only [List.length_cons, List.length_append] at hf
      omega
    rw [tokenizeLoop_word n pos ts tokens starts c s w rest hw hs]
    have hp := tokenizeLoop_tokens_prefix n rest (tokens ++ [String.mk (c :: w)]) [] 0 0 []
    rw [List.append_nil] at hp
    rw [hp, tokenizeLoop_fuel n (rest.length + 1) rest [] 0 0 [] hlen (Nat.lt_succ_self _)]
    congr 1
    funext r
    simp

end Cmd

namespace Cmd

theorem map_tokens_eq (f : List String → List String) (x : Option (List String × List Int)) :
    x.map (fun r => f r.1) = (x.map Prod.fst).map f := by
  cases x <;> rfl

/-- The tokens of "rcon <password> <command>" for a password that is a plain word: the
keyword, the password, and the tokens of the command. -/
theorem tokenize_rcon (pw command : String) (hne : pw.data ≠ [])
    (hw : plainWord pw.data = true) :
    (Tokenize ("rcon " ++ pw ++ " " ++ command) [] []).map Prod.fst =
      (Tokenize command [] []).map (fun r => "rcon" :: pw :: r.1) := by
  obtain ⟨p0, pt, hpw⟩ := List.exists_cons_of_ne_nil hne
  have hd : ("rcon " ++ pw ++ " " ++ command).data =
      'r' :: (['c', 'o', 'n'] ++ ' ' :: (p0 :: (pt ++ ' ' :: command.data))) := by
    simp [String.data_append, hpw]
  have hpw' : String.mk (p0 :: pt) = pw := by
    rw [← hpw]
  rw [hpw] at hw
  unfold Tokenize
  rw [String.length, hd,
    tokenizeLoop_word_then _ 0 0 [] [] 'r' ' ' ['c', 'o', 'n'] _ (by decide) (by decide)
      (Nat.lt_succ_self _)]
  have h2 := tokenizeLoop_word_then ((p0 :: (pt ++ ' ' :: command.data)).length + 1) 0 0 [] []
    p0 ' ' pt command.data hw (by decide) (Nat.lt_succ_self _)
  refine (map_tokens_eq (fun l => [] ++ String.mk ('r' :: ['c', 'o', 'n']) :: l) _).trans ?_
  rw [h2, Option.map_map, hpw', String.length]
  rfl

/-- The tokens of "srcon <method> <text>" for a method and a text that are plain words: the
keyword, the method and the text. -/
theorem tokenize_srcon (method text : String) (hm : method.data ≠ [])
    (hmw : plainWord method.data = true) (ht : text.data ≠ [])
    (htw : plainWord text.data = true) :
    (Tokenize ("srcon " ++ method ++ " " ++ text) [] []).map Prod.fst =
      some ["srcon", method, text] := by
  obtain ⟨m0, mt, hmd⟩ := List.exists_cons_of_ne_nil hm
  obtain ⟨t0, tt, htd⟩ := List.exists_cons_of_ne_nil ht
  have hd : ("srcon " ++ method ++ " " ++ text).data =
      's' :: (['r', 'c', 'o', 'n'] ++ ' ' :: (m0 :: (mt ++ ' ' :: (t0 :: tt)))) := by
    simp [String.data_append, hmd, htd]
  have hm' : String.mk (m0 :: mt) = method := by
    rw [← hmd]
  have ht' : String.mk (t0 :: tt) = text := by
    rw [← htd]
  rw [hmd] at hmw
  rw [htd] at htw
  unfold Tokenize
  rw [String.length, hd,
    tokenizeLoop_word_then _ 0 0 [] [] 's' ' ' ['r', 'c', 'o', 'n'] _ (by decide) (by decide)
      (Nat.lt_succ_self _)]
  have h2 := tokenizeLoop_word_then ((m0 :: (mt ++ ' ' :: (t0 :: tt))).length + 1) 0 0 [] []
    m0 ' ' mt (t0 :: tt) hmw (by decide) (Nat.lt_succ_self _)
  have h3 := tokenizeLoop_last tt.length 0 0 [] [] t0 tt htw
  have h4 : (t0 :: tt).length + 1 = tt.length + 2 := by
    simp
  refine (map_tokens_eq (fun l => [] ++ String.mk ('s' :: ['r', 'c', 'o', 'n']) :: l) _).trans ?_
  rw [h2]
  refine (congrArg _ (map_tokens_eq (fun l => [] ++ String.mk (m0 :: mt) :: l) _)).trans ?_
  rw [h4, h3, hm', ht']
  rfl

end Cmd

namespace Rcon

/-! The round trip through `Send`, `Tokenize` and `Decode`. -/

theorem data_ne_nil_of_ne_empty (s : String) (h : s ≠ "") : s.data ≠ [] := by
  intro hd
  apply h
  cases s
  simp only at hd
  rw [hd]

theorem ne_empty_of_data_ne_nil (s : String) (h : s.data ≠ []) : s ≠ "" := by
  rintro rfl
  exact h rfl

theorem intercalate_go_ne_empty (sep : String) (l : List String) :
    ∀ acc : String, acc.data ≠ [] → (String.intercalate.go acc sep l).data ≠ [] := by
  induction l with
  | nil =>
    intro acc h
    simpa [String.intercalate.go] using h
  | cons a l ih =>
    intro acc h
    rw [String.intercalate.go]
    apply ih
    simp [String.data_append, h]

/-- The command `Decode` builds from at least one token is not empty. -/
theorem escaped_command_ne_empty (w : String) (ws : List String) :
    " ".intercalate ((w :: ws).map Cmd.escapeWord) ≠ "" := by
  apply ne_empty_of_data_ne_nil
  rw [List.map_cons, String.intercalate]
  apply intercalate_go_ne_empty
  unfold Cmd.escapeWord
  split_ifs with h
  · simp [Cmd.Escape, String.data_append]
  · intro hd
    apply h
    simp [Cmd.needsQuotes, hd]

/-- The loop that skips whitespace runs into the end of a text that holds nothing else. -/
theorem skipLoop_blank (l : List Char) (h : ∀ c ∈ l, cisspace c = true) :
    skipLoop l = { buf := [], eofbit := true, failbit := false } := by
  induction l with
  | nil => rfl
  | cons a l ih =>
    have ha : cisspace a = true := h a (List.mem_cons_self a l)
    simp only [skipLoop, ha, if_true]
    exact ih (fun x hx => h x (List.mem_cons_of_mem a hx))

/-- The message decoded from a CHALLENGE plaintext made of a word and of whitespace behind it:
the command is left holding the whole plaintext. -/
theorem decodePlaintext_challenge_blank (cv : Cvars) (remote : netadr_t) (plain : String)
    (word sep : List Char) (hP : plain.data = word ++ sep) (hword : word ≠ [])
    (hw : ∀ c ∈ word, cisspace c = false) (hsep : sep ≠ [])
    (hs : ∀ c ∈ sep, cisspace c = true) :
    decodePlaintext cv remote "CHALLENGE" plain =
      { secure := Secure.EncryptedChallenge, challenge := String.mk word, command := plain,
        password := cv.cvar_server_password, remote := remote, error := "" } := by
  obtain ⟨w0, wt, rfl⟩ := List.exists_cons_of_ne_nil hword
  obtain ⟨s0, st, rfl⟩ := List.exists_cons_of_ne_nil hsep
  have hw0 : cisspace w0 = false := hw w0 (List.mem_cons_self _ _)
  have hs0 : cisspace s0 = true := hs s0 (List.mem_cons_self _ _)
  have hw' : ∀ x ∈ w0 :: wt, (fun c => !cisspace c) x = true := by
    intro x hx
    simp [hw x hx]
  have h1 : plain.data.dropWhile cisspace = (w0 :: wt) ++ (s0 :: st) := by
    rw [hP]
    simp [List.dropWhile_cons, hw0]
  have h2 : ((w0 :: wt) ++ (s0 :: st)).dropWhile (fun c => !cisspace c) = s0 :: st := by
    rw [dropWhile_append_of_all _ _ _ hw']
    simp [List.dropWhile_cons, hs0]
  have h3 : ((w0 :: wt) ++ (s0 :: st)).takeWhile (fun c => !cisspace c) = w0 :: wt := by
    rw [takeWhile_append_of_all _ _ _ hw']
    simp [List.takeWhile_cons, hs0]
  have h4 := skipLoop_blank (s0 :: st) hs
  have hex : istringstream.extract { buf := plain.data, eofbit := false, failbit := false } "" =
      ({ buf := s0 :: st, eofbit := false, failbit := false }, String.mk (w0 :: wt)) := by
    simp only [istringstream.extract, istringstream.good, h1, h2, h3]
    simp
  have hsk : istringstream.skipSpaces { buf := s0 :: st, eofbit := false, failbit := false } =
      { buf := [], eofbit := true, failbit := false } := by
    simp only [istringstream.skipSpaces, istringstream.good, h4]
    simp
  have hgl : (istringstream.getline { buf := [], eofbit := true, failbit := false }
      plain).2 = plain := by
    simp [istringstream.getline, istringstream.good]
  unfold decodePlaintext
  simp only [beq_self_eq_true, if_true, hex, hsk, hgl]
  rfl

/-- The message decoded from the plaintext `Send` builds at level `EncryptedChallenge`, for a
challenge that is not empty and holds no whitespace: the challenge comes back, and the command
is not empty. -/
theorem decodePlaintext_sent (cv : Cvars) (remote : netadr_t) (challenge command : String)
    (hne : challenge ≠ "") (hc : ∀ c ∈ challenge.data, cisspace c = false) :
    (decodePlaintext cv remote "CHALLENGE" (challenge ++ " " ++ command)).secure =
        Secure.EncryptedChallenge ∧
      (decodePlaintext cv remote "CHALLENGE" (challenge ++ " " ++ command)).challenge =
        challenge ∧
      (decodePlaintext cv remote "CHALLENGE" (challenge ++ " " ++ command)).command ≠ "" ∧
      (decodePlaintext cv remote "CHALLENGE" (challenge ++ " " ++ command)).password =
        cv.cvar_server_password ∧
      (decodePlaintext cv remote "CHALLENGE" (challenge ++ " " ++ command)).remote = remote ∧
      (decodePlaintext cv remote "CHALLENGE" (challenge ++ " " ++ command)).error = "" := by
  have hcd := data_ne_nil_of_ne_empty challenge hne
  have hsplit := List.takeWhile_append_dropWhile cisspace command.data
  have htw : ∀ c ∈ ' ' :: command.data.takeWhile cisspace, cisspace c = true := by
    intro c hc'
    rcases List.mem_cons.1 hc' with rfl | h
    · decide
    · exact (List.mem_takeWhile_imp h)
  cases hdw : command.data.dropWhile cisspace with
  | nil =>
    rw [hdw, List.append_nil] at hsplit
    have hP : (challenge ++ " " ++ command).data =
        challenge.data ++ (' ' :: command.data.takeWhile cisspace) := by
      rw [hsplit]
      simp [String.data_append]
    rw [decodePlaintext_challenge_blank cv remote _ _ _ hP hcd hc (by simp) htw]
    refine ⟨rfl, rfl, ?_, rfl, rfl, rfl⟩
    apply ne_empty_of_data_ne_nil
    simp [String.data_append]
  | cons r rs =>
    have hr : cisspace r = false := by
      have := List.head_dropWhile_not cisspace command.data
        (by rw [hdw]; exact List.cons_ne_nil _ _)
      simpa [hdw] using this
    rw [hdw] at hsplit
    have hP : (challenge ++ " " ++ command).data =
        [] ++ challenge.data ++ (' ' :: command.data.takeWhile cisspace) ++ r :: rs := by
      simp only [String.data_append, List.nil_append, List.append_assoc, List.cons_append]
      rw [hsplit]
    rw [decodePlaintext_challenge cv remote _ [] _ _ r rs hP (by simp) hcd hc (by simp) htw hr]
    refine ⟨rfl, rfl, ?_, rfl, rfl, rfl⟩
    apply ne_empty_of_data_ne_nil
    have hrn : (r != '\n') = true := by
      simp only [bne_iff_ne, ne_eq]
      rintro rfl
      exact absurd hr (by decide)
    simp [List.takeWhile_cons, hrn]

end Rcon

namespace Rcon

/-- A message that passes every check is accepted. -/
theorem Message.acceptable_of_checks (m : Message) (cv : Cvars) (reg : ChallengeManager)
    (invalid_reason : Option String) (hv : (m.Valid invalid_reason).1 = true)
    (hl : cv.cvar_server_secure ≤ m.secure) (hs : cv.cvar_server_password ≠ "")
    (hp : m.password = cv.cvar_server_password)
    (hr : m.secure = Secure.EncryptedChallenge →
      (reg.MatchString m.remote m.challenge).1 = true) :
    (m.Acceptable cv reg invalid_reason).1.1 = true := by
  have hl' : ¬ m.secure < cv.cvar_server_secure := by omega
  have hp' : ¬ m.password ≠ cv.cvar_server_password := by simpa using hp
  rw [m.acceptable_of_valid cv reg invalid_reason hv, if_neg hl', if_neg hs, if_neg hp']
  by_cases hc : m.secure = Secure.EncryptedChallenge
  · rw [if_pos hc, if_pos (hr hc)]
  · rw [if_neg hc]

/-- The registry matches the nonce it holds for an address. -/
theorem ChallengeManager.matchString_of_held (reg : ChallengeManager) (remote : netadr_t)
    (challenge : String) (h : reg.challenges remote = some challenge) :
    (reg.MatchString remote challenge).1 = true := by
  unfold ChallengeManager.MatchString
  rw [if_pos h]

/-- The arguments built from a text whose tokens are known. -/
theorem args_of_tokens (text : String) (tokens : List String)
    (h : (Cmd.Tokenize text [] []).map Prod.fst = some tokens) :
    ∃ starts, Cmd.Args.ofString text = some ⟨tokens, starts⟩ := by
  cases ht : Cmd.Tokenize text [] [] with
  | none => rw [ht] at h; exact absurd h (by simp)
  | some r =>
    rw [ht] at h
    simp only [Option.map_some', Option.some.injEq] at h
    refine ⟨r.2, ?_⟩
    simp only [Cmd.Args.ofString, ht, h]

end Rcon

namespace Rcon

/-- C18, as stated, fails: a well-formed unencrypted message whose password holds a space does
not come back acceptable, although it equals the server password. -/
theorem Message.round_trip_password_with_space :
    (∀ p k c, (⟨id, fun p _ => some p, fun c _ => some c, id, some⟩ : Crypto).Aes256Encrypt p k
        = some c →
      (⟨id, fun p _ => some p, fun c _ => some c, id, some⟩ : Crypto).Aes256Decrypt c k
        = some p) ∧
      (∀ b, (⟨id, fun p _ => some p, fun c _ => some c, id, some⟩ : Crypto).Base64Decode
        ((⟨id, fun p _ => some p, fun c _ => some c, id, some⟩ : Crypto).Base64Encode b)
        = some b) ∧
      ((Message.new 7 "status" Secure.Unencrypted "my pass" "").Valid none).1 = true ∧
      (Message.new 7 "status" Secure.Unencrypted "my pass" "").Send
        ⟨id, fun p _ => some p, fun c _ => some c, id, some⟩ [] =
        [(7, "rcon my pass status")] ∧
      Cmd.Args.ofString "rcon my pass status" =
        some ⟨["rcon", "my", "pass", "status"], [0, 5, 8, 13]⟩ ∧
      Message.Decode ⟨"my pass", Secure.Unencrypted⟩
        ⟨id, fun p _ => some p, fun c _ => some c, id, some⟩ 9
        ⟨["rcon", "my", "pass", "status"], [0, 5, 8, 13]⟩ =
        some (Message.new 9 "pass status" Secure.Unencrypted "my" "") ∧
      ((Message.new 9 "pass status" Secure.Unencrypted "my" "").Acceptable
        ⟨"my pass", Secure.Unencrypted⟩ ⟨fun _ => none⟩ none).1.1 = false := by
  refine ⟨?_, fun b => rfl, by decide, by decide, by decide, by decide, by decide⟩
  intro p k c h
  simp only [Option.some.injEq] at h
  rw [h]

end Rcon

namespace Rcon

/-- C18 (amended): for a well-formed message whose password is the server password, under a
minimum level that is at most its own, `Send` sends one payload, the payload tokenizes, and
`Decode` of the tokens is a message that `Valid` and `Acceptable` accept, provided that: at
level `Unencrypted` the password is a plain word and the command holds at least one token; at
the encrypted levels the encryption succeeds, decryption and Base64 decoding undo it, and the
Base64 text is a non-empty plain word; at level `EncryptedChallenge` the challenge holds no
whitespace and the registry holds it for the sender. -/
theorem Message.send_decode_round_trip (m : Message) (cv : Cvars) (cr : Crypto)
    (reg : ChallengeManager) (sender : netadr_t) (net : List (netadr_t × String))
    (cypher : String)
    (hv : (m.Valid none).1 = true) (hp : m.password = cv.cvar_server_password)
    (hl : cv.cvar_server_secure ≤ m.secure)
    (hU : m.secure = Secure.Unencrypted →
      Cmd.plainWord m.password.data = true ∧
        ∃ w ws starts, Cmd.Tokenize m.command [] [] = some (w :: ws, starts))
    (hE : m.secure ≠ Secure.Unencrypted →
      cr.Aes256Encrypt
          (if m.secure = Secure.EncryptedChallenge then m.challenge ++ " " ++ m.command
            else m.command) (cr.Sha256 m.password) = some cypher ∧
        cr.Aes256Decrypt cypher (cr.Sha256 m.password) =
          some (if m.secure = Secure.EncryptedChallenge then m.challenge ++ " " ++ m.command
            else m.command) ∧
        cr.Base64Decode (cr.Base64Encode cypher) = some cypher ∧
        (cr.Base64Encode cypher).data ≠ [] ∧
        Cmd.plainWord (cr.Base64Encode cypher).data = true)
    (hC : m.secure = Secure.EncryptedChallenge →
      (∀ c ∈ m.challenge.data, cisspace c = false) ∧
        reg.challenges sender = some m.challenge) :
    ∃ payload args d, m.Send cr net = net ++ [(m.remote, payload)] ∧
      Cmd.Args.ofString payload = some args ∧
      Message.Decode cv cr sender args = some d ∧
      (d.Valid none).1 = true ∧ (d.Acceptable cv reg none).1.1 = true := by
  obtain ⟨-, h0, h2, hpw, hcmd, hch⟩ := (m.valid_fst_iff none).1 hv
  have hcp : cv.cvar_server_password ≠ "" := by
    rw [← hp]
    exact hpw
  have hk : ¬ ("rcon" ≠ "rcon" ∧ "rcon" ≠ "srcon") := by decide
  have hk' : ¬ ("srcon" ≠ "rcon" ∧ "srcon" ≠ "srcon") := by decide
  have hr' : ¬ ("srcon" = "rcon") := by decide
  by_cases hu : m.secure = Secure.Unencrypted
  · obtain ⟨hplain, w, ws, st, htok⟩ := hU hu
    have ht := Cmd.tokenize_rcon m.password m.command (data_ne_nil_of_ne_empty _ hpw) hplain
    rw [htok] at ht
    obtain ⟨starts, hargs⟩ := args_of_tokens _ _ ht
    have hvd : ((Message.new sender
        (" ".intercalate ((w :: ws).map Cmd.escapeWord))
        Secure.Unencrypted m.password "").Valid none).1 = true := by
      rw [Message.valid_fst_iff]
      exact ⟨rfl, by simp [Message.new], by simp [Message.new], hpw,
        escaped_command_ne_empty w ws, fun h => absurd h (by simp [Message.new])⟩
    refine ⟨"rcon " ++ m.password ++ " " ++ m.command, _, _, ?_, hargs, ?_, hvd, ?_⟩
    · unfold Message.Send OutOfBandPrint
      simp [hu]
    · rw [Message.decode_three, if_neg hk, if_neg hcp, if_pos rfl]
    · refine Message.acceptable_of_checks _ cv reg none hvd ?_ hcp hp
        (fun h => absurd h (by simp [Message.new]))
      rw [hu] at hl
      exact hl
  · obtain ⟨henc, hdec, hb, hne, hpl⟩ := hE hu
    rw [hp] at hdec
    by_cases hc : m.secure = Secure.EncryptedChallenge
    · obtain ⟨hws, hreg⟩ := hC hc
      rw [if_pos hc] at henc hdec
      have ht := Cmd.tokenize_srcon "CHALLENGE" (cr.Base64Encode cypher) (by decide)
        (by decide) hne hpl
      obtain ⟨starts, hargs⟩ := args_of_tokens _ _ ht
      obtain ⟨d1, d2, d3, d4, d5, d6⟩ :=
        decodePlaintext_sent cv sender m.challenge m.command (hch hc) hws
      have hvd : ((decodePlaintext cv sender "CHALLENGE"
          (m.challenge ++ " " ++ m.command)).Valid none).1 = true := by
        rw [Message.valid_fst_iff, d1, d2, d4]
        exact ⟨d6, by decide, by decide, hcp, d3, fun _ => hch hc⟩
      refine ⟨"srcon CHALLENGE " ++ cr.Base64Encode cypher, _, _, ?_, hargs, ?_, hvd, ?_⟩
      · rw [m.send_encrypted cr net hu, if_pos hc, if_pos hc, henc]
        rfl
      · rw [Message.decode_three, if_neg hk', if_neg hcp, if_neg hr', hb]
        simp only [hdec]
      · refine Message.acceptable_of_checks _ cv reg none hvd ?_ hcp d4 ?_
        · rw [d1, ← hc]
          exact hl
        · intro _
          rw [d5, d2]
          exact reg.matchString_of_held sender m.challenge hreg
    · rw [if_neg hc] at henc hdec
      have h1 : m.secure = Secure.EncryptedPlain := by
        have hu' : m.secure ≠ 0 := hu
        have hc' : m.secure ≠ 2 := hc
        show m.secure = 1
        omega
      have ht := Cmd.tokenize_srcon "PLAIN" (cr.Base64Encode cypher) (by decide)
        (by decide) hne hpl
      obtain ⟨starts, hargs⟩ := args_of_tokens _ _ ht
      have hvd : ((Message.new sender m.command Secure.EncryptedPlain
          cv.cvar_server_password "").Valid none).1 = true := by
        rw [Message.valid_fst_iff]
        exact ⟨rfl, by simp [Message.new], by simp [Message.new], hcp, hcmd,
          fun h => absurd h (by simp [Message.new])⟩
      refine ⟨"srcon PLAIN " ++ cr.Base64Encode cypher, _, _, ?_, hargs, ?_, hvd, ?_⟩
      · rw [m.send_encrypted cr net hu, if_neg hc, if_neg hc, henc]
        rfl
      · rw [Message.decode_three, if_neg hk', if_neg hcp, if_neg hr', hb]
        simp only [hdec]
        rfl
      · refine Message.acceptable_of_checks _ cv reg none hvd ?_ hcp rfl
          (fun h => absurd h (by simp [Message.new]))
        rw [h1] at hl
        exact hl

end Rcon

namespace Rcon

/-- C18 (amended), at the challenge scenario of the specification, with a cipher that leaves the
text as it is and a codec that writes '+' for the space. -/
theorem Message.send_decode_round_trip_witness :
    ∃ payload args d,
      (Message.new 7 "map ffa" Secure.EncryptedChallenge "secret" "abc123").Send
          ⟨id, fun p _ => some p, fun c _ => some c,
            fun b => String.mk (b.data.map (fun c => if c = ' ' then '+' else c)),
            fun t => some (String.mk (t.data.map (fun c => if c = '+' then ' ' else c)))⟩ [] =
        [] ++ [((Message.new 7 "map ffa" Secure.EncryptedChallenge "secret" "abc123").remote,
          payload)] ∧
      Cmd.Args.ofString payload = some args ∧
      Message.Decode ⟨"secret", Secure.EncryptedChallenge⟩
          ⟨id, fun p _ => some p, fun c _ => some c,
            fun b => String.mk (b.data.map (fun c => if c = ' ' then '+' else c)),
            fun t => some (String.mk (t.data.map (fun c => if c = '+' then ' ' else c)))⟩
          9 args = some d ∧
      (d.Valid none).1 = true ∧
      (d.Acceptable ⟨"secret", Secure.EncryptedChallenge⟩
        ⟨fun a => if a = 9 then some "abc123" else none⟩ none).1.1 = true :=
  Message.send_decode_round_trip
    (Message.new 7 "map ffa" Secure.EncryptedChallenge "secret" "abc123")
    ⟨"secret", Secure.EncryptedChallenge⟩
    ⟨id, fun p _ => some p, fun c _ => some c,
      fun b => String.mk (b.data.map (fun c => if c = ' ' then '+' else c)),
      fun t => some (String.mk (t.data.map (fun c => if c = '+' then ' ' else c)))⟩
    ⟨fun a => if a = 9 then some "abc123" else none⟩ 9 [] "abc123 map ffa"
    (by decide) rfl (by decide) (fun h => absurd h (by decide))
    (fun _ => ⟨rfl, rfl, by decide, by decide, by decide⟩)
    (fun _ => ⟨by decide, rfl⟩)

end Rcon

namespace Rcon

/-! The outcomes of `Valid` and `Acceptable`. -/

theorem invalid_eta (slot : Option String) (r : String) :
    (false, (invalid slot r).2) = invalid slot r := by
  cases slot <;> rfl

theorem invalid_ne_of_ne (slot : Option String) (r r' : String) (h : r ≠ r') :
    invalid slot r ≠ (false, some r') := by
  cases slot with
  | none => simp [invalid]
  | some s => simpa [invalid] using h

/-- Every outcome of `Valid`: success with the slot untouched, or one of five reasons. -/
theorem Message.valid_cases (m : Message) (slot : Option String) :
    m.Valid slot = (true, slot) ∨ m.Valid slot = invalid slot (c_str m.error) ∨
      m.Valid slot = invalid slot "Unknown secure protocol" ∨
      m.Valid slot = invalid slot "Missing password" ∨
      m.Valid slot = invalid slot "Missing command" ∨
      m.Valid slot = invalid slot "Missing challenge" := by
  unfold Message.Valid
  split_ifs <;> simp

/-- Every outcome of `Acceptable`: success with the slot untouched, what `Valid` reports, or one
of four further reasons. -/
theorem Message.acceptable_cases (m : Message) (cv : Cvars) (reg : ChallengeManager)
    (slot : Option String) :
    (m.Acceptable cv reg slot).1 = (true, slot) ∨
      ((m.Valid slot).1 = false ∧ (m.Acceptable cv reg slot).1 = m.Valid slot) ∨
      ((m.Valid slot).1 = true ∧
        ((m.Acceptable cv reg slot).1 = invalid slot "Weak security" ∨
          (m.Acceptable cv reg slot).1 =
            invalid slot "No rcon.server.password set on the server." ∨
          (m.Acceptable cv reg slot).1 = invalid slot "Bad password" ∨
          (m.Acceptable cv reg slot).1 = invalid slot "Mismatched challenge")) := by
  cases hv : (m.Valid slot).1
  · right
    left
    refine ⟨rfl, ?_⟩
    rw [m.acceptable_of_invalid cv reg slot hv]
    exact Prod.ext hv.symm rfl
  · rw [m.acceptable_of_valid cv reg slot hv]
    split_ifs <;> simp

/-- An error message is rejected by `Valid`. -/
theorem Message.valid_ofError (e : String) (slot : Option String) (he : e ≠ "") :
    ((Message.ofError e).Valid slot).1 = false := by
  cases h : ((Message.ofError e).Valid slot).1
  · rfl
  · exact absurd ((Message.valid_fst_iff _ _).1 h).1 he

/-- `Decode` on fewer than three tokens. -/
theorem Message.decode_short (cv : Cvars) (cr : Crypto) (remote : netadr_t) (args : Cmd.Args)
    (h : args.args.length < 3) :
    Message.Decode cv cr remote args = some (Message.ofError "Invalid command") := by
  unfold Message.Decode
  rw [decodeRejects_of_malformed args (Or.inl h)]
  rfl

/-- A token sequence is shorter than three or starts with three tokens. -/
theorem args_shape (args : Cmd.Args) :
    args.args.length < 3 ∨
      ∃ a0 a1 a2 rest, args = ⟨a0 :: a1 :: a2 :: rest, args.argsStarts⟩ := by
  obtain ⟨l, st⟩ := args
  match l with
  | [] => left; simp
  | [_] => left; simp
  | [_, _] => left; simp
  | a0 :: a1 :: a2 :: rest => right; exact ⟨a0, a1, a2, rest, rfl⟩

/-- The password of what `Decode` makes of a plaintext is the server password. -/
theorem decodePlaintext_password (cv : Cvars) (remote : netadr_t) (method plain : String) :
    (decodePlaintext cv remote method plain).password = cv.cvar_server_password ∧
      (decodePlaintext cv remote method plain).error = "" ∧
      (decodePlaintext cv remote method plain).remote = remote := by
  unfold decodePlaintext
  split_ifs <;> exact ⟨rfl, rfl, rfl⟩

end Rcon

namespace Rcon

/-- What `Decode` returns for a first token "rcon": an error message, or the unencrypted
message that carries the second token as its password. -/
theorem Message.decode_rcon_cases (cv : Cvars) (cr : Crypto) (remote : netadr_t)
    (args : Cmd.Args) (m : Message) (h0 : args.args.head? = some "rcon")
    (hd : Message.Decode cv cr remote args = some m) :
    (∃ e, e ≠ "" ∧ m = Message.ofError e) ∨
      (cv.cvar_server_password ≠ "" ∧
        ∃ p command, args.args.get? 1 = some p ∧
          m = Message.new remote command Secure.Unencrypted p "") := by
  rcases args_shape args with hlen | ⟨a0, a1, a2, rest, hargs⟩
  · rw [Message.decode_short cv cr remote args hlen, Option.some.injEq] at hd
    exact Or.inl ⟨"Invalid command", by decide, hd.symm⟩
  · rw [hargs] at h0 hd ⊢
    simp only [List.head?_cons, Option.some.injEq] at h0
    subst h0
    rw [Message.decode_three] at hd
    have hk : ¬ ("rcon" ≠ "rcon" ∧ "rcon" ≠ "srcon") := by decide
    rw [if_neg hk] at hd
    by_cases hp : cv.cvar_server_password = ""
    · rw [if_pos hp, Option.some.injEq] at hd
      exact Or.inl ⟨"rcon.server.password not set", by decide, hd.symm⟩
    · rw [if_neg hp, if_pos rfl, Option.some.injEq] at hd
      exact Or.inr ⟨hp, a1, _, rfl, hd.symm⟩

/-- What `Decode` returns for a first token "srcon": an error message, or what it makes of the
decrypted plaintext. -/
theorem Message.decode_srcon_cases (cv : Cvars) (cr : Crypto) (remote : netadr_t)
    (args : Cmd.Args) (m : Message) (h0 : args.args.head? = some "srcon")
    (hd : Message.Decode cv cr remote args = some m) :
    (∃ e, e ≠ "" ∧ m = Message.ofError e) ∨
      (cv.cvar_server_password ≠ "" ∧
        ∃ method plain, args.args.get? 1 = some method ∧
          m = decodePlaintext cv remote method plain) := by
  rcases args_shape args with hlen | ⟨a0, a1, a2, rest, hargs⟩
  · rw [Message.decode_short cv cr remote args hlen, Option.some.injEq] at hd
    exact Or.inl ⟨"Invalid command", by decide, hd.symm⟩
  · rw [hargs] at h0 hd ⊢
    simp only [List.head?_cons, Option.some.injEq] at h0
    subst h0
    rw [Message.decode_three] at hd
    have hk : ¬ ("srcon" ≠ "rcon" ∧ "srcon" ≠ "srcon") := by decide
    have hr : ¬ ("srcon" = "rcon") := by decide
    rw [if_neg hk] at hd
    by_cases hp : cv.cvar_server_password = ""
    · rw [if_pos hp, Option.some.injEq] at hd
      exact Or.inl ⟨"rcon.server.password not set", by decide, hd.symm⟩
    · rw [if_neg hp, if_neg hr] at hd
      cases hb : cr.Base64Decode a2 with
      | none =>
        rw [hb, Option.some.injEq] at hd
        exact Or.inl ⟨"Invalid Base64 string", by decide, hd.symm⟩
      | some data =>
        rw [hb] at hd
        cases hc : cr.Aes256Decrypt data (cr.Sha256 cv.cvar_server_password) with
        | none =>
          simp only [hc, Option.some.injEq] at hd
          exact Or.inl ⟨"Error during decryption", by decide, hd.symm⟩
        | some plain =>
          simp only [hc, Option.some.injEq] at hd
          exact Or.inr ⟨hp, a1, plain, rfl, hd.symm⟩

/-- C21: a message without error that `Decode` returns for a first token "srcon" carries the
server password, which is not empty; so `Acceptable`, under the same configuration, rejects it
neither with "Bad password" nor for a missing server password. -/
theorem Message.decode_srcon_password (cv : Cvars) (cr : Crypto) (remote : netadr_t)
    (args : Cmd.Args) (m : Message) (h0 : args.args.head? = some "srcon")
    (hd : Message.Decode cv cr remote args = some m) (he : m.error = "") :
    m.password = cv.cvar_server_password ∧ m.password ≠ "" ∧
      ∀ (reg : ChallengeManager) (slot : Option String),
        (m.Acceptable cv reg slot).1 ≠ (false, some "Bad password") ∧
          (m.Acceptable cv reg slot).1 ≠
            (false, some "No rcon.server.password set on the server.") := by
  rcases Message.decode_srcon_cases cv cr remote args m h0 hd with
    ⟨e, hne, rfl⟩ | ⟨hp, method, plain, -, rfl⟩
  · exact absurd he hne
  · obtain ⟨hpw, -, -⟩ := decodePlaintext_password cv remote method plain
    refine ⟨hpw, by rw [hpw]; exact hp, ?_⟩
    intro reg slot
    generalize decodePlaintext cv remote method plain = d at hpw he
    have hce : c_str d.error = "" := by rw [he]; decide
    cases hv : (d.Valid slot).1
    · rw [d.acceptable_of_invalid cv reg slot hv]
      rcases d.valid_cases slot with h | h | h | h | h | h <;> rw [h] at hv ⊢
      · exact absurd hv (by simp)
      · rw [hce, invalid_eta]
        exact ⟨invalid_ne_of_ne _ _ _ (by decide), invalid_ne_of_ne _ _ _ (by decide)⟩
      all_goals
        rw [invalid_eta]
        exact ⟨invalid_ne_of_ne _ _ _ (by decide), invalid_ne_of_ne _ _ _ (by decide)⟩
    · have hp' : ¬ d.password ≠ cv.cvar_server_password := by simpa using hpw
      rw [d.acceptable_of_valid cv reg slot hv]
      split_ifs
      · exact ⟨invalid_ne_of_ne _ _ _ (by decide), invalid_ne_of_ne _ _ _ (by decide)⟩
      · constructor <;> simp
      · exact ⟨invalid_ne_of_ne _ _ _ (by decide), invalid_ne_of_ne _ _ _ (by decide)⟩
      · constructor <;> simp

/-- C21, at a CHALLENGE request that decodes: the password is the server password "secret". -/
theorem Message.decode_srcon_password_witness :
    (Message.new 7 "map ffa" Secure.EncryptedChallenge "secret" "abc123").password =
        (⟨"secret", Secure.Unencrypted⟩ : Cvars).cvar_server_password ∧
      (Message.new 7 "map ffa" Secure.EncryptedChallenge "secret" "abc123").password ≠ "" ∧
      ∀ (reg : ChallengeManager) (slot : Option String),
        ((Message.new 7 "map ffa" Secure.EncryptedChallenge "secret" "abc123").Acceptable
            ⟨"secret", Secure.Unencrypted⟩ reg slot).1 ≠ (false, some "Bad password") ∧
          ((Message.new 7 "map ffa" Secure.EncryptedChallenge "secret" "abc123").Acceptable
            ⟨"secret", Secure.Unencrypted⟩ reg slot).1 ≠
            (false, some "No rcon.server.password set on the server.") :=
  Message.decode_srcon_password ⟨"secret", Secure.Unencrypted⟩
    ⟨id, fun p _ => some p, fun c _ => some c, id, some⟩ 7
    ⟨["srcon", "CHALLENGE", "abc123 map ffa"], [0, 6, 16]⟩
    (Message.new 7 "map ffa" Secure.EncryptedChallenge "secret" "abc123") rfl (by decide) rfl

end Rcon

namespace Rcon

/-- C22, as stated, fails: on an unrecognized method `Decode` returns a message whose error is
empty. -/
theorem Message.decode_unknown_method_no_error :
    ¬ ∃ m, Message.Decode ⟨"secret", Secure.Unencrypted⟩
        ⟨id, fun p _ => some p, fun c _ => some c, id, some⟩ 7
        ⟨["srcon", "ROT13", "AAAA"], [0, 6, 12]⟩ = some m ∧ m.error ≠ "" := by
  have h : Message.Decode ⟨"secret", Secure.Unencrypted⟩
      ⟨id, fun p _ => some p, fun c _ => some c, id, some⟩ 7
      ⟨["srcon", "ROT13", "AAAA"], [0, 6, 12]⟩ =
      some (Message.new 7 "AAAA" Secure.Invalid "secret" "") := by
    decide
  rintro ⟨m, hm, he⟩
  rw [h, Option.some.injEq] at hm
  rw [← hm] at he
  exact he rfl

/-- C22 (amended): `Decode` returns a message for every address and every token sequence, the
empty one included, reading no token that does not exist; what it returns for a first token
"srcon" does not depend on the tokens past the third; on too few tokens, an unknown keyword, no
configured password, a Base64 failure and a decryption failure the message has a non-empty
error; on an unrecognized method it has no error and the level `Invalid`, which `Valid`
rejects with "Unknown secure protocol". -/
theorem Message.decode_total (cv : Cvars) (cr : Crypto) (remote : netadr_t)
    (args : Cmd.Args) :
    ∃ m, Message.Decode cv cr remote args = some m ∧
      (args.args.length < 3 ∨
          (args.args.head? ≠ some "rcon" ∧ args.args.head? ≠ some "srcon") →
        m.error ≠ "") ∧
      (cv.cvar_server_password = "" → m.error ≠ "") ∧
      (∀ a1 a2 rest, args.args = "srcon" :: a1 :: a2 :: rest →
        cv.cvar_server_password ≠ "" →
        Message.Decode cv cr remote ⟨"srcon" :: a1 :: a2 :: [], []⟩ = some m ∧
        (cr.Base64Decode a2 = none → m.error ≠ "") ∧
        (∀ data, cr.Base64Decode a2 = some data →
          (cr.Aes256Decrypt data (cr.Sha256 cv.cvar_server_password) = none →
            m.error ≠ "") ∧
          (∀ plain, cr.Aes256Decrypt data (cr.Sha256 cv.cvar_server_password) = some plain →
            a1 ≠ "CHALLENGE" → a1 ≠ "PLAIN" →
            m.error = "" ∧ m.secure = Secure.Invalid ∧
              ∀ s, m.Valid (some s) = (false, some "Unknown secure protocol")))) := by
  rcases args_shape args with hlen | ⟨a0, a1, a2, rest, hargs⟩
  · refine ⟨Message.ofError "Invalid command", Message.decode_short cv cr remote args hlen,
      fun _ => by decide, fun _ => by decide, ?_⟩
    intro b1 b2 r hb
    rw [hb] at hlen
    simp only [List.length_cons] at hlen
    omega
  · have hlen : ¬ args.args.length < 3 := by
      rw [hargs]
      simp
    have hd := Message.decode_three cv cr remote a0 a1 a2 rest args.argsStarts
    rw [← hargs] at hd
    by_cases hk : a0 ≠ "rcon" ∧ a0 ≠ "srcon"
    · rw [if_pos hk] at hd
      refine ⟨_, hd, fun _ => by decide, fun _ => by decide, ?_⟩
      intro b1 b2 r hb
      rw [hargs] at hb
      simp only [List.cons.injEq] at hb
      exact absurd hb.1 hk.2
    · rw [if_neg hk] at hd
      have hkw : ¬ (args.args.head? ≠ some "rcon" ∧ args.args.head? ≠ some "srcon") := by
        rw [hargs]
        simpa using hk
      by_cases hp : cv.cvar_server_password = ""
      · rw [if_pos hp] at hd
        exact ⟨_, hd, fun _ => by decide, fun _ => by decide,
          fun _ _ _ _ hne => absurd hp hne⟩
      · rw [if_neg hp] at hd
        by_cases hr : a0 = "rcon"
        · rw [if_pos hr] at hd
          refine ⟨_, hd, fun h => ?_, fun h => absurd h hp, ?_⟩
          · rcases h with h | h
            · exact absurd h hlen
            · exact absurd h hkw
          · intro b1 b2 r hb
            rw [hargs] at hb
            simp only [List.cons.injEq] at hb
            rw [hr] at hb
            exact absurd hb.1 (by decide)
        · rw [if_neg hr] at hd
          have hs : a0 = "srcon" := by
            by_contra h
            exact hk ⟨hr, h⟩
          have hk' : ¬ ("srcon" ≠ "rcon" ∧ "srcon" ≠ "srcon") := by decide
          have hr' : ¬ ("srcon" = "rcon") := by decide
          have h3 := Message.decode_three cv cr remote "srcon" a1 a2 [] []
          rw [if_neg hk', if_neg hp, if_neg hr'] at h3
          have hfail : ∀ m : Message, (args.args.length < 3 ∨
              (args.args.head? ≠ some "rcon" ∧ args.args.head? ≠ some "srcon") →
              m.error ≠ "") := by
            intro m h
            rcases h with h | h
            · exact absurd h hlen
            · exact absurd h hkw
          cases hb64 : cr.Base64Decode a2 with
          | none =>
            rw [hb64] at hd h3
            refine ⟨_, hd, hfail _, fun h => absurd h hp, ?_⟩
            intro b1 b2 r hb _
            rw [hargs] at hb
            simp only [List.cons.injEq] at hb
            obtain ⟨-, rfl, rfl, -⟩ := hb
            refine ⟨h3, fun _ => by decide, ?_⟩
            intro data hdata
            rw [hb64] at hdata
            exact absurd hdata (by simp)
          | some data =>
            rw [hb64] at hd h3
            cases hdec : cr.Aes256Decrypt data (cr.Sha256 cv.cvar_server_password) with
            | none =>
              simp only [hdec] at hd h3
              refine ⟨_, hd, hfail _, fun h => absurd h hp, ?_⟩
              intro b1 b2 r hb _
              rw [hargs] at hb
              simp only [List.cons.injEq] at hb
              obtain ⟨-, rfl, rfl, -⟩ := hb
              refine ⟨h3, fun h => ?_, ?_⟩
              · rw [hb64] at h
                exact absurd h (by simp)
              · intro data' hdata
                rw [hb64, Option.some.injEq] at hdata
                subst hdata
                refine ⟨fun _ => by decide, ?_⟩
                intro plain hpl
                rw [hdec] at hpl
                exact absurd hpl (by simp)
            | some plain =>
              simp only [hdec] at hd h3
              refine ⟨_, hd, hfail _, fun h => absurd h hp, ?_⟩
              intro b1 b2 r hb _
              rw [hargs] at hb
              simp only [List.cons.injEq] at hb
              obtain ⟨-, rfl, rfl, -⟩ := hb
              refine ⟨h3, fun h => ?_, ?_⟩
              · rw [hb64] at h
                exact absurd h (by simp)
              · intro data' hdata
                rw [hb64, Option.some.injEq] at hdata
                subst hdata
                refine ⟨fun h => ?_, ?_⟩
                · rw [hdec] at h
                  exact absurd h (by simp)
                · intro plain' hpl hc hn
                  rw [hdec, Option.some.injEq] at hpl
                  subst hpl
                  have hl : Secure.EncryptedChallenge <
                      (decodePlaintext cv remote a1 plain).secure := by
                    simp only [decodePlaintext, beq_iff_eq, hc, hn, if_false, Message.new]
                    decide
                  refine ⟨(decodePlaintext_password cv remote a1 plain).2.1, ?_, ?_⟩
                  · simp [decodePlaintext, hc, hn, Message.new]
                  · intro s
                    rw [Message.valid_unknown_level _ (some s)
                      (decodePlaintext_password cv remote a1 plain).2.1 (Or.inr hl)]
                    rfl

end Rcon

namespace Rcon

/-- C22 (amended), at the empty token sequence: a message comes back, and it has an error. -/
theorem Message.decode_total_witness :
    ∃ m, Message.Decode ⟨"secret", Secure.Unencrypted⟩
        ⟨id, fun p _ => some p, fun c _ => some c, id, some⟩ 7 ⟨[], []⟩ = some m ∧
      m.error ≠ "" :=
  (Message.decode_total ⟨"secret", Secure.Unencrypted⟩
    ⟨id, fun p _ => some p, fun c _ => some c, id, some⟩ 7 ⟨[], []⟩).elim
    (fun m h => ⟨m, h.1, h.2.1 (Or.inl (by decide))⟩)

/-- C23: on the tokens "rcon", p, w2, ..., wn with p the non-empty server password and the
minimum level `Unencrypted`, `Decode` returns a message of level `Unencrypted` that `Valid`
and `Acceptable` accept; when the tokens behind the password are the single token "status",
its command is exactly "status". -/
theorem Message.decode_rcon_acceptable (cv : Cvars) (cr : Crypto) (reg : ChallengeManager)
    (remote : netadr_t) (p w : String) (ws : List String) (starts : List Int)
    (hp : p = cv.cvar_server_password) (hne : cv.cvar_server_password ≠ "")
    (hmin : cv.cvar_server_secure = Secure.Unencrypted) :
    ∃ m, Message.Decode cv cr remote ⟨"rcon" :: p :: w :: ws, starts⟩ = some m ∧
      m.secure = Secure.Unencrypted ∧ (m.Valid none).1 = true ∧
      (m.Acceptable cv reg none).1.1 = true ∧
      (w = "status" → ws = [] → m.command = "status") := by
  have hk : ¬ ("rcon" ≠ "rcon" ∧ "rcon" ≠ "srcon") := by decide
  have hvd : ((Message.new remote
      (" ".intercalate ((w :: ws).map Cmd.escapeWord))
      Secure.Unencrypted p "").Valid none).1 = true := by
    rw [Message.valid_fst_iff]
    exact ⟨rfl, by simp [Message.new], by simp [Message.new], by rw [hp]; exact hne,
      escaped_command_ne_empty w ws, fun h => absurd h (by simp [Message.new])⟩
  refine ⟨_, ?_, rfl, hvd, ?_, ?_⟩
  · rw [Message.decode_three, if_neg hk, if_neg hne, if_pos rfl]
  · refine Message.acceptable_of_checks _ cv reg none hvd ?_ hne hp
      (fun h => absurd h (by simp [Message.new]))
    rw [hmin]
    exact le_refl _
  · intro hw hws
    rw [hw, hws]
    show " ".intercalate (["status"].map Cmd.escapeWord) = "status"
    decide

/-- C23, at the scenario of the specification: the tokens "rcon", "secret", "status" on a
server whose password is "secret" and that asks for no encryption decode to a message of level
`Unencrypted` that is valid and acceptable, with the command "status". -/
theorem Message.decode_rcon_acceptable_witness :
    ∃ m, Message.Decode ⟨"secret", Secure.Unencrypted⟩
        ⟨id, fun p _ => some p, fun c _ => some c, id, some⟩ 7
        ⟨"rcon" :: "secret" :: "status" :: [], [0, 5, 12]⟩ = some m ∧
      m.secure = Secure.Unencrypted ∧ (m.Valid none).1 = true ∧
      (m.Acceptable ⟨"secret", Secure.Unencrypted⟩ ⟨fun _ => none⟩ none).1.1 = true ∧
      m.command = "status" :=
  (Message.decode_rcon_acceptable ⟨"secret", Secure.Unencrypted⟩
    ⟨id, fun p _ => some p, fun c _ => some c, id, some⟩ ⟨fun _ => none⟩ 7 "secret" "status"
    [] [0, 5, 12] rfl (by decide) rfl).elim
    (fun m h => ⟨m, h.1, h.2.1, h.2.2.1, h.2.2.2.1, h.2.2.2.2 rfl rfl⟩)

/-- C24: under the minimum level `EncryptedPlain` or `EncryptedChallenge`, what `Decode`
returns for a first token "rcon" is never acceptable, and when it is structurally valid the
reason is "Weak security". -/
theorem Message.decode_rcon_weak (cv : Cvars) (cr : Crypto) (reg : ChallengeManager)
    (remote : netadr_t) (args : Cmd.Args) (m : Message)
    (h0 : args.args.head? = some "rcon")
    (hmin : cv.cvar_server_secure = Secure.EncryptedPlain ∨
      cv.cvar_server_secure = Secure.EncryptedChallenge)
    (hd : Message.Decode cv cr remote args = some m) :
    (∀ slot, (m.Acceptable cv reg slot).1.1 = false) ∧
      ((m.Valid none).1 = true →
        ∀ s, (m.Acceptable cv reg (some s)).1 = (false, some "Weak security")) := by
  rcases Message.decode_rcon_cases cv cr remote args m h0 hd with
    ⟨e, hne, rfl⟩ | ⟨-, p, command, -, rfl⟩
  · refine ⟨fun slot => ?_, fun hv => ?_⟩
    · rw [Message.acceptable_of_invalid _ cv reg slot (Message.valid_ofError e slot hne)]
    · rw [Message.valid_ofError e none hne] at hv
      exact absurd hv (by simp)
  · have hl : (Message.new remote command Secure.Unencrypted p "").secure <
        cv.cvar_server_secure := by
      rcases hmin with h | h <;> rw [h] <;> simp [Message.new]
    refine ⟨fun slot => ?_, fun hv s => ?_⟩
    · cases hv : ((Message.new remote command Secure.Unencrypted p "").Valid slot).1
      · rw [Message.acceptable_of_invalid _ cv reg slot hv]
      · rw [Message.acceptable_of_valid _ cv reg slot hv, if_pos hl]
        exact invalid_fst _ _
    · have hv' : ((Message.new remote command Secure.Unencrypted p "").Valid (some s)).1 =
          true := by
        rw [Message.valid_fst_slot _ _ none]
        exact hv
      rw [Message.acceptable_of_valid _ cv reg (some s) hv', if_pos hl]
      rfl

/-- C24, at the tokens "rcon", "secret", "status" with the right password, under the minimum
level `EncryptedPlain`. -/
theorem Message.decode_rcon_weak_witness :
    (∀ slot, ((Message.new 7 "status" Secure.Unencrypted "secret" "").Acceptable
        ⟨"secret", Secure.EncryptedPlain⟩ ⟨fun _ => none⟩ slot).1.1 = false) ∧
      (((Message.new 7 "status" Secure.Unencrypted "secret" "").Valid none).1 = true →
        ∀ s, ((Message.new 7 "status" Secure.Unencrypted "secret" "").Acceptable
          ⟨"secret", Secure.EncryptedPlain⟩ ⟨fun _ => none⟩ (some s)).1 =
          (false, some "Weak security")) :=
  Message.decode_rcon_weak ⟨"secret", Secure.EncryptedPlain⟩
    ⟨id, fun p _ => some p, fun c _ => some c, id, some⟩ ⟨fun _ => none⟩ 7
    ⟨["rcon", "secret", "status"], [0, 5, 12]⟩
    (Message.new 7 "status" Secure.Unencrypted "secret" "") rfl (Or.inl rfl) (by decide)

/-- C26: what `Decode` returns for a first token "rcon" whose second token is not the server
password is not acceptable, whatever the minimum level and the registry are. -/
theorem Message.decode_rcon_forged (cv : Cvars) (cr : Crypto) (reg : ChallengeManager)
    (remote : netadr_t) (args : Cmd.Args) (m : Message)
    (h0 : args.args.head? = some "rcon")
    (h1 : args.args.get? 1 ≠ some cv.cvar_server_password)
    (hd : Message.Decode cv cr remote args = some m) (slot : Option String) :
    (m.Acceptable cv reg slot).1.1 = false := by
  rcases Message.decode_rcon_cases cv cr remote args m h0 hd with
    ⟨e, hne, rfl⟩ | ⟨-, p, command, hp, rfl⟩
  · rw [Message.acceptable_of_invalid _ cv reg slot (Message.valid_ofError e slot hne)]
  · cases h : ((Message.new remote command Secure.Unencrypted p "").Acceptable cv reg slot).1.1
    · rfl
    · obtain ⟨-, -, -, hpw, -⟩ := Message.acceptable_accepts _ cv reg slot h
      have : p = cv.cvar_server_password := hpw
      rw [hp, this] at h1
      exact absurd rfl h1

/-- C26, at the tokens "rcon", "guess", "status" on a server whose password is "secret" and
that asks for no encryption. -/
theorem Message.decode_rcon_forged_witness :
    ((Message.new 7 "status" Secure.Unencrypted "guess" "").Acceptable
      ⟨"secret", Secure.Unencrypted⟩ ⟨fun _ => none⟩ none).1.1 = false :=
  Message.decode_rcon_forged ⟨"secret", Secure.Unencrypted⟩
    ⟨id, fun p _ => some p, fun c _ => some c, id, some⟩ ⟨fun _ => none⟩ 7
    ⟨["rcon", "guess", "status"], [0, 5, 11]⟩
    (Message.new 7 "status" Secure.Unencrypted "guess" "") rfl (by decide) (by decide) none

end Rcon

namespace Rcon

/-- C27: if `Acceptable` accepts a message under a minimum level, it accepts it under every
lower one, the server password and the registry being the same; and under the minimum level
`Unencrypted` it rejects no structurally valid message with "Weak security". -/
theorem Message.acceptable_monotone (m : Message) (pw : String) (L L' : Int)
    (reg : ChallengeManager) (slot : Option String) :
    (L' ≤ L → (m.Acceptable ⟨pw, L⟩ reg slot).1.1 = true →
        (m.Acceptable ⟨pw, L'⟩ reg slot).1.1 = true) ∧
      ((m.Valid none).1 = true →
        ∀ s, (m.Acceptable ⟨pw, Secure.Unencrypted⟩ reg (some s)).1 ≠
          (false, some "Weak security")) := by
  constructor
  · intro hle h
    obtain ⟨hv, hl, hs, hp, hr⟩ := m.acceptable_accepts ⟨pw, L⟩ reg slot h
    have hl' : L ≤ m.secure := by
      have : ¬ m.secure < L := hl
      omega
    exact m.acceptable_of_checks ⟨pw, L'⟩ reg slot hv (le_trans hle hl') hs hp hr
  · intro hv s
    have hv' : (m.Valid (some s)).1 = true := by
      rw [m.valid_fst_slot _ none]
      exact hv
    obtain ⟨-, h0, -⟩ := (m.valid_fst_iff none).1 hv
    have hl : ¬ m.secure < (⟨pw, Secure.Unencrypted⟩ : Cvars).cvar_server_secure := by
      show ¬ m.secure < 0
      omega
    rw [m.acceptable_of_valid _ reg (some s) hv', if_neg hl]
    split_ifs <;> simp [invalid]

/-- C27, at a challenge message accepted under the minimum level `EncryptedChallenge`: it is
accepted under the minimum level `Unencrypted` too. -/
theorem Message.acceptable_monotone_witness :
    ((Message.new 7 "map ffa" Secure.EncryptedChallenge "secret" "abc123").Acceptable
      ⟨"secret", Secure.Unencrypted⟩ ⟨fun _ => some "abc123"⟩ none).1.1 = true :=
  (Message.acceptable_monotone
    (Message.new 7 "map ffa" Secure.EncryptedChallenge "secret" "abc123") "secret"
    Secure.EncryptedChallenge Secure.Unencrypted ⟨fun _ => some "abc123"⟩ none).1
    (by decide) (by decide)

/-- C28: `Acceptable` hands the registry what `MatchString` leaves behind only for a message of
level `EncryptedChallenge` that has passed `Valid`, the level check, the check for a server
password and the password comparison; on every other path the registry comes back as it
was. -/
theorem Message.acceptable_registry (m : Message) (cv : Cvars) (reg : ChallengeManager)
    (slot : Option String) :
    ((m.Valid slot).1 = true ∧ cv.cvar_server_secure ≤ m.secure ∧
          cv.cvar_server_password ≠ "" ∧ m.password = cv.cvar_server_password ∧
          m.secure = Secure.EncryptedChallenge →
        (m.Acceptable cv reg slot).2 = (reg.MatchString m.remote m.challenge).2) ∧
      (¬ ((m.Valid slot).1 = true ∧ cv.cvar_server_secure ≤ m.secure ∧
          cv.cvar_server_password ≠ "" ∧ m.password = cv.cvar_server_password ∧
          m.secure = Secure.EncryptedChallenge) →
        (m.Acceptable cv reg slot).2 = reg) := by
  constructor
  · rintro ⟨hv, hl, hs, hp, hc⟩
    have hl' : ¬ m.secure < cv.cvar_server_secure := by omega
    have hp' : ¬ m.password ≠ cv.cvar_server_password := by simpa using hp
    rw [m.acceptable_of_valid cv reg slot hv, if_neg hl', if_neg hs, if_neg hp', if_pos hc]
    split_ifs <;> rfl
  · intro hn
    cases hv : (m.Valid slot).1
    · rw [m.acceptable_of_invalid cv reg slot hv]
    · rw [m.acceptable_of_valid cv reg slot hv]
      by_cases hl : m.secure < cv.cvar_server_secure
      · rw [if_pos hl]
      · rw [if_neg hl]
        by_cases hs : cv.cvar_server_password = ""
        · rw [if_pos hs]
        · rw [if_neg hs]
          by_cases hp : m.password ≠ cv.cvar_server_password
          · rw [if_pos hp]
          · rw [if_neg hp]
            by_cases hc : m.secure = Secure.EncryptedChallenge
            · exact absurd ⟨hv, by omega, hs, by simpa using hp, hc⟩ hn
            · rw [if_neg hc]

/-- C28, at a challenge message with a wrong password whose nonce the registry holds: the
registry is left as it was. -/
theorem Message.acceptable_registry_witness :
    ((Message.new 7 "map ffa" Secure.EncryptedChallenge "guess" "abc123").Acceptable
      ⟨"secret", Secure.Unencrypted⟩ ⟨fun _ => some "abc123"⟩ none).2 =
      ⟨fun _ => some "abc123"⟩ :=
  (Message.acceptable_registry
    (Message.new 7 "map ffa" Secure.EncryptedChallenge "guess" "abc123")
    ⟨"secret", Secure.Unencrypted⟩ ⟨fun _ => some "abc123"⟩ none).2 (by decide)

/-- C29, at the failing inputs: a CHALLENGE plaintext that ends behind the challenge and a
newline decodes to a command that is the whole plaintext, newline included; one that is a
space and the challenge decodes to a command that is the whole plaintext, which begins with
the space. -/
theorem Message.decode_challenge_keeps_plaintext :
    (Message.Decode ⟨"secret", Secure.Unencrypted⟩
        ⟨id, fun p _ => some p, fun c _ => some c, id, some⟩ 7
        ⟨["srcon", "CHALLENGE", "abc123\n"], [0, 6, 16]⟩ =
      some (Message.new 7 "abc123\n" Secure.EncryptedChallenge "secret" "abc123") ∧
      (Message.new 7 "abc123\n" Secure.EncryptedChallenge "secret" "abc123").error = "" ∧
      '\n' ∈
        (Message.new 7 "abc123\n" Secure.EncryptedChallenge "secret" "abc123").command.data) ∧
    (Message.Decode ⟨"secret", Secure.Unencrypted⟩
        ⟨id, fun p _ => some p, fun c _ => some c, id, some⟩ 7
        ⟨["srcon", "CHALLENGE", " abc123"], [0, 6, 16]⟩ =
      some (Message.new 7 " abc123" Secure.EncryptedChallenge "secret" "abc123") ∧
      (Message.new 7 " abc123" Secure.EncryptedChallenge "secret" "abc123").error = "" ∧
      (Message.new 7 " abc123" Secure.EncryptedChallenge "secret" "abc123").command.data.head?
        = some ' ') := by
  decide

/-- C30, as stated, fails: the reason `Acceptable` writes when no server password is set is
neither one of the documented strings nor the error of the message. -/
theorem Message.reason_not_documented :
    ¬ ∃ r, ((Message.new 7 "status" Secure.Unencrypted "secret" "").Acceptable
        ⟨"", Secure.Unencrypted⟩ ⟨fun _ => none⟩ (some "")).1 = (false, some r) ∧
      (r ∈ documentedReasons ∨
        r = (Message.new 7 "status" Secure.Unencrypted "secret" "").error) := by
  have h : ((Message.new 7 "status" Secure.Unencrypted "secret" "").Acceptable
      ⟨"", Secure.Unencrypted⟩ ⟨fun _ => none⟩ (some "")).1 =
      (false, some "No rcon.server.password set on the server.") := by
    decide
  rintro ⟨r, hr, hd⟩
  rw [h, Prod.mk.injEq, Option.some.injEq] at hr
  rw [← hr.2] at hd
  revert hd
  decide

/-- C30 (amended): `Valid` and `Acceptable` leave the reason slot as it was when they return
true; when they return false with a slot supplied, the slot holds the error of the message up
to its first NUL or one of the reason strings of the code: four for `Valid`, four more for
`Acceptable`. -/
theorem Message.reason_slot (m : Message) (cv : Cvars) (reg : ChallengeManager)
    (slot : Option String) (s : String) :
    ((m.Valid slot).1 = true → (m.Valid slot).2 = slot) ∧
      ((m.Acceptable cv reg slot).1.1 = true → (m.Acceptable cv reg slot).1.2 = slot) ∧
      ((m.Valid (some s)).1 = false →
        ∃ r ∈ [c_str m.error, "Unknown secure protocol", "Missing password",
            "Missing command", "Missing challenge"],
          (m.Valid (some s)).2 = some r) ∧
      ((m.Acceptable cv reg (some s)).1.1 = false →
        ∃ r ∈ [c_str m.error, "Unknown secure protocol", "Missing password",
            "Missing command", "Missing challenge", "Weak security",
            "No rcon.server.password set on the server.", "Bad password",
            "Mismatched challenge"],
          (m.Acceptable cv reg (some s)).1.2 = some r) := by
  refine ⟨?_, ?_, ?_, ?_⟩
  · intro h
    rw [m.valid_eq_of_fst slot h]
  · intro h
    rcases m.acceptable_cases cv reg slot with hc | ⟨hv, hc⟩ | ⟨-, hc | hc | hc | hc⟩
    · rw [hc]
    · rw [hc] at h
      rw [hv] at h
      exact absurd h (by simp)
    all_goals
      rw [hc, invalid_fst] at h
      exact absurd h (by simp)
  · intro h
    rcases m.valid_cases (some s) with hc | hc | hc | hc | hc | hc
    · rw [hc] at h
      exact absurd h (by simp)
    all_goals
      rw [hc]
      exact ⟨_, by simp, rfl⟩
  · intro h
    rcases m.acceptable_cases cv reg (some s) with hc | ⟨-, hc⟩ | ⟨-, hc | hc | hc | hc⟩
    · rw [hc] at h
      exact absurd h (by simp)
    · rw [hc]
      rcases m.valid_cases (some s) with hc' | hc' | hc' | hc' | hc' | hc'
      · rw [hc, hc'] at h
        exact absurd h (by simp)
      all_goals
        rw [hc']
        exact ⟨_, by simp, rfl⟩
    all_goals
      rw [hc]
      exact ⟨_, by simp, rfl⟩

/-- C30 (amended), at an accepted message: the slot still holds what the caller put there. -/
theorem Message.reason_slot_witness :
    ((Message.new 7 "status" Secure.Unencrypted "secret" "").Acceptable
      ⟨"secret", Secure.Unencrypted⟩ ⟨fun _ => none⟩ (some "untouched")).1.2 =
      some "untouched" :=
  (Message.reason_slot (Message.new 7 "status" Secure.Unencrypted "secret" "")
    ⟨"secret", Secure.Unencrypted⟩ ⟨fun _ => none⟩ (some "untouched") "").2.1 (by decide)

end Rcon

namespace Cmd

/-! Re-quoting and re-parsing. -/

/-- The scan of a quoted token over an escaped word and its closing quote gives the word back
and stops behind the quote. -/
theorem quotedToken_escaped (tail : List Char) :
    ∀ (w tok : List Char) (c : Char) (l : List Char),
      c :: l = escapeLoop true w ++ '"' :: tail →
      (quotedToken c false tok l).token = tok ++ w ∧ (quotedToken c false tok l).rest = tail := by
  intro w
  induction w with
  | nil =>
    intro tok c l h
    simp only [escapeLoop, List.nil_append, List.cons.injEq] at h
    obtain ⟨rfl, rfl⟩ := h
    cases l with
    | nil => simp [quotedToken]
    | cons d t => simp [quotedToken]
  | cons x w ih =>
    intro tok c l h
    obtain ⟨d, l', hdl⟩ : ∃ d l', escapeLoop true w ++ '"' :: tail = d :: l' := by
      cases hE : escapeLoop true w with
      | nil => exact ⟨_, _, rfl⟩
      | cons e t => exact ⟨_, _, rfl⟩
    obtain ⟨ht, hr⟩ := ih (tok ++ [x]) d l' hdl.symm
    have ht' : (quotedToken d false (tok ++ [x]) l').token = tok ++ x :: w := by
      rw [ht]
      simp
    by_cases hx : ((x == '$') || (x == '"') || (x == '\\')) = true
    · have hE : escapeLoop true (x :: w) = '\\' :: x :: escapeLoop true w := by
        simp only [escapeLoop, Bool.not_true, Bool.false_and, Bool.false_or, hx, if_true]
      rw [hE, List.cons_append, List.cons_append, hdl, List.cons.injEq] at h
      obtain ⟨rfl, rfl⟩ := h
      have h1 : quotedToken '\\' false tok (x :: d :: l') =
          { quotedToken x true tok (d :: l') with
            moved := (quotedToken x true tok (d :: l')).moved + 1 } := by
        rw [quotedToken]
        simp
      have h2 : quotedToken x true tok (d :: l') =
          { quotedToken d false (tok ++ [x]) l' with
            moved := (quotedToken d false (tok ++ [x]) l').moved + 1 } := by
        rw [quotedToken]
        simp
      rw [h1, h2]
      exact ⟨ht', hr⟩
    · have hE : escapeLoop true (x :: w) = x :: escapeLoop true w := by
        simp only [escapeLoop, Bool.not_true, Bool.false_and, Bool.false_or, hx,
          Bool.false_eq_true, if_false]
      rw [hE, List.cons_append, hdl, List.cons.injEq] at h
      obtain ⟨rfl, rfl⟩ := h
      simp only [Bool.or_eq_true, beq_iff_eq, not_or] at hx
      have hq : (c != '"') = true := by simpa using hx.1.2
      have hb : (c != '\\') = true := by simpa using hx.2
      have h1 : quotedToken c false tok (d :: l') =
          { quotedToken d false (tok ++ [c]) l' with
            moved := (quotedToken d false (tok ++ [c]) l').moved + 1 } := by
        rw [quotedToken]
        simp only [hq, hb, Bool.false_or, if_true]
      rw [h1]
      exact ⟨ht', hr⟩

/-- One iteration of the outer loop on an escaped word in quotes adds the word to the tokens
and resumes behind the closing quote. -/
theorem tokenizeLoop_quoted (fuel pos : Nat) (ts : Int) (tokens : List String)
    (starts : List Int) (w tail : List Char) :
    (tokenizeLoop (fuel + 1) pos ('"' :: (escapeLoop true w ++ '"' :: tail)) ts tokens
        starts).map Prod.fst =
      (tokenizeLoop fuel 0 tail 0 (tokens ++ [String.mk w]) []).map Prod.fst := by
  obtain ⟨d, l, hdl⟩ : ∃ d l, escapeLoop true w ++ '"' :: tail = d :: l := by
    cases hE : escapeLoop true w with
    | nil => exact ⟨_, _, rfl⟩
    | cons e t => exact ⟨_, _, rfl⟩
  obtain ⟨ht, hr⟩ := quotedToken_escaped tail w [] d l hdl.symm
  rw [hdl, tokenizeLoop]
  have h1 : leSpace '"' = false := by decide
  have h2 : ('"' == '/') = false := by decide
  simp only [h1, h2, Bool.false_and, Bool.false_eq_true, if_false, beq_self_eq_true,
    List.isEmpty_cons, Bool.not_false, Bool.and_self, if_true, List.headD_cons, List.tail_cons,
    ht, hr, List.nil_append]
  exact tokenizeLoop_tokens_pos fuel _ _ _ _ _ _ _ _

/-- The characters of `Escape(w, true)`. -/
theorem escape_quoted_data (w : String) :
    (Escape w true).data = '"' :: (escapeLoop true w.data ++ ['"']) := by
  simp [Escape, String.data_append]

/-- The tokens of a text made of escaped words in quotes, each behind a space. -/
theorem tokenizeLoop_requoted (ws : List String) :
    ∀ (fuel pos : Nat) (ts : Int) (tokens : List String) (starts : List Int),
      (ws.foldr (fun a r => ' ' :: ((Escape a true).data ++ r)) []).length < fuel →
      (tokenizeLoop fuel pos (ws.foldr (fun a r => ' ' :: ((Escape a true).data ++ r)) [])
          ts tokens starts).map Prod.fst = some (tokens ++ ws) := by
  induction ws with
  | nil =>
    intro fuel pos ts tokens starts hf
    cases fuel with
    | zero => exact absurd hf (Nat.not_lt_zero _)
    | succ n => simp [tokenizeLoop]
  | cons w ws ih =>
    intro fuel pos ts tokens starts hf
    have ih' := ih (fuel - 2) 0 0 (tokens ++ [String.mk w.data]) []
    rw [List.foldr_cons, escape_quoted_data] at hf ⊢
    generalize List.foldr (fun a r => ' ' :: ((Escape a true).data ++ r)) [] ws = text
      at hf ih' ⊢
    simp only [List.cons_append, List.append_assoc, List.length_cons, List.length_append,
      List.nil_append] at hf ⊢
    match fuel, hf, ih' with
    | n + 2, hf, ih' =>
      have hs : leSpace ' ' = true := by decide
      rw [tokenizeLoop]
      simp only [hs, if_true]
      rw [tokenizeLoop_quoted n (pos + 1) ts tokens starts w.data _]
      simp only [Nat.add_sub_cancel] at ih'
      rw [ih' (by omega), List.append_assoc]
      rfl

end Cmd

namespace Cmd

/-- What `QuotedArgs(0)` builds: every token escaped in quotes, joined by single spaces. -/
theorem Args.quotedArgs_zero (ws : List String) (starts : List Int) :
    Args.QuotedArgs ⟨ws, starts⟩ 0 (-1) =
      some (" ".intercalate (ws.map (fun w => Escape w true))) := by
  unfold Args.QuotedArgs Args.size
  cases ws with
  | nil => simp [Args.quotedLoop, String.intercalate]
  | cons w ws =>
    have hn : (((if (-1 : Int) < 0 then
        (((⟨w :: ws, starts⟩ : Args).args.length : Int)) - 1 else -1) + 1 - 0).toNat)
        = ws.length + 1 := by
      simp only [List.length_cons]
      have : ((-1 : Int) < 0) := by omega
      rw [if_pos this]
      push_cast
      omega
    simp only [hn]
    have h0 : (⟨w :: ws, starts⟩ : Args).Argv 0 = some w := by
      simp [Args.Argv]
    have htail := Args.quotedLoop_tail ⟨w :: ws, starts⟩ 0 ws 1
      ("" ++ Escape w true) (by omega) (by simp)
    simp only [Args.quotedLoop, bne_self_eq_false, Bool.false_eq_true, if_false, h0]
    have h1 : ((0 : Int) + 1) = ((1 : Nat) : Int) := by norm_num
    rw [h1, htail]
    simp [String.intercalate]

/-- The characters of escaped words joined by single spaces, behind what is already there. -/
theorem intercalate_go_escaped_data (ws : List String) :
    ∀ acc : String,
      (String.intercalate.go acc " " (ws.map (fun w => Escape w true))).data =
        acc.data ++ ws.foldr (fun a r => ' ' :: ((Escape a true).data ++ r)) [] := by
  induction ws with
  | nil =>
    intro acc
    simp [String.intercalate.go]
  | cons w ws ih =>
    intro acc
    rw [List.map_cons, String.intercalate.go, ih]
    simp [String.data_append]

/-- C25: tokenizing the string `QuotedArgs` builds from a list of words, each passed through
`Escape` with quote = true and joined by single spaces, gives the words back, whatever
characters they hold. -/
theorem requote_round_trip (ws : List String) (starts : List Int) :
    ∃ text, Args.QuotedArgs ⟨ws, starts⟩ 0 (-1) = some text ∧
      (Tokenize text [] []).map Prod.fst = some ws := by
  refine ⟨_, Args.quotedArgs_zero ws starts, ?_⟩
  cases ws with
  | nil => decide
  | cons w ws =>
    unfold Tokenize
    rw [String.length, List.map_cons, String.intercalate, intercalate_go_escaped_data,
      escape_quoted_data, List.cons_append, List.append_assoc, List.singleton_append,
      List.length_cons, tokenizeLoop_quoted]
    exact tokenizeLoop_requoted ws _ 0 0 ([] ++ [String.mk w.data]) []
      (by simp only [List.length_append, List.length_cons]; omega)

/-- C25, at words that hold a space, a separator, a quote, a backslash, a cvar sign, comment
starts and nothing at all. -/
theorem requote_round_trip_witness :
    ∃ text, Args.QuotedArgs ⟨["a b", "c;d", "e\"f", "g\\", "$h", "//i", "/*j", ""], []⟩ 0 (-1) =
        some text ∧
      (Tokenize text [] []).map Prod.fst =
        some ["a b", "c;d", "e\"f", "g\\", "$h", "//i", "/*j", ""] :=
  requote_round_trip ["a b", "c;d", "e\"f", "g\\", "$h", "//i", "/*j", ""] []

end Cmd

namespace Cmd

/-! The escaping function against its reference definition. -/

/-- The loop of `Escape` treats each character as the reference definition says, the character
behind it being the head of the rest. -/
theorem escapeLoop_eq_ref (quote : Bool) :
    ∀ l : List Char,
      escapeLoop quote l =
        (List.zip l (l.tail.map some ++ [none])).flatMap
          (fun p => if needsBackslash quote p.1 p.2 then ['\\', p.1] else [p.1]) := by
  intro l
  induction l with
  | nil => rfl
  | cons c rest ih =>
    have hstep : ∀ next : Option Char, rest.head? = next →
        escapeLoop quote (c :: rest) =
          (if needsBackslash quote c next then ['\\', c] else [c]) ++ escapeLoop quote rest := by
      intro next hnext
      have h1 : (rest.headD '\x00' == '/') = (next == some '/') := by
        rw [← hnext]
        cases rest <;> simp
      have h2 : (rest.headD '\x00' == '*') = (next == some '*') := by
        rw [← hnext]
        cases rest <;> simp
      have h3 : decide (0 < c.toNat) = decide (1 ≤ c.toNat) := by
        simp [Nat.lt_iff_add_one_le]
      simp only [escapeLoop, needsBackslash, h1, h2, h3]
      cases quote <;> simp only [Bool.not_true, Bool.not_false, Bool.false_and, Bool.true_and,
        Bool.false_or, if_true, if_false, Bool.false_eq_true]
      · by_cases hb : (c == '$' || c == '"' || c == '\\' || c == ';' ||
            (decide (1 ≤ c.toNat) && decide (c.toNat ≤ 32)) ||
            (c == '/' && (next == some '/' || next == some '*'))) = true
        · have hb' : ((decide (c.toNat ≤ 32) && decide (1 ≤ c.toNat) || c == ';' ||
              (c == '/' && (next == some '/' || next == some '*'))) ||
              (c == '$' || c == '"' || c == '\\')) = true := by
            simp only [Bool.or_eq_true, Bool.and_eq_true] at hb ⊢
            tauto
          rw [if_pos hb, if_pos hb']
          rfl
        · have hb' : ¬ ((decide (c.toNat ≤ 32) && decide (1 ≤ c.toNat) || c == ';' ||
              (c == '/' && (next == some '/' || next == some '*'))) ||
              (c == '$' || c == '"' || c == '\\')) = true := by
            simp only [Bool.or_eq_true, Bool.and_eq_true] at hb ⊢
            tauto
          rw [if_neg hb, if_neg hb']
          rfl
      · by_cases hb : (c == '$' || c == '"' || c == '\\') = true
        · rw [if_pos hb, if_pos hb]
          rfl
        · rw [if_neg hb, if_neg hb]
          rfl
    cases rest with
    | nil =>
      rw [hstep none rfl]
      simp [escapeLoop]
    | cons d r =>
      rw [hstep (some d) rfl, ih]
      simp

/-- C37: `Escape` equals its reference definition, for every text and both values of quote:
with quote = true a quote, then every character of the text, preceded by a backslash exactly
when it is '$', '"' or the backslash, then a quote; with quote = false no quotes, and a
backslash exactly before '$', '"', the backslash, ';', a character with code 1..32 and a '/'
immediately followed by '/' or '*'. A '/' that is the last character has nothing behind it
and gets no backslash. -/
theorem escape_eq_escapeRef (text : String) (quote : Bool) :
    Escape text quote = escapeRef text quote := by
  unfold Escape escapeRef
  simp only [escapeLoop_eq_ref]
  cases quote
  · simp
  · simp only [if_true]
    apply String.ext
    simp [String.data_append]

end Cmd

namespace Cmd

/-! Cvar substitution on escaped text. -/

/-- The substitution loop runs over escaped text without meeting a '$' that is not behind a
backslash: the text goes to the current block, and the loop goes on behind it. -/
theorem substituteLoop_escaped (cvarValue : String → String) (quote : Bool)
    (tail : List Char) :
    ∀ (l block : List Char),
      substituteLoop cvarValue false false block [] [] (escapeLoop quote l ++ tail) =
        substituteLoop cvarValue false false (block ++ escapeLoop quote l) [] [] tail := by
  intro l
  induction l with
  | nil =>
    intro block
    simp [escapeLoop]
  | cons c rest ih =>
    intro block
    by_cases hb : ((!quote && ((decide (c.toNat ≤ 32) && decide (0 < c.toNat)) || (c == ';') ||
        ((c == '/') && (rest.headD '\x00' == '/' || rest.headD '\x00' == '*')))) ||
        ((c == '$') || (c == '"') || (c == '\\'))) = true
    · have he : escapeLoop quote (c :: rest) = '\\' :: c :: escapeLoop quote rest := by
        simp only [escapeLoop]
        rw [if_pos hb]
      have hs : ('\\' == '\\') = true := by decide
      rw [he, List.cons_append, List.cons_append, substituteLoop]
      simp only [Bool.false_eq_true, if_false, hs, if_true]
      rw [substituteLoop]
      simp only [if_true]
      rw [ih]
      simp
    · have he : escapeLoop quote (c :: rest) = c :: escapeLoop quote rest := by
        simp only [escapeLoop]
        rw [if_neg hb]
      have hc : (c == '\\') = false ∧ (c == '$') = false := by
        simp only [Bool.or_eq_true, not_or, Bool.not_eq_true] at hb
        exact ⟨hb.2.2, hb.2.1.1⟩
      rw [he, List.cons_append, substituteLoop]
      simp only [Bool.false_eq_true, if_false, hc.1, hc.2]
      rw [ih]
      simp

/-- The substitution loop on text without a '$' looks nothing up and keeps the text in the
current block. -/
theorem substituteLoop_plain (cvarValue : String → String) :
    ∀ (l block : List Char) (isEscaped : Bool), '$' ∉ l →
      substituteLoop cvarValue isEscaped false block [] [] l = (false, block ++ l, [], []) := by
  intro l
  induction l with
  | nil =>
    intro block isEscaped _
    simp [substituteLoop]
  | cons c rest ih =>
    intro block isEscaped h
    have hc : (c == '$') = false := by
      rw [beq_eq_false_iff_ne]
      intro hc
      exact h (by rw [hc]; exact List.mem_cons_self _ _)
    have hr : '$' ∉ rest := fun hr => h (List.mem_cons_of_mem _ hr)
    rw [substituteLoop]
    split_ifs <;> first
      | (rw [ih _ _ hr]; simp)
      | (exfalso; simp_all)

/-- C33: `SubstituteCvars` returns escaped text as it is, for every text and both values of
quote, looking up no cvar and printing no warning on the way; and it returns every text
without a '$' as it is, again without a lookup. -/
theorem substituteCvars_escaped (cvarValue : String → String) (text : String) (quote : Bool) :
    SubstituteCvars cvarValue (Escape text quote) =
        { result := Escape text quote, lookups := [], warned := false } ∧
      ('$' ∉ text.data →
        SubstituteCvars cvarValue text = { result := text, lookups := [], warned := false }) := by
  constructor
  · cases quote
    · have hd : (Escape text false).data = escapeLoop false text.data := by
        simp [Escape]
      have h := substituteLoop_escaped cvarValue false [] text.data []
      rw [List.append_nil] at h
      unfold SubstituteCvars
      simp only [hd, h, substituteLoop, Bool.false_eq_true, if_false, List.nil_append,
        List.append_nil]
      rw [← hd]
    · have hd := escape_quoted_data text
      have hq : ('"' == '\\') = false ∧ ('"' == '$') = false := by decide
      have h := substituteLoop_escaped cvarValue true ['"'] text.data ['"']
      have hp := substituteLoop_plain cvarValue ['"'] (['"'] ++ escapeLoop true text.data) false
        (by decide)
      unfold SubstituteCvars
      rw [hd, substituteLoop]
      simp only [Bool.false_eq_true, if_false, hq.1, hq.2, List.nil_append]
      rw [h, hp]
      simp only [Bool.false_eq_true, if_false, List.append_nil]
      congr 1
  · intro h
    have hp := substituteLoop_plain cvarValue text.data [] false h
    unfold SubstituteCvars
    rw [hp]
    simp

/-- C33, at a text without a '$' that holds a backslash: it comes back as it is. -/
theorem substituteCvars_escaped_witness :
    SubstituteCvars (fun _ => "value") "say \\x" =
      { result := "say \\x", lookups := [], warned := false } :=
  (substituteCvars_escaped (fun _ => "value") "say \\x" false).2 (by decide)

end Cmd

namespace Cmd

/-! Termination of the tokenizer and alignment of its two outputs. -/

/-- With more fuel than unread text the outer loop returns; it adds as many start offsets as
tokens, and the offsets it adds are at least the pending `tokenStart` and non-decreasing. -/
theorem tokenizeLoop_aligned (fuel : Nat) :
    ∀ (rest : List Char) (pos : Nat) (ts : Int) (tokens : List String) (starts : List Int),
      rest.length < fuel → ts ≤ (pos : Int) →
      ∃ (new : List String) (offsets : List Int),
        tokenizeLoop fuel pos rest ts tokens starts = some (tokens ++ new, starts ++ offsets) ∧
          new.length = offsets.length ∧ (∀ x ∈ offsets, ts ≤ x) ∧
          offsets.Pairwise (fun a b => a ≤ b) := by
  induction fuel with
  | zero =>
    intro rest pos ts tokens starts h
    exact absurd h (Nat.not_lt_zero _)
  | succ fuel ih =>
    intro rest pos ts tokens starts h hts
    have hdone : ∃ (new : List String) (offsets : List Int),
        some (tokens, starts) = some (tokens ++ new, starts ++ offsets) ∧
          new.length = offsets.length ∧ (∀ x ∈ offsets, ts ≤ x) ∧
          offsets.Pairwise (fun a b => a ≤ b) :=
      ⟨[], [], by simp, rfl, by simp, List.Pairwise.nil⟩
    have htoken : ∀ (r : TokenScan) (p : Nat), r.rest.length < fuel → pos ≤ p →
        ∃ (new : List String) (offsets : List Int),
          tokenizeLoop fuel p r.rest ((p : Nat) : Int) (tokens ++ [String.mk r.token])
              (starts ++ [ts]) = some (tokens ++ new, starts ++ offsets) ∧
            new.length = offsets.length ∧ (∀ x ∈ offsets, ts ≤ x) ∧
            offsets.Pairwise (fun a b => a ≤ b) := by
      intro r p hr hp
      obtain ⟨new, offsets, he, hl, hge, hpw⟩ :=
        ih r.rest p (p : Int) (tokens ++ [String.mk r.token]) (starts ++ [ts]) hr (le_refl _)
      have hp' : ts ≤ (p : Int) := le_trans hts (by exact_mod_cast hp)
      refine ⟨String.mk r.token :: new, ts :: offsets, ?_, ?_, ?_, ?_⟩
      · rw [he]
        simp
      · simp [hl]
      · intro x hx
        rcases List.mem_cons.mp hx with rfl | hx
        · exact le_refl _
        · exact le_trans hp' (hge x hx)
      · exact List.Pairwise.cons (fun x hx => le_trans hp' (hge x hx)) hpw
    cases rest with
    | nil => simpa [tokenizeLoop] using hdone
    | cons c rest =>
      simp only [List.length_cons] at h
      rw [tokenizeLoop]
      dsimp only
      split_ifs
      · exact ih rest (pos + 1) ts tokens starts (by omega)
          (le_trans hts (by push_cast; omega))
      · exact hdone
      · exact hdone
      · refine ih _ (pos + 2 + skipComment rest.tail + 2) ts tokens starts ?_
          (le_trans hts (by push_cast; omega))
        simp only [List.length_drop, List.length_tail]
        omega
      · refine htoken (quotedToken (rest.headD '\x00') false [] rest.tail)
          (pos + 2 + (quotedToken (rest.headD '\x00') false [] rest.tail).moved) ?_ (by omega)
        have := quotedToken_rest_length rest.tail (rest.headD '\x00') false []
        simp only [List.length_tail] at this
        omega
      · refine htoken (unquotedToken c false [] rest)
          (pos + 1 + (unquotedToken c false [] rest).moved) ?_ (by omega)
        have := unquotedToken_rest_length rest c false []
        omega

/-- C34: `Tokenize` returns on every input. One unit of fuel is one iteration of the outer
loop, and as many units as the text has characters, and one for the last test, are enough,
whatever more is given: every iteration moves the cursor on by at least one character. That
holds for the unquoted scan with its step back and for the quoted scan, which leave at most
what was behind the character they started with, and for the skip of a block comment. -/
theorem tokenize_terminates (text : String) (tokens : List String) (tokenStarts : List Int) :
    (∃ r, Tokenize text tokens tokenStarts = some r) ∧
      (∀ fuel, text.length < fuel →
        tokenizeLoop fuel 0 text.data 0 tokens tokenStarts =
          Tokenize text tokens tokenStarts) ∧
      (∀ c escaped token rest,
        (unquotedToken c escaped token rest).rest.length ≤ rest.length ∧
          (quotedToken c escaped token rest).rest.length ≤ rest.length) ∧
      (∀ fuel pos rest ts,
        (rest.drop (skipComment rest + 2)).length < ('/' :: '*' :: rest).length ∧
        (tokenizeLoop (fuel + 1) pos ('/' :: '*' :: rest) ts tokens tokenStarts =
            some (tokens, tokenStarts) ∨
          tokenizeLoop (fuel + 1) pos ('/' :: '*' :: rest) ts tokens tokenStarts =
            tokenizeLoop fuel (pos + 2 + skipComment rest + 2)
              (rest.drop (skipComment rest + 2)) ts tokens tokenStarts)) := by
  refine ⟨?_, ?_, ?_, ?_⟩
  · obtain ⟨new, offsets, he, -⟩ := tokenizeLoop_aligned (text.length + 1) text.data 0 0
      tokens tokenStarts (Nat.lt_succ_self _) (le_refl _)
    exact ⟨_, he⟩
  · intro fuel hf
    exact tokenizeLoop_fuel fuel (text.length + 1) text.data tokens 0 0 tokenStarts hf
      (Nat.lt_succ_self _)
  · intro c escaped token rest
    exact ⟨unquotedToken_rest_length rest c escaped token,
      quotedToken_rest_length rest c escaped token⟩
  · intro fuel pos rest ts
    refine ⟨?_, ?_⟩
    · simp only [List.length_drop, List.length_cons]
      omega
    · rw [tokenizeLoop]
      have h1 : leSpace '/' = false := by decide
      simp only [h1, Bool.false_eq_true, if_false, List.tail_cons]
      split_ifs
      · exact Or.inl rfl
      · exact Or.inl rfl
      · exact Or.inr rfl
      all_goals simp_all

/-- C34, at a text with a block comment, a quoted token and an unquoted token that runs into
a quote: a hundred units of fuel give what `Tokenize` gives with one per character. -/
theorem tokenize_terminates_witness :
    tokenizeLoop 100 0 "a/*b*/\"c d\"e\"f".data 0 [] [] = Tokenize "a/*b*/\"c d\"e\"f" [] [] :=
  (tokenize_terminates "a/*b*/\"c d\"e\"f" [] []).2.1 100 (by decide)

/-- C36: called with `tokens` and `tokenStarts` of equal length, `Tokenize` returns them with
equal length: it appends as many start offsets as tokens, and the start offsets it appends
are non-decreasing. -/
theorem tokenize_aligned (text : String) (tokens : List String) (tokenStarts : List Int)
    (h : tokens.length = tokenStarts.length) :
    ∃ (new : List String) (offsets : List Int),
      Tokenize text tokens tokenStarts = some (tokens ++ new, tokenStarts ++ offsets) ∧
        (tokens ++ new).length = (tokenStarts ++ offsets).length ∧
        new.length = offsets.length ∧ offsets.Pairwise (fun a b => a ≤ b) := by
  obtain ⟨new, offsets, he, hl, -, hpw⟩ := tokenizeLoop_aligned (text.length + 1) text.data 0 0
    tokens tokenStarts (Nat.lt_succ_self _) (le_refl _)
  exact ⟨new, offsets, he, by simp [h, hl], hl, hpw⟩

/-- C36, at a text with three tokens, called with one token and one start offset already
there. -/
theorem tokenize_aligned_witness :
    ∃ (new : List String) (offsets : List Int),
      Tokenize "a \"b c\" d" ["x"] [7] = some (["x"] ++ new, [7] ++ offsets) ∧
        (["x"] ++ new).length = ([7] ++ offsets).length ∧
        new.length = offsets.length ∧ offsets.Pairwise (fun a b => a ≤ b) :=
  tokenize_aligned "a \"b c\" d" ["x"] [7] rfl

end Cmd

namespace Cmd

/-! The tokenizer on words separated by whitespace. -/

/-- A run of characters above the space and below 128 without quote, backslash and '/' is a
plain word. -/
theorem plainWord_of_chars :
    ∀ l : List Char,
      (∀ c ∈ l, 32 < c.toNat ∧ c.toNat < 128 ∧ c ≠ '"' ∧ c ≠ '\\' ∧ c ≠ '/') →
      plainWord l = true := by
  intro l
  induction l with
  | nil => intro _; rfl
  | cons c rest ih =>
    intro h
    obtain ⟨h1, h2, h3, h4, h5⟩ := h c (List.mem_cons_self _ _)
    have hr := ih (fun d hd => h d (List.mem_cons_of_mem _ hd))
    simp [plainWord, wordChar, h1, h2, h3, h4, h5, hr]

/-- The outer loop skips a character at or below the space. -/
theorem tokenizeLoop_skip (fuel pos : Nat) (ts : Int) (tokens : List String)
    (starts : List Int) (s : Char) (rest : List Char) (hs : leSpace s = true) :
    (tokenizeLoop (fuel + 1) pos (s :: rest) ts tokens starts).map Prod.fst =
      (tokenizeLoop fuel 0 rest 0 tokens []).map Prod.fst := by
  rw [tokenizeLoop]
  simp only [hs, if_true]
  exact tokenizeLoop_tokens_pos fuel rest tokens _ _ _ _ _ _

/-- The outer loop skips a run of characters at or below the space. -/
theorem tokenizeLoop_skip_run (rest : List Char) (tokens : List String) :
    ∀ (lead : List Char) (fuel pos : Nat) (ts : Int) (starts : List Int),
      (∀ c ∈ lead, leSpace c = true) → (lead ++ rest).length < fuel →
      (tokenizeLoop fuel pos (lead ++ rest) ts tokens starts).map Prod.fst =
        (tokenizeLoop (rest.length + 1) 0 rest 0 tokens []).map Prod.fst := by
  intro lead
  induction lead with
  | nil =>
    intro fuel pos ts starts _ hf
    rw [List.nil_append] at hf ⊢
    rw [tokenizeLoop_fuel fuel (rest.length + 1) rest tokens pos ts starts hf
      (Nat.lt_succ_self _)]
    exact tokenizeLoop_tokens_pos _ rest tokens _ _ _ _ _ _
  | cons s lead ih =>
    intro fuel pos ts starts hl hf
    match fuel, hf with
    | n + 1, hf =>
      rw [List.cons_append, tokenizeLoop_skip n pos ts tokens starts s _
        (hl s (List.mem_cons_self _ _))]
      exact ih n 0 0 [] (fun c hc => hl c (List.mem_cons_of_mem _ hc))
        (by simpa using hf)

/-- The tokens of words that each follow a space, with whitespace behind the last one. -/
theorem tokenizeLoop_words (trail : List Char) (ht : ∀ c ∈ trail, leSpace c = true) :
    ∀ (ws : List String) (fuel pos : Nat) (ts : Int) (tokens : List String)
      (starts : List Int),
      (∀ w ∈ ws, w ≠ "" ∧
        ∀ c ∈ w.data, 32 < c.toNat ∧ c.toNat < 128 ∧ c ≠ '"' ∧ c ≠ '\\' ∧ c ≠ '/') →
      (ws.foldr (fun a r => ' ' :: (a.data ++ r)) trail).length < fuel →
      (tokenizeLoop fuel pos (ws.foldr (fun a r => ' ' :: (a.data ++ r)) trail) ts tokens
        starts).map Prod.fst = some (tokens ++ ws) := by
  intro ws
  induction ws with
  | nil =>
    intro fuel pos ts tokens starts _ hf
    have h := tokenizeLoop_skip_run [] tokens trail fuel pos ts starts ht
      (by simpa using hf)
    rw [List.append_nil] at h
    rw [List.foldr_nil, h]
    simp [tokenizeLoop]
  | cons w ws ih =>
    intro fuel pos ts tokens starts hw hf
    obtain ⟨hne, hch⟩ := hw w (List.mem_cons_self _ _)
    have hws := fun v hv => hw v (List.mem_cons_of_mem _ hv)
    have ih' := ih (fuel - 2) 0 0 (tokens ++ [w]) [] hws
    rw [List.foldr_cons] at hf ⊢
    have hhead : ∀ s rest, ws.foldr (fun a r => ' ' :: (a.data ++ r)) trail = s :: rest →
        leSpace s = true := by
      intro s rest he
      cases ws with
      | nil =>
        rw [List.foldr_nil] at he
        exact ht s (by rw [he]; exact List.mem_cons_self _ _)
      | cons v vs =>
        rw [List.foldr_cons] at he
        have : s = ' ' := (List.cons.inj he).1.symm
        rw [this]
        decide
    generalize ws.foldr (fun a r => ' ' :: (a.data ++ r)) trail = text at hf ih' hhead ⊢
    obtain ⟨c, l, hcl⟩ : ∃ c l, w.data = c :: l := by
      cases hd : w.data with
      | nil => exact absurd (String.ext hd) hne
      | cons c l => exact ⟨c, l, rfl⟩
    have hplain : plainWord (c :: l) = true := by
      rw [← hcl]
      exact plainWord_of_chars _ hch
    have hw' : String.mk (c :: l) = w := by
      rw [← hcl]
    rw [hcl] at hf
    simp only [List.length_cons, List.length_append] at hf
    match fuel, hf, ih' with
    | n + 2, hf, ih' =>
      have hsp : leSpace ' ' = true := by decide
      simp only [Nat.add_sub_cancel] at ih'
      rw [tokenizeLoop_skip (n + 1) pos ts tokens starts ' ' _ hsp, hcl]
      cases text with
      | nil =>
        simp only [List.length_nil] at hf
        match n, hf, ih' with
        | m + 1, hf, ih' =>
          have h2 := ih' (Nat.succ_pos m)
          rw [tokenizeLoop] at h2
          rw [List.append_nil, tokenizeLoop_last m 0 0 tokens [] c l hplain, hw']
          simpa using h2
      | cons s rest =>
        have hn : (s :: rest).length < n := by
          simp only [List.length_cons] at hf ⊢
          omega
        have h2 := ih' hn
        rw [List.cons_append, tokenizeLoop_word n 0 0 tokens [] c s l rest hplain
          (hhead s rest rfl), hw']
        match n, hn, h2 with
        | m + 1, hn, h2 =>
          rw [tokenizeLoop_skip m 0 0 (tokens ++ [w]) [] s rest (hhead s rest rfl)] at h2
          have hf2 : rest.length < m := by
            simp only [List.length_cons] at hn
            omega
          rw [tokenizeLoop_fuel (m + 1) m rest (tokens ++ [w]) 0 0 [] (by omega) hf2, h2]
          simp

/-- The characters of words joined by single spaces, behind what is already there. -/
theorem intercalate_go_data :
    ∀ (l : List String) (acc : String),
      (String.intercalate.go acc " " l).data =
        acc.data ++ l.foldr (fun a r => ' ' :: (a.data ++ r)) [] := by
  intro l
  induction l with
  | nil =>
    intro acc
    simp [String.intercalate.go]
  | cons w ws ih =>
    intro acc
    rw [String.intercalate.go, ih]
    simp [String.data_append]

/-- Text behind the words each following a space. -/
theorem foldr_words_append (trail : List Char) :
    ∀ ws : List String,
      ws.foldr (fun a r => ' ' :: (a.data ++ r)) [] ++ trail =
        ws.foldr (fun a r => ' ' :: (a.data ++ r)) trail := by
  intro ws
  induction ws with
  | nil => rfl
  | cons w ws ih =>
    rw [List.foldr_cons, List.foldr_cons, List.cons_append, List.append_assoc, ih]

/-- C35: for every list of words made only of characters with code above 32 and below 128
other than '"', the backslash and '/', a word being a non-empty run of characters, tokenizing
the words joined by single spaces, with any run of characters at or below the space in front
and behind, gives that list of words, and so does the constructor `Args(command)`; with no
word at all, a string of whitespace gives no token. -/
theorem tokenize_words (ws : List String) (lead trail : String)
    (hw : ∀ w ∈ ws, w ≠ "" ∧
      ∀ c ∈ w.data, 32 < c.toNat ∧ c.toNat < 128 ∧ c ≠ '"' ∧ c ≠ '\\' ∧ c ≠ '/')
    (hl : ∀ c ∈ lead.data, c.toNat ≤ 32) (ht : ∀ c ∈ trail.data, c.toNat ≤ 32) :
    (Tokenize (lead ++ " ".intercalate ws ++ trail) [] []).map Prod.fst = some ws ∧
      (Args.ofString (lead ++ " ".intercalate ws ++ trail)).map Args.args = some ws := by
  have hl' : ∀ c ∈ lead.data, leSpace c = true := by
    intro c hc
    simp [leSpace, hl c hc]
  have ht' : ∀ c ∈ trail.data, leSpace c = true := by
    intro c hc
    simp [leSpace, ht c hc]
  have hmain : (Tokenize (lead ++ " ".intercalate ws ++ trail) [] []).map Prod.fst =
      some ws := by
    unfold Tokenize
    rw [String.length]
    simp only [String.data_append]
    cases ws with
    | nil =>
      have h := tokenizeLoop_skip_run [] [] (lead.data ++ trail.data)
        ((lead.data ++ trail.data).length + 1) 0 0 []
        (fun c hc => (List.mem_append.mp hc).elim (hl' c) (ht' c)) (by simp)
      simp only [List.append_nil] at h
      simp only [String.intercalate, String.data, List.append_nil]
      rw [h]
      rfl
    | cons w ws =>
      rw [String.intercalate, intercalate_go_data, List.append_assoc, List.append_assoc,
        foldr_words_append]
      have hwords := tokenizeLoop_words trail.data ht' (w :: ws)
        ((w.data ++ ws.foldr (fun a r => ' ' :: (a.data ++ r)) trail.data).length + 2) 0 0 []
        [] hw (by rw [List.foldr_cons, List.length_cons]; omega)
      rw [List.foldr_cons, tokenizeLoop_skip _ 0 0 [] [] ' ' _ (by decide)] at hwords
      rw [tokenizeLoop_skip_run _ [] lead.data _ 0 0 [] hl' (Nat.lt_succ_self _), hwords]
      rfl
  refine ⟨hmain, ?_⟩
  unfold Args.ofString
  cases hT : Tokenize (lead ++ " ".intercalate ws ++ trail) [] [] with
  | none =>
    rw [hT] at hmain
    exact absurd hmain (by simp)
  | some r =>
    rw [hT] at hmain
    simpa using hmain

/-- C35, at three words with a tab in front and a newline behind; one word holds a
';' and one a '$'. -/
theorem tokenize_words_witness :
    (Tokenize ("\t " ++ " ".intercalate ["set", "a;b", "$c"] ++ " \n") [] []).map Prod.fst =
        some ["set", "a;b", "$c"] ∧
      (Args.ofString ("\t " ++ " ".intercalate ["set", "a;b", "$c"] ++ " \n")).map Args.args =
        some ["set", "a;b", "$c"] :=
  tokenize_words ["set", "a;b", "$c"] "\t " " \n" (by decide) (by decide) (by decide)

end Cmd

namespace Cmd

/-! Escaped words that do not survive. -/

/-- C31, at the failing inputs: the word "a$" is escaped to the three characters a, backslash,
'$', and the tokenizer gives the token "a" for them; the one-character word "$" comes back as
the empty token, and the word "a b;" without its last character. -/
theorem tokenize_escape_drops_last :
    Escape "a$" false = "a\\$" ∧
      (Tokenize (Escape "a$" false) [] []).map Prod.fst = some ["a"] ∧
      (Tokenize (Escape "$" false) [] []).map Prod.fst = some [""] ∧
      (Tokenize (Escape "a b;" false) [] []).map Prod.fst = some ["a b"] := by
  decide

/-- C32, at the failing inputs: the text made of a quote and a ';' is escaped to the five
characters quote, backslash, quote, ';', quote, which `SplitCommands` cuts at the ';' into two
commands; and of the escaped text a, NUL, b it returns one command that ends before the
NUL. -/
theorem splitCommands_escape_split :
    Escape "\";" true = "\"\\\";\"" ∧
      SplitCommands (Escape "\";" true) = ["\"\\\"", "\""] ∧
      SplitCommands (Escape "a\x00b" true) = ["\"a"] := by
  decide

end Cmd

namespace Cmd

/-! Escaped words that do survive. -/

/-- Inside quotes the splitting loop runs over text without quote and newline and cuts
nothing. -/
theorem splitLoop_inQuotes (res : List String) (tail : List Char) :
    ∀ (l current : List Char), '"' ∉ l → '\n' ∉ l →
      splitLoop true false current res (l ++ tail) =
        splitLoop true false (current ++ l) res tail := by
  intro l
  induction l with
  | nil =>
    intro current _ _
    simp
  | cons c rest ih =>
    intro current hq hn
    have hc1 : (c == '"') = false := by
      rw [beq_eq_false_iff_ne]
      intro h
      exact hq (by rw [h]; exact List.mem_cons_self _ _)
    have hc2 : (c == '\n') = false := by
      rw [beq_eq_false_iff_ne]
      intro h
      exact hn (by rw [h]; exact List.mem_cons_self _ _)
    rw [List.cons_append, splitLoop]
    simp only [Bool.false_eq_true, if_false, hc1, hc2, Bool.not_true, Bool.false_and,
      Bool.or_self]
    rw [ih _ (fun h => hq (List.mem_cons_of_mem _ h)) (fun h => hn (List.mem_cons_of_mem _ h))]
    simp

/-- What `Escape` with quote = true puts between the quotes holds a character only if the
text does, the backslash apart. -/
theorem mem_escapeLoop (x : Char) (hx : x ≠ '\\') :
    ∀ l : List Char, x ∈ escapeLoop true l → x ∈ l := by
  intro l
  induction l with
  | nil => simp [escapeLoop]
  | cons c rest ih =>
    intro h
    simp only [escapeLoop] at h
    split_ifs at h
    · rcases List.mem_cons.mp h with h | h
      · exact absurd h hx
      · rcases List.mem_cons.mp h with h | h
        · rw [h]
          exact List.mem_cons_self _ _
        · exact List.mem_cons_of_mem _ (ih h)
    · rcases List.mem_cons.mp h with h | h
      · rw [h]
        exact List.mem_cons_self _ _
      · exact List.mem_cons_of_mem _ (ih h)

/-- A text without quote, newline and NUL, escaped in quotes, is one command for
`SplitCommands`, whatever ';' it holds. -/
theorem splitCommands_escape_plain (text : String) (hq : '"' ∉ text.data)
    (hn : '\n' ∉ text.data) (h0 : '\x00' ∉ text.data) :
    SplitCommands (Escape text true) = [Escape text true] := by
  have hd := escape_quoted_data text
  have hq' : '"' ∉ escapeLoop true text.data :=
    fun h => hq (mem_escapeLoop '"' (by decide) _ h)
  have hn' : '\n' ∉ escapeLoop true text.data :=
    fun h => hn (mem_escapeLoop '\n' (by decide) _ h)
  have h0' : '\x00' ∉ escapeLoop true text.data :=
    fun h => h0 (mem_escapeLoop '\x00' (by decide) _ h)
  have hloop := splitLoop_inQuotes [] ['"'] (escapeLoop true text.data) ['"'] hq' hn'
  have hq1 : ('"' == '"') = true := by decide
  have htake : ∀ l : List Char, '\x00' ∉ l → l.takeWhile (fun c => c != '\x00') = l := by
    intro l hl
    rw [List.takeWhile_eq_self_iff]
    intro c hc
    simp only [bne_iff_ne, ne_eq]
    intro h
    exact hl (by rw [← h]; exact hc)
  unfold SplitCommands
  rw [hd, splitLoop]
  simp only [Bool.false_eq_true, if_false, hq1, if_true, Bool.not_false, List.nil_append]
  rw [hloop, splitLoop]
  simp only [Bool.false_eq_true, if_false, hq1, if_true, Bool.not_true, splitLoop,
    List.nil_append]
  rw [htake]
  · congr 1
  · intro h
    simp only [List.mem_append, List.mem_singleton] at h
    rcases h with (h | h) | h
    · exact absurd h (by decide)
    · exact h0' h
    · exact absurd h (by decide)

end Cmd

namespace Cmd

/-- How the loop of `Escape` without quotes treats one character of a word of 7-bit
characters: either it puts a backslash before it, or the character is above the space and
starts nothing. -/
theorem escapeLoop_cons_cases (c : Char) (rest : List Char) (h1 : 1 ≤ c.toNat)
    (h2 : c.toNat ≤ 127) :
    (escapeLoop false (c :: rest) = '\\' :: c :: escapeLoop false rest ∧
        (rest = [] → needsBackslash false c none = true)) ∨
      (escapeLoop false (c :: rest) = c :: escapeLoop false rest ∧
        (rest = [] → needsBackslash false c none = false) ∧
        leSpace c = false ∧ c ≠ '"' ∧ c ≠ '\\' ∧
        (c = '/' → rest.headD '\x00' ≠ '/' ∧ rest.headD '\x00' ≠ '*')) := by
  by_cases hb : ((!false && ((decide (c.toNat ≤ 32) && decide (0 < c.toNat)) || (c == ';') ||
      ((c == '/') && (rest.headD '\x00' == '/' || rest.headD '\x00' == '*')))) ||
      ((c == '$') || (c == '"') || (c == '\\'))) = true
  · left
    refine ⟨?_, ?_⟩
    · simp only [escapeLoop]
      rw [if_pos hb]
    · intro hr
      subst hr
      simp only [needsBackslash, Bool.false_eq_true, if_false]
      simp only [List.headD_nil, Bool.not_false, Bool.true_and, Bool.or_eq_true,
        Bool.and_eq_true, decide_eq_true_eq, beq_iff_eq] at hb ⊢
      have e1 : ¬ ('\x00' = '/') := by decide
      have e2 : ¬ ('\x00' = '*') := by decide
      simp only [e1, e2, or_self, and_false, or_false] at hb
      rcases hb with (⟨ha, hb⟩ | hb) | hb
      · exact Or.inl (Or.inr ⟨by omega, ha⟩)
      · exact Or.inl (Or.inl (Or.inr hb))
      · rcases hb with (hb | hb) | hb
        · exact Or.inl (Or.inl (Or.inl (Or.inl (Or.inl hb))))
        · exact Or.inl (Or.inl (Or.inl (Or.inl (Or.inr hb))))
        · exact Or.inl (Or.inl (Or.inl (Or.inr hb)))
  · right
    have he : escapeLoop false (c :: rest) = c :: escapeLoop false rest := by
      simp only [escapeLoop]
      rw [if_neg hb]
    simp only [Bool.not_false, Bool.true_and, Bool.or_eq_true, Bool.and_eq_true,
      decide_eq_true_eq, beq_iff_eq, not_or, not_and] at hb
    obtain ⟨⟨⟨h32, hsemi⟩, hcom⟩, ⟨hdollar, hquote⟩, hback⟩ := hb
    have hgt : 32 < c.toNat := by
      by_contra hle
      exact h32 (by omega) (by omega)
    refine ⟨he, ?_, ?_, hquote, hback, ?_⟩
    · intro _
      simp only [needsBackslash, Bool.false_eq_true, if_false]
      have e3 : (c == '$') = false := beq_eq_false_iff_ne.mpr hdollar
      have e4 : (c == '"') = false := beq_eq_false_iff_ne.mpr hquote
      have e5 : (c == '\\') = false := beq_eq_false_iff_ne.mpr hback
      have e6 : (c == ';') = false := beq_eq_false_iff_ne.mpr hsemi
      have e7 : decide (c.toNat ≤ 32) = false := by
        rw [decide_eq_false_iff_not]
        omega
      simp [e3, e4, e5, e6, e7]
    · simp only [leSpace, Bool.or_eq_false_iff, decide_eq_false_iff_not]
      omega
    · intro hc
      exact hcom hc

/-- The escaped text is empty only for the empty word, and it starts with a backslash or with
the first character of the word. -/
theorem escapeLoop_head (l : List Char) :
    (escapeLoop false l = [] ↔ l = []) ∧
      ((escapeLoop false l).headD '\x00' = '\\' ∨
        (escapeLoop false l).headD '\x00' = l.headD '\x00') := by
  cases l with
  | nil => simp [escapeLoop]
  | cons c rest =>
    simp only [escapeLoop]
    split_ifs <;> simp

/-- The unquoted scan at the end of the text: the character in hand goes to the token. -/
theorem unquotedToken_end (c : Char) (e : Bool) (tok : List Char)
    (hc : e = true ∨ c ≠ '\\') :
    (unquotedToken c e tok []).token = tok ++ [c] ∧ (unquotedToken c e tok []).rest = [] := by
  have h : (e || c != '\\') = true := by
    rcases hc with rfl | hc
    · rfl
    · simp [hc]
  have h0 : leSpace '\x00' = true := by decide
  simp [unquotedToken, h, h0]

/-- The unquoted scan with one plain character left: both characters go to the token. -/
theorem unquotedToken_end_plain (c d : Char) (e : Bool) (tok : List Char)
    (hc : e = true ∨ c ≠ '\\') (hd : leSpace d = false) :
    (unquotedToken c e tok [d]).token = tok ++ [c, d] ∧
      (unquotedToken c e tok [d]).rest = [] := by
  have h : (e || c != '\\') = true := by
    rcases hc with rfl | hc
    · rfl
    · simp [hc]
  simp [unquotedToken, h, hd]

/-- The unquoted scan with a backslash in hand and one character left: that character is
lost. -/
theorem unquotedToken_end_escaped (d : Char) (tok : List Char) :
    (unquotedToken '\\' false tok [d]).token = tok ∧
      (unquotedToken '\\' false tok [d]).rest = [] := by
  simp [unquotedToken]

/-- The unquoted scan with a backslash in hand and more than one character left goes on with
the next character as an escaped one. -/
theorem unquotedToken_escaped_step (d : Char) (tok rest : List Char) (hne : rest ≠ []) :
    (unquotedToken '\\' false tok (d :: rest)).token = (unquotedToken d true tok rest).token ∧
      (unquotedToken '\\' false tok (d :: rest)).rest = (unquotedToken d true tok rest).rest := by
  have hr : rest.isEmpty = false := by
    cases rest with
    | nil => exact absurd rfl hne
    | cons a b => rfl
  rw [unquotedToken]
  simp [hr]

/-- The unquoted scan goes on over a character that ends nothing, when more text follows. -/
theorem unquotedToken_go (c d : Char) (e : Bool) (tok rest : List Char)
    (hc : e = true ∨ c ≠ '\\') (hne : rest ≠ []) (hd : leSpace d = false) (hq : d ≠ '"')
    (hnext : d = '/' → rest.headD '\x00' ≠ '/' ∧ rest.headD '\x00' ≠ '*') :
    (unquotedToken c e tok (d :: rest)).token =
        (unquotedToken d false (tok ++ [c]) rest).token ∧
      (unquotedToken c e tok (d :: rest)).rest =
        (unquotedToken d false (tok ++ [c]) rest).rest := by
  have h : (e || c != '\\') = true := by
    rcases hc with rfl | hc
    · rfl
    · simp [hc]
  have hr : rest.isEmpty = false := by
    cases rest with
    | nil => exact absurd rfl hne
    | cons a b => rfl
  have hs : (d == '/' && (rest.headD '\x00' == '/' || rest.headD '\x00' == '*')) = false := by
    rw [Bool.and_eq_false_iff]
    by_cases hd' : d = '/'
    · obtain ⟨n1, n2⟩ := hnext hd'
      right
      rw [Bool.or_eq_false_iff]
      exact ⟨beq_eq_false_iff_ne.mpr n1, beq_eq_false_iff_ne.mpr n2⟩
    · left
      exact beq_eq_false_iff_ne.mpr hd'
  have hq' : (d == '"') = false := beq_eq_false_iff_ne.mpr hq
  rw [unquotedToken]
  simp only [h, if_true, Bool.not_true, hr, Bool.not_false, Bool.true_and, hq', hs,
    Bool.or_self, hd, Bool.and_self, Bool.false_eq_true, if_false, Bool.or_false]
  exact ⟨trivial, trivial⟩

/-- The unquoted scan over an escaped word of 7-bit characters gives the word back, except
that a last character with a backslash before it is lost, and it reads to the end. -/
theorem unquotedToken_escapeLoop :
    ∀ w : List Char, (∀ x ∈ w, 1 ≤ x.toNat ∧ x.toNat ≤ 127) →
      ∀ (c : Char) (e : Bool) (tok : List Char), (e = true ∨ c ≠ '\\') →
        (unquotedToken c e tok (escapeLoop false w)).token = tok ++ c :: keptWord w ∧
          (unquotedToken c e tok (escapeLoop false w)).rest = [] := by
  intro w
  induction w with
  | nil =>
    intro _ c e tok hc
    have h := unquotedToken_end c e tok hc
    simpa [escapeLoop, keptWord] using h
  | cons a w ih =>
    intro hw c e tok hc
    obtain ⟨h1, h2⟩ := hw a (List.mem_cons_self _ _)
    have ih' := ih (fun x hx => hw x (List.mem_cons_of_mem _ hx))
    rcases escapeLoop_cons_cases a w h1 h2 with ⟨he, hlast⟩ | ⟨he, hlast, hsp, hq, hb, hnext⟩
    · rw [he]
      obtain ⟨g1, g2⟩ := unquotedToken_go c '\\' e tok (a :: escapeLoop false w) hc
        (List.cons_ne_nil _ _) (by decide) (by decide) (fun h => absurd h (by decide))
      rw [g1, g2]
      cases w with
      | nil =>
        obtain ⟨k1, k2⟩ := unquotedToken_end_escaped a (tok ++ [c])
        have he0 : escapeLoop false [] = [] := rfl
        rw [he0, k1, k2]
        simp [keptWord, hlast rfl]
      | cons d r =>
        have hne : escapeLoop false (d :: r) ≠ [] := fun h =>
          List.cons_ne_nil d r ((escapeLoop_head (d :: r)).1.mp h)
        obtain ⟨k1, k2⟩ := unquotedToken_escaped_step a (tok ++ [c])
          (escapeLoop false (d :: r)) hne
        obtain ⟨i1, i2⟩ := ih' a true (tok ++ [c]) (Or.inl rfl)
        rw [k1, k2, i1, i2]
        simp [keptWord]
    · rw [he]
      cases w with
      | nil =>
        obtain ⟨k1, k2⟩ := unquotedToken_end_plain c a e tok hc hsp
        have he0 : escapeLoop false [] = [] := rfl
        rw [he0, k1, k2]
        simp [keptWord, hlast rfl]
      | cons d r =>
        have hne : escapeLoop false (d :: r) ≠ [] := fun h =>
          List.cons_ne_nil d r ((escapeLoop_head (d :: r)).1.mp h)
        have hnext' : a = '/' → (escapeLoop false (d :: r)).headD '\x00' ≠ '/' ∧
            (escapeLoop false (d :: r)).headD '\x00' ≠ '*' := by
          intro ha
          obtain ⟨n1, n2⟩ := hnext ha
          rcases (escapeLoop_head (d :: r)).2 with hh | hh
          · rw [hh]
            exact ⟨by decide, by decide⟩
          · rw [hh]
            exact ⟨n1, n2⟩
        obtain ⟨g1, g2⟩ := unquotedToken_go c a e tok (escapeLoop false (d :: r)) hc hne hsp
          hq hnext'
        obtain ⟨i1, i2⟩ := ih' a false (tok ++ [c]) (Or.inr hb)
        rw [g1, g2, i1, i2]
        simp [keptWord]

/-- One iteration of the outer loop on an unquoted token that reads to the end of the text:
the token is added and the loop is left. -/
theorem tokenizeLoop_unquoted_all (fuel pos : Nat) (ts : Int) (tokens : List String)
    (starts : List Int) (c : Char) (rest : List Char) (hsp : leSpace c = false)
    (hq : c ≠ '"') (hnext : c = '/' → rest.headD '\x00' ≠ '/' ∧ rest.headD '\x00' ≠ '*')
    (hrest : (unquotedToken c false [] rest).rest = []) :
    (tokenizeLoop (fuel + 2) pos (c :: rest) ts tokens starts).map Prod.fst =
      some (tokens ++ [String.mk (unquotedToken c false [] rest).token]) := by
  have h1 : (c == '/' && !rest.isEmpty && rest.headD '\x00' == '/') = false := by
    rw [Bool.and_eq_false_iff]
    by_cases hc : c = '/'
    · right
      exact beq_eq_false_iff_ne.mpr (hnext hc).1
    · left
      rw [Bool.and_eq_false_iff]
      left
      exact beq_eq_false_iff_ne.mpr hc
  have h2 : (c == '/' && !rest.isEmpty && rest.headD '\x00' == '*') = false := by
    rw [Bool.and_eq_false_iff]
    by_cases hc : c = '/'
    · right
      exact beq_eq_false_iff_ne.mpr (hnext hc).2
    · left
      rw [Bool.and_eq_false_iff]
      left
      exact beq_eq_false_iff_ne.mpr hc
  have h3 : (c == '"' && !rest.isEmpty) = false := by
    rw [Bool.and_eq_false_iff]
    left
    exact beq_eq_false_iff_ne.mpr hq
  rw [tokenizeLoop]
  simp only [hsp, h1, h2, h3, Bool.false_eq_true, if_false, hrest]
  rw [tokenizeLoop]
  rfl

/-- What is kept of a word, by its last character. -/
theorem keptWord_last :
    ∀ (l : List Char) (z : Char), l.getLast? = some z →
      keptWord l = if needsBackslash false z none then l.dropLast else l := by
  intro l
  induction l with
  | nil =>
    intro z h
    simp at h
  | cons a l ih =>
    intro z h
    cases l with
    | nil =>
      have hz : a = z := by simpa using h
      subst hz
      simp only [keptWord, List.dropLast_single]
    | cons b r =>
      have h' : (b :: r).getLast? = some z := by
        rw [List.getLast?_cons_cons] at h
        exact h
      rw [keptWord, ih z h', List.dropLast_cons₂]
      split_ifs <;> rfl

/-- The tokens of a non-empty word of 7-bit characters escaped without quotes: one token,
which is the word when its last character needs no backslash, and the word without its last
character when it does. -/
theorem tokenize_escape_unquoted (w : String) (z : Char)
    (hch : ∀ c ∈ w.data, 1 ≤ c.toNat ∧ c.toNat ≤ 127) (hz : w.data.getLast? = some z) :
    (Tokenize (Escape w false) [] []).map Prod.fst =
      some [if needsBackslash false z none then String.mk w.data.dropLast else w] := by
  have hd : (Escape w false).data = escapeLoop false w.data := by
    simp [Escape]
  have hk := keptWord_last w.data z hz
  have hgoal : (Tokenize (Escape w false) [] []).map Prod.fst =
      some [String.mk (keptWord w.data)] := by
    unfold Tokenize
    rw [String.length, hd]
    cases hw : w.data with
    | nil =>
      rw [hw] at hz
      simp at hz
    | cons a l =>
      rw [hw] at hch
      obtain ⟨h1, h2⟩ := hch a (List.mem_cons_self _ _)
      have hl := fun x hx => hch x (List.mem_cons_of_mem _ hx)
      rcases escapeLoop_cons_cases a l h1 h2 with
        ⟨he, hlast⟩ | ⟨he, hlast, hsp, hq, hb, hnext⟩
      · rw [he]
        simp only [List.length_cons]
        cases l with
        | nil =>
          obtain ⟨k1, k2⟩ := unquotedToken_end_escaped a []
          have he0 : escapeLoop false [] = [] := rfl
          rw [he0]
          rw [tokenizeLoop_unquoted_all _ 0 0 [] [] '\\' [a] (by decide) (by decide)
            (fun h => absurd h (by decide)) k2, k1]
          simp [keptWord, hlast rfl]
        | cons d r =>
          have hne : escapeLoop false (d :: r) ≠ [] := fun h =>
            List.cons_ne_nil d r ((escapeLoop_head (d :: r)).1.mp h)
          obtain ⟨k1, k2⟩ := unquotedToken_escaped_step a [] (escapeLoop false (d :: r)) hne
          obtain ⟨i1, i2⟩ := unquotedToken_escapeLoop (d :: r) hl a true [] (Or.inl rfl)
          rw [tokenizeLoop_unquoted_all _ 0 0 [] [] '\\' (a :: escapeLoop false (d :: r))
            (by decide) (by decide) (fun h => absurd h (by decide)) (by rw [k2, i2]),
            k1, i1]
          simp [keptWord]
      · rw [he]
        have hnext' : a = '/' → (escapeLoop false l).headD '\x00' ≠ '/' ∧
            (escapeLoop false l).headD '\x00' ≠ '*' := by
          intro ha
          obtain ⟨n1, n2⟩ := hnext ha
          rcases (escapeLoop_head l).2 with hh | hh
          · rw [hh]
            exact ⟨by decide, by decide⟩
          · rw [hh]
            exact ⟨n1, n2⟩
        obtain ⟨i1, i2⟩ := unquotedToken_escapeLoop l hl a false [] (Or.inr hb)
        have hkept : a :: keptWord l = keptWord (a :: l) := by
          cases l with
          | nil => simp [keptWord, hlast rfl]
          | cons d r => simp [keptWord]
        simp only [List.length_cons]
        rw [tokenizeLoop_unquoted_all _ 0 0 [] [] a (escapeLoop false l) hsp hq hnext' i2, i1,
          ← hkept]
        simp
  rw [hgoal, hk]
  split_ifs
  · rfl
  · rfl

end Cmd

namespace Cmd

/-! Re-parsing what `EscapedArgs` builds. -/

/-- A word that needs no quotes is a non-empty plain word. -/
theorem needsQuotes_false (w : List Char) (h : needsQuotes w = false) :
    w ≠ [] ∧ plainWord w = true ∧ ';' ∉ w ∧ '$' ∉ w := by
  simp only [needsQuotes, Bool.or_eq_false_iff, Bool.not_eq_false', List.contains_eq_any_beq,
    List.any_eq_false, beq_iff_eq] at h
  obtain ⟨⟨⟨h1, h2⟩, h3⟩, h4⟩ := h
  refine ⟨?_, h2, fun hm => h3 ';' hm rfl, fun hm => h4 '$' hm rfl⟩
  intro hw
  rw [hw] at h1
  simp at h1

/-- The tokens of words that each follow a space, each written as `escapeWord` writes it. -/
theorem tokenizeLoop_escapedWords :
    ∀ (ws : List String) (fuel pos : Nat) (ts : Int) (tokens : List String)
      (starts : List Int),
      (ws.foldr (fun a r => ' ' :: ((escapeWord a).data ++ r)) []).length < fuel →
      (tokenizeLoop fuel pos (ws.foldr (fun a r => ' ' :: ((escapeWord a).data ++ r)) []) ts
        tokens starts).map Prod.fst = some (tokens ++ ws) := by
  intro ws
  induction ws with
  | nil =>
    intro fuel pos ts tokens starts hf
    match fuel, hf with
    | n + 1, _ => simp [tokenizeLoop]
  | cons w ws ih =>
    intro fuel pos ts tokens starts hf
    have ih' := ih (fuel - 2) 0 0 (tokens ++ [w]) []
    rw [List.foldr_cons] at hf ⊢
    have hhead : ∀ s rest, ws.foldr (fun a r => ' ' :: ((escapeWord a).data ++ r)) [] =
        s :: rest → leSpace s = true := by
      intro s rest he
      cases ws with
      | nil =>
        rw [List.foldr_nil] at he
        exact absurd he (by simp)
      | cons v vs =>
        rw [List.foldr_cons] at he
        have : s = ' ' := (List.cons.inj he).1.symm
        rw [this]
        decide
    generalize ws.foldr (fun a r => ' ' :: ((escapeWord a).data ++ r)) [] = text
      at hf ih' hhead ⊢
    have hsp : leSpace ' ' = true := by decide
    by_cases hq : needsQuotes w.data = true
    · have he : (escapeWord w).data = '"' :: (escapeLoop true w.data ++ ['"']) := by
        rw [escapeWord, if_pos hq, escape_quoted_data]
      rw [he] at hf ⊢
      simp only [List.cons_append, List.append_assoc, List.length_cons, List.length_append,
        List.nil_append] at hf ⊢
      match fuel, hf, ih' with
      | n + 2, hf, ih' =>
        simp only [Nat.add_sub_cancel] at ih'
        rw [tokenizeLoop_skip (n + 1) pos ts tokens starts ' ' _ hsp,
          tokenizeLoop_quoted n 0 0 tokens [] w.data text]
        have h2 := ih' (by omega)
        have hw : String.mk w.data = w := rfl
        rw [hw, h2]
        simp
    · have hq' : needsQuotes w.data = false := by
        simpa using hq
      obtain ⟨hne, hplain', -, -⟩ := needsQuotes_false w.data hq'
      have he : (escapeWord w).data = w.data := by
        rw [escapeWord, if_neg hq]
      obtain ⟨c, l, hcl⟩ := List.exists_cons_of_ne_nil hne
      have hplain : plainWord (c :: l) = true := by
        rw [← hcl]
        exact hplain'
      have hw' : String.mk (c :: l) = w := by
        rw [← hcl]
      rw [he, hcl] at hf ⊢
      simp only [List.length_cons, List.length_append] at hf
      match fuel, hf, ih' with
      | n + 2, hf, ih' =>
        simp only [Nat.add_sub_cancel] at ih'
        rw [tokenizeLoop_skip (n + 1) pos ts tokens starts ' ' _ hsp]
        cases text with
        | nil =>
          simp only [List.length_nil] at hf
          match n, hf, ih' with
          | m + 1, hf, ih' =>
            have h2 := ih' (Nat.succ_pos m)
            rw [tokenizeLoop] at h2
            rw [List.append_nil, tokenizeLoop_last m 0 0 tokens [] c l hplain, hw']
            simpa using h2
        | cons s rest =>
          have hn : (s :: rest).length < n := by
            simp only [List.length_cons] at hf ⊢
            omega
          have h2 := ih' hn
          rw [List.cons_append, tokenizeLoop_word n 0 0 tokens [] c s l rest hplain
            (hhead s rest rfl), hw']
          match n, hn, h2 with
          | m + 1, hn, h2 =>
            rw [tokenizeLoop_skip m 0 0 (tokens ++ [w]) [] s rest (hhead s rest rfl)] at h2
            have hf2 : rest.length < m := by
              simp only [List.length_cons] at hn
              omega
            rw [tokenizeLoop_fuel (m + 1) m rest (tokens ++ [w]) 0 0 [] (by omega) hf2, h2]
            simp

/-- The characters of words joined by single spaces, each written as `escapeWord` writes it,
behind what is already there. -/
theorem intercalate_go_escapeWord_data (ws : List String) :
    ∀ acc : String,
      (String.intercalate.go acc " " (ws.map escapeWord)).data =
        acc.data ++ ws.foldr (fun a r => ' ' :: ((escapeWord a).data ++ r)) [] := by
  induction ws with
  | nil =>
    intro acc
    simp [String.intercalate.go]
  | cons w ws ih =>
    intro acc
    rw [List.map_cons, String.intercalate.go, ih]
    simp [String.data_append]

/-- Tokenizing what `EscapedArgs` builds from a list of words gives the words back. -/
theorem tokenize_escapedWords (ws : List String) :
    (Tokenize (" ".intercalate (ws.map escapeWord)) [] []).map Prod.fst = some ws := by
  cases ws with
  | nil => decide
  | cons w ws =>
    have h := tokenizeLoop_escapedWords (w :: ws)
      (((escapeWord w).data ++
        ws.foldr (fun a r => ' ' :: ((escapeWord a).data ++ r)) []).length + 2) 0 0 [] []
      (by rw [List.foldr_cons, List.length_cons]; omega)
    rw [List.foldr_cons, tokenizeLoop_skip _ 0 0 [] [] ' ' _ (by decide)] at h
    unfold Tokenize
    rw [String.length, List.map_cons, String.intercalate, intercalate_go_escapeWord_data, h]
    rfl

/-- Words that need no quotes are joined as they are. -/
theorem escapeWord_plain (ws : List String) (h : ∀ x ∈ ws, needsQuotes x.data = false) :
    ws.map escapeWord = ws := by
  induction ws with
  | nil => rfl
  | cons w ws ih =>
    rw [List.map_cons, ih (fun x hx => h x (List.mem_cons_of_mem _ hx))]
    have hw := h w (List.mem_cons_self _ _)
    simp [escapeWord, hw]

end Cmd

namespace Rcon

/-- C12: on the tokens "rcon", p, w2, ..., wn with a server password configured, `Decode`
returns a message without error, of level `Unencrypted`, whose password is the token p, whose
challenge is empty and whose address is the one given. Its command is the tokens w2..wn, each
escaped on its own, joined by single spaces: every token, as escaped, tokenizes to that token
alone, the command tokenizes to the tokens w2..wn, and where no token needs quotes the
command is the tokens themselves joined by single spaces. -/
theorem Message.decode_rcon (cv : Cvars) (cr : Crypto) (remote : netadr_t) (p w : String)
    (ws : List String) (starts : List Int) (hp : cv.cvar_server_password ≠ "") :
    ∃ m, Message.Decode cv cr remote ⟨"rcon" :: p :: w :: ws, starts⟩ = some m ∧
      m.error = "" ∧ m.secure = Secure.Unencrypted ∧ m.password = p ∧ m.challenge = "" ∧
      m.remote = remote ∧
      m.command = " ".intercalate ((w :: ws).map Cmd.escapeWord) ∧
      (∀ x ∈ w :: ws, (Cmd.Tokenize (Cmd.escapeWord x) [] []).map Prod.fst = some [x]) ∧
      (Cmd.Tokenize m.command [] []).map Prod.fst = some (w :: ws) ∧
      ((∀ x ∈ w :: ws, Cmd.needsQuotes x.data = false) →
        m.command = " ".intercalate (w :: ws)) := by
  have hk : ¬ ("rcon" ≠ "rcon" ∧ "rcon" ≠ "srcon") := by decide
  refine ⟨Message.new remote (" ".intercalate ((w :: ws).map Cmd.escapeWord))
    Secure.Unencrypted p "", ?_, rfl, rfl, rfl, rfl, rfl, rfl, ?_, ?_, ?_⟩
  · rw [Message.decode_three, if_neg hk, if_neg hp, if_pos rfl]
  · intro x _
    exact Cmd.tokenize_escapedWords [x]
  · exact Cmd.tokenize_escapedWords (w :: ws)
  · intro h
    show " ".intercalate ((w :: ws).map Cmd.escapeWord) = " ".intercalate (w :: ws)
    rw [Cmd.escapeWord_plain (w :: ws) h]

/-- C12, at the tokens "rcon", "guess", "say", "hello world" on a server whose password is
"secret": the password is "guess", and the command is the word say, a space, and the words
hello world between quotes, which tokenizes to the two tokens again. -/
theorem Message.decode_rcon_witness :
    ∃ m, Message.Decode ⟨"secret", Secure.Unencrypted⟩
        ⟨id, fun p _ => some p, fun c _ => some c, id, some⟩ 7
        ⟨"rcon" :: "guess" :: "say" :: ["hello world"], [0, 5, 11, 15]⟩ = some m ∧
      m.error = "" ∧ m.secure = Secure.Unencrypted ∧ m.password = "guess" ∧
      m.challenge = "" ∧ m.remote = 7 ∧ m.command = "say \"hello world\"" ∧
      (Cmd.Tokenize m.command [] []).map Prod.fst = some ["say", "hello world"] :=
  (Message.decode_rcon ⟨"secret", Secure.Unencrypted⟩
    ⟨id, fun p _ => some p, fun c _ => some c, id, some⟩ 7 "guess" "say" ["hello world"]
    [0, 5, 11, 15] (by decide)).elim
    (fun m h => ⟨m, h.1, h.2.1, h.2.2.1, h.2.2.2.1, h.2.2.2.2.1, h.2.2.2.2.2.1,
      h.2.2.2.2.2.2.1.trans (by decide), h.2.2.2.2.2.2.2.2.1⟩)

end Rcon

namespace Rcon

/-! The CHALLENGE plaintext in general. -/

/-- The level of the message decoded from a CHALLENGE plaintext, and its challenge: the first
piece without whitespace, behind any leading whitespace. -/
theorem decodePlaintext_challenge_word (cv : Cvars) (remote : netadr_t) (plain : String) :
    (decodePlaintext cv remote "CHALLENGE" plain).secure = Secure.EncryptedChallenge ∧
      (decodePlaintext cv remote "CHALLENGE" plain).challenge =
        String.mk ((plain.data.dropWhile cisspace).takeWhile (fun c => !cisspace c)) := by
  unfold decodePlaintext
  simp only [beq_self_eq_true, if_true]
  refine ⟨rfl, ?_⟩
  show (istringstream.extract { buf := plain.data, eofbit := false, failbit := false } "").2 = _
  simp only [istringstream.extract, istringstream.good, Bool.not_false, Bool.and_self,
    Bool.not_true, Bool.false_eq_true, if_false]
  cases h : plain.data.dropWhile cisspace with
  | nil => rfl
  | cons a l => simp

/-- A text splits into its leading run of characters that pass a test and the rest, which, if
any, starts with a character that fails it. -/
theorem dropWhile_head {α : Type} (p : α → Bool) (l : List α) (a : α) (t : List α)
    (h : l.dropWhile p = a :: t) : p a = false := by
  have := List.head_dropWhile_not p l (by rw [h]; exact List.cons_ne_nil _ _)
  simpa [h] using this

/-- The command of the message decoded from a CHALLENGE plaintext in which something other
than whitespace follows the challenge: what follows, up to its first newline. -/
theorem decodePlaintext_challenge_command (cv : Cvars) (remote : netadr_t) (plain : String)
    (r : Char) (rs : List Char)
    (h : ((plain.data.dropWhile cisspace).dropWhile (fun c => !cisspace c)).dropWhile cisspace =
      r :: rs) :
    (decodePlaintext cv remote "CHALLENGE" plain).command =
      String.mk ((r :: rs).takeWhile (fun c => c != '\n')) := by
  have hr : cisspace r = false := dropWhile_head cisspace _ r rs h
  have h1 := List.takeWhile_append_dropWhile cisspace plain.data
  have h2 := List.takeWhile_append_dropWhile (fun c => !cisspace c)
    (plain.data.dropWhile cisspace)
  have h3 := List.takeWhile_append_dropWhile cisspace
    ((plain.data.dropWhile cisspace).dropWhile (fun c => !cisspace c))
  rw [h] at h3
  have hsepne : ((plain.data.dropWhile cisspace).dropWhile (fun c => !cisspace c)).takeWhile
      cisspace ≠ [] := by
    intro he
    rw [he, List.nil_append] at h3
    have hb : (fun c => !cisspace c) r = false :=
      dropWhile_head (fun c => !cisspace c) (plain.data.dropWhile cisspace) r rs h3.symm
    simp [hr] at hb
  have hwordne : (plain.data.dropWhile cisspace).takeWhile (fun c => !cisspace c) ≠ [] := by
    intro he
    rw [he, List.nil_append] at h2
    cases hA : plain.data.dropWhile cisspace with
    | nil =>
      rw [hA] at h
      simp at h
    | cons a t =>
      have ha : cisspace a = false := dropWhile_head cisspace _ a t hA
      rw [hA] at he
      simp [List.takeWhile_cons, ha] at he
  have hP : plain.data =
      plain.data.takeWhile cisspace ++
        (plain.data.dropWhile cisspace).takeWhile (fun c => !cisspace c) ++
        ((plain.data.dropWhile cisspace).dropWhile (fun c => !cisspace c)).takeWhile cisspace ++
        r :: rs := by
    rw [List.append_assoc, List.append_assoc, h3, h2, h1]
  rw [decodePlaintext_challenge cv remote plain _ _ _ r rs hP
    (fun c hc => List.mem_takeWhile_imp hc) hwordne
    (fun c hc => by simpa using List.mem_takeWhile_imp hc) hsepne
    (fun c hc => List.mem_takeWhile_imp hc) hr]

end Rcon

namespace Rcon

/-- C15 (amended): an "srcon" request with the method "CHALLENGE" that decrypts to a plaintext
P decodes, for every P, to a message without error of level `EncryptedChallenge` whose
password is the server password and whose challenge is the first piece of P without
whitespace, behind any leading whitespace: the piece the specification reads off P when P
does not begin with whitespace. When a character other than whitespace follows the run of
whitespace behind that piece, the command is what follows, up to its first newline: the
command the specification reads off P when P does not begin with whitespace and that
remainder holds no newline. For the empty P both are as the specification reads them. -/
theorem Message.decode_challenge (cv : Cvars) (cr : Crypto) (remote : netadr_t)
    (a2 data plain : String) (rest : List String) (starts : List Int)
    (hp : cv.cvar_server_password ≠ "") (hb : cr.Base64Decode a2 = some data)
    (hd : cr.Aes256Decrypt data (cr.Sha256 cv.cvar_server_password) = some plain) :
    ∃ m, Message.Decode cv cr remote ⟨"srcon" :: "CHALLENGE" :: a2 :: rest, starts⟩ = some m ∧
      m.error = "" ∧ m.secure = Secure.EncryptedChallenge ∧
      m.password = cv.cvar_server_password ∧ m.remote = remote ∧
      m.challenge =
        String.mk ((plain.data.dropWhile cisspace).takeWhile (fun c => !cisspace c)) ∧
      ((∀ c, plain.data.head? = some c → cisspace c = false) →
        m.challenge = specChallenge plain) ∧
      (∀ r rs,
        ((plain.data.dropWhile cisspace).dropWhile (fun c => !cisspace c)).dropWhile cisspace =
          r :: rs →
        m.command = String.mk ((r :: rs).takeWhile (fun c => c != '\n'))) ∧
      ((∀ c, plain.data.head? = some c → cisspace c = false) → specCommand plain ≠ "" →
        '\n' ∉ (specCommand plain).data → m.command = specCommand plain) ∧
      (plain = "" → m.challenge = specChallenge plain ∧ m.command = specCommand plain) := by
  have hk : ¬ ("srcon" ≠ "rcon" ∧ "srcon" ≠ "srcon") := by decide
  have hr' : ¬ ("srcon" = "rcon") := by decide
  have hdec : Message.Decode cv cr remote ⟨"srcon" :: "CHALLENGE" :: a2 :: rest, starts⟩ =
      some (decodePlaintext cv remote "CHALLENGE" plain) := by
    rw [Message.decode_three, if_neg hk, if_neg hp, if_neg hr', hb]
    simp only [hd]
  obtain ⟨hpw, herr, hrem⟩ := decodePlaintext_password cv remote "CHALLENGE" plain
  obtain ⟨hsec, hch⟩ := decodePlaintext_challenge_word cv remote plain
  have hlead : (∀ c, plain.data.head? = some c → cisspace c = false) →
      plain.data.dropWhile cisspace = plain.data := by
    intro h
    cases hpd : plain.data with
    | nil => rfl
    | cons a t =>
      have ha : cisspace a = false := h a (by rw [hpd]; rfl)
      simp [List.dropWhile_cons, ha]
  refine ⟨_, hdec, herr, hsec, hpw, hrem, hch, ?_, ?_, ?_, ?_⟩
  · intro h
    rw [hch, hlead h]
    rfl
  · intro r rs h
    exact decodePlaintext_challenge_command cv remote plain r rs h
  · intro h hne hnl
    have hdata : (specCommand plain).data ≠ [] := data_ne_nil_of_ne_empty _ hne
    obtain ⟨r, rs, hrs⟩ := List.exists_cons_of_ne_nil hdata
    have hrest : ((plain.data.dropWhile cisspace).dropWhile
        (fun c => !cisspace c)).dropWhile cisspace = r :: rs := by
      rw [hlead h]
      exact hrs
    rw [decodePlaintext_challenge_command cv remote plain r rs hrest]
    have hall : (r :: rs).takeWhile (fun c => c != '\n') = r :: rs := by
      rw [List.takeWhile_eq_self_iff]
      intro c hc
      simp only [bne_iff_ne, ne_eq]
      intro he
      apply hnl
      rw [hrs, ← he]
      exact hc
    rw [hall, ← hrs]
  · intro h
    subst h
    exact ⟨rfl, rfl⟩

/-- C15 (amended), at the plaintext "abc123 map ffa" of the specification: the challenge is
"abc123" and the command "map ffa". -/
theorem Message.decode_challenge_witness :
    ∃ m, Message.Decode ⟨"secret", Secure.EncryptedChallenge⟩
        ⟨id, fun p _ => some p, fun c _ => some c, id, some⟩ 7
        ⟨"srcon" :: "CHALLENGE" :: "abc123 map ffa" :: [], [0, 6, 16]⟩ = some m ∧
      m.error = "" ∧ m.secure = Secure.EncryptedChallenge ∧ m.password = "secret" ∧
      m.remote = 7 ∧ m.challenge = "abc123" ∧ m.command = "map ffa" :=
  (Message.decode_challenge ⟨"secret", Secure.EncryptedChallenge⟩
    ⟨id, fun p _ => some p, fun c _ => some c, id, some⟩ 7 "abc123 map ffa" "abc123 map ffa"
    "abc123 map ffa" [] [0, 6, 16] (by decide) rfl rfl).elim
    (fun m h => ⟨m, h.1, h.2.1, h.2.2.1, h.2.2.2.1, h.2.2.2.2.1,
      h.2.2.2.2.2.1.trans (by decide),
      (h.2.2.2.2.2.2.2.1 'm' "ap ffa".data (by decide)).trans (by decide)⟩)

end Rcon
